import Mathlib

/-!
Verification of the Virta workflow engine core against its specification.

This file gives a shallow embedding of the relevant source functions:

* `Core`: the DAG pipeline engine (`buildLevels`, `runLevel`, `runPipeline`
  from packages/core/src/index.ts).  Step identity (the TS constructor
  reference) is embedded as a natural-number token.  Intra-level
  concurrency is modelled by the canonical linearization in level order;
  the properties proved here (status logic, error collection) are
  insensitive to the interleaving.
* `Reg`: the intermediate DAG model, the step registry and the
  bidirectional conversions (StepRegistry.ts, converter and
  PipelineDefinition of the registry package).
* `Planner`: critical-path analysis and execution-mode planning
  (criticalPath.ts, planner.ts).  JS numbers are embedded as rationals.
* `Runner`: the hybrid adapter and the fallback chain runner
  (adapters/hybrid.ts, fallback-chain.ts), with the underlying adapters
  supplied as abstract functions exactly as they are injected through the
  TS constructors.
* `Asl`: stepRef extraction from ASL task-state resources (asl import).

Loops that are `while` loops in the source are embedded with an explicit
fuel argument so that the functions compute by reduction; every theorem
that talks about such a function proves that the supplied fuel is never
exhausted on the covered inputs.
-/

namespace Core

/-- Execution hint of a step (`ExecutionHint` in the source):
lambda-only, step-functions-only or auto. -/
inductive ExecutionHint where
  | lambdaOnly
  | stepFunctionsOnly
  | auto
deriving DecidableEq, Repr

/-- Per-step timing estimates (`StepMetadata.timing`). -/
structure StepTiming where
  p50Ms : Option Rat := none
  p99Ms : Option Rat := none
deriving DecidableEq, Repr

/-- Optional per-step metadata (`StepMetadata`). -/
structure StepMetadata where
  executionHint : Option ExecutionHint := none
  timing : Option StepTiming := none
deriving DecidableEq, Repr

/-- One entry of a pipeline definition (`RegisteredStep`).  The TS step
constructor is embedded as its identity token, a natural number. -/
structure RegisteredStep where
  ctor : Nat
  dependsOn : Option (List Nat) := none
  meta : Option StepMetadata := none
deriving DecidableEq, Repr

/-- A pipeline definition (`PipelineDefinition`): an ordered list of
registered steps. -/
structure PipelineDefinition where
  steps : List RegisteredStep
deriving DecidableEq, Repr

/-- The dependency list of a step: `step.dependsOn ?? []` in the source. -/
def depsOf (s : RegisteredStep) : List Nat :=
  s.dependsOn.getD []

/-- The token list of a definition, in insertion order. -/
def ctorsOf (d : PipelineDefinition) : List Nat :=
  d.steps.map (·.ctor)

/-- Does the list contain a repeated element?  This mirrors the
`seenCtors` duplicate scan of `buildLevels`. -/
def hasDup : List Nat → Bool
  | [] => false
  | x :: xs => xs.contains x || hasDup xs

/-- Does the step reference a dependency token that is not registered in
the definition?  Mirrors the per-step `forEach` registration check. -/
def hasUnregisteredDep (allCtors : List Nat) (s : RegisteredStep) : Bool :=
  (depsOf s).any (fun d => !(allCtors.contains d))

/-- The steps of the current wave: the remaining steps whose dependencies
are all resolved, in insertion order (`ready` in the source). -/
def readySteps (resolved : List Nat) (remaining : List RegisteredStep) :
    List RegisteredStep :=
  remaining.filter (fun s => (depsOf s).all (fun d => resolved.contains d))

/-- The wave-expansion loop of `buildLevels`.  Each iteration of the
source `while` loop first checks every remaining step for unregistered
dependencies (the per-step `forEach` throw), collects the ready wave,
raises the cycle error when the wave is empty, and otherwise removes the
wave from the remaining map.  The fuel argument bounds the number of
iterations; `buildLevels` passes `remaining.length`, which is sufficient
because every iteration removes at least one step, so the out-of-fuel
branch (which returns the same cycle error the loop would eventually
raise) is unreachable from `buildLevels`. -/
def buildLevelsGo (allCtors : List Nat) :
    Nat → List Nat → List RegisteredStep → Except String (List (List Nat))
  | _, _, [] => .ok []
  | 0, _, _ :: _ => .error "Cyclic or unsatisfied dependencies detected"
  | fuel + 1, resolved, remaining@(_ :: _) =>
    if remaining.any (hasUnregisteredDep allCtors) then
      .error "Step dependency not registered"
    else
      let ready := readySteps resolved remaining
      if ready.isEmpty then
        .error "Cyclic or unsatisfied dependencies detected"
      else
        let readyCtors := ready.map (·.ctor)
        match buildLevelsGo allCtors fuel (resolved ++ readyCtors)
            (remaining.filter (fun s => !(readyCtors.contains s.ctor))) with
        | .error e => .error e
        | .ok ls => .ok (readyCtors :: ls)

/-- `buildLevels`: validates uniqueness and dependency resolution and
groups the tokens into execution levels. -/
def buildLevels (d : PipelineDefinition) : Except String (List (List Nat)) :=
  if hasDup (ctorsOf d) then
    .error "Duplicate step constructor registered"
  else
    buildLevelsGo (ctorsOf d) d.steps.length [] d.steps

/-- The mutable transformation context (`TransformationContext`). -/
structure Ctx (S T : Type) where
  source : S
  target : T
  stopPipeline : Bool := false
  error : Option String := none

/-- The observable effect of one step execution on the context: the new
accumulator, the new stop flag, and the raised failure if any. -/
structure StepOutcome (T : Type) where
  target : T
  stopPipeline : Bool
  thrown : Option String

/-- A step environment: the behaviour of the step constructed from each
token, as a function of the context it observes. -/
def StepImpl (S T : Type) := Nat → Ctx S T → StepOutcome T

/-- One recorded failure (`PipelineErrorEntry`). -/
structure PipelineErrorEntry where
  step : Nat
  error : String
deriving DecidableEq, Repr

/-- Terminal pipeline status. -/
inductive PipelineStatus where
  | success
  | error
  | stopped
deriving DecidableEq, Repr

/-- The structured result of a run (`PipelineResult`). -/
structure PipelineResult (S T : Type) where
  status : PipelineStatus
  context : Ctx S T
  errors : List PipelineErrorEntry
  executedSteps : List Nat
  completedLevels : List (List Nat)

/-- Executes one step on the shared context: applies the step's effect
and, on failure, records the error into `ctx.error` exactly as the
runner's catch branch does. -/
def runStep {S T : Type} (impl : StepImpl S T) (c : Nat) (ctx : Ctx S T) :
    Ctx S T × Option String :=
  let o := impl c ctx
  match o.thrown with
  | some e =>
    ({ ctx with
        target := o.target
        stopPipeline := o.stopPipeline
        error := some e }, some e)
  | none =>
    ({ ctx with target := o.target, stopPipeline := o.stopPipeline }, none)

/-- Executes a level (`runLevel`): every step of the level runs over the
shared context; successful steps are appended to `executedSteps` and
failing steps to `errors`.  The source starts the steps concurrently and
awaits all of them; the embedding linearizes them in level order. -/
def runLevel {S T : Type} (impl : StepImpl S T) :
    List Nat → Ctx S T → Ctx S T × List Nat × List PipelineErrorEntry
  | [], ctx => (ctx, [], [])
  | c :: rest, ctx =>
    let r1 := runStep impl c ctx
    let r2 := runLevel impl rest r1.1
    match r1.2 with
    | some e => (r2.1, r2.2.1, ⟨c, e⟩ :: r2.2.2)
    | none => (r2.1, c :: r2.2.1, r2.2.2)

/-- Executes the levels sequentially (`runPipeline`'s `for` loop): after
each level the runner records it as completed and breaks when the level
failed or the stop flag is set. -/
def runLevels {S T : Type} (impl : StepImpl S T) :
    List (List Nat) → Ctx S T →
    Ctx S T × List Nat × List PipelineErrorEntry × List (List Nat)
  | [], ctx => (ctx, [], [], [])
  | lv :: rest, ctx =>
    let r := runLevel impl lv ctx
    if !r.2.2.isEmpty || r.1.stopPipeline then
      (r.1, r.2.1, r.2.2, [lv])
    else
      let r2 := runLevels impl rest r.1
      (r2.1, r.2.1 ++ r2.2.1, r.2.2 ++ r2.2.2.1, lv :: r2.2.2.2)

/-- The options of a run (`RunPipelineOptions`, hooks omitted). -/
structure RunPipelineOptions (S T : Type) where
  source : S
  target : T

/-- `runPipeline`: builds the levels and executes them.  A `buildLevels`
failure is not caught by the source function, so it propagates to the
caller; the embedding surfaces it as the `Except.error` case. -/
def runPipeline {S T : Type} (impl : StepImpl S T) (d : PipelineDefinition)
    (options : RunPipelineOptions S T) : Except String (PipelineResult S T) :=
  match buildLevels d with
  | .error e => .error e
  | .ok levels =>
    let ctx0 : Ctx S T :=
      { source := options.source, target := options.target }
    let r := runLevels impl levels ctx0
    .ok {
      status :=
        if !r.2.2.1.isEmpty then .error
        else if r.1.stopPipeline then .stopped
        else .success
      context := r.1
      errors := r.2.2.1
      executedSteps := r.2.1
      completedLevels := r.2.2.2 }

end Core

namespace Reg

/-- Node kind of the intermediate DAG model (`NodeType`). -/
inductive NodeType where
  | task
  | parallel
  | choice
  | pass
deriving DecidableEq, Repr

/-- A JSON-like value, used for the opaque `config` payload carried by
intermediate-model nodes. -/
inductive Json where
  | null
  | bool (b : Bool)
  | num (q : Rat)
  | str (s : String)
  | arr (elems : List Json)
  | obj (fields : List (String × Json))
deriving BEq, Repr

/-- A node of the intermediate DAG model (`PipelineNodeDefinition`). -/
structure PipelineNodeDefinition where
  id : String
  type : NodeType
  dependsOn : List String
  stepRef : Option String := none
  config : Option Json := none
deriving Repr

/-- The intermediate DAG model (`PipelineDefinition` of the registry
package). -/
structure PipelineDefinition where
  nodes : List PipelineNodeDefinition
  entryNodes : Option (List String) := none
deriving Repr

/-- The step registry (`StepRegistry`): an id-to-constructor map in
registration order with unique keys (`register` rejects duplicates). -/
abbrev StepRegistry := List (String × Nat)

/-- Key-value insertion that replaces an existing binding in place,
mirroring `Map.set` of JS (which keeps first-insertion order). -/
def upsert {α β : Type} [BEq α] : List (α × β) → α → β → List (α × β)
  | [], k, v => [(k, v)]
  | e :: rest, k, v =>
    if e.1 == k then (k, v) :: rest else e :: upsert rest k v

/-- Map lookup (`Map.get`): the value of the first matching key. -/
def lookupA {α β : Type} [BEq α] : List (α × β) → α → Option β
  | [], _ => none
  | e :: rest, k => if e.1 == k then some e.2 else lookupA rest k

/-- `StepRegistry.resolve`: fails with a not-found error on an
unregistered id. -/
def resolve (r : StepRegistry) (id : String) : Except String Nat :=
  match lookupA r id with
  | some c => .ok c
  | none => .error ("Unknown stepRef: " ++ id)

/-- The object-field view a JS `x && typeof x === "object"` guard
produces: objects expose their fields, arrays pass the guard but expose
none of the accessed string fields, everything else fails the guard. -/
def jsonFields : Json → Option (List (String × Json))
  | .obj fs => some fs
  | .arr _ => some []
  | _ => none

/-- Field access on a JSON object. -/
def getField (fields : List (String × Json)) (k : String) : Option Json :=
  (fields.find? (fun f => f.1 == k)).map (·.2)

/-- `extractMetadata`: reads `StepMetadata` from the conventional
`config.metadata` location, validating each field as the source does. -/
def extractMetadata (config : Option Json) : Option Core.StepMetadata :=
  match config with
  | none => none
  | some c =>
    match jsonFields c with
    | none => none
    | some cf =>
      match (getField cf "metadata").bind jsonFields with
      | none => none
      | some mf =>
        let hint : Option Core.ExecutionHint :=
          match getField mf "executionHint" with
          | some (.str "lambda-only") => some .lambdaOnly
          | some (.str "step-functions-only") => some .stepFunctionsOnly
          | some (.str "auto") => some .auto
          | _ => none
        let timing : Option Core.StepTiming :=
          match (getField mf "timing").bind jsonFields with
          | none => none
          | some tf =>
            some {
              p50Ms :=
                match getField tf "p50Ms" with
                | some (.num q) => some q
                | _ => none
              p99Ms :=
                match getField tf "p99Ms" with
                | some (.num q) => some q
                | _ => none }
        if hint.isSome || timing.isSome then
          some { executionHint := hint, timing := timing }
        else none

/-- Serializes an execution hint back to its wire string. -/
def hintToStr : Core.ExecutionHint → String
  | .lambdaOnly => "lambda-only"
  | .stepFunctionsOnly => "step-functions-only"
  | .auto => "auto"

/-- Serializes step timing as the JSON object the TS structure denotes
(absent fields are omitted). -/
def timingToJson (t : Core.StepTiming) : Json :=
  .obj
    ((match t.p50Ms with
      | some q => [("p50Ms", Json.num q)]
      | none => []) ++
     (match t.p99Ms with
      | some q => [("p99Ms", Json.num q)]
      | none => []))

/-- Serializes step metadata as the `{ metadata: step.meta }` config
object built by `registeredStepsToPipelineDefinition`. -/
def metaToJson (m : Core.StepMetadata) : Json :=
  .obj [("metadata", .obj
    ((match m.executionHint with
      | some h => [("executionHint", Json.str (hintToStr h))]
      | none => []) ++
     (match m.timing with
      | some t => [("timing", timingToJson t)]
      | none => [])))]

/-- First pass of `pipelineDefinitionToRegisteredSteps`: resolves every
node's `stepRef` through the registry, accumulating the node-id to
constructor map. -/
def buildNodeIdToCtor (reg : StepRegistry) :
    List PipelineNodeDefinition → List (String × Nat) →
    Except String (List (String × Nat))
  | [], acc => .ok acc
  | n :: rest, acc =>
    match n.stepRef with
    | none => .error ("Node \"" ++ n.id ++ "\" has no stepRef")
    | some ref =>
      match resolve reg ref with
      | .error e => .error e
      | .ok c => buildNodeIdToCtor reg rest (upsert acc n.id c)

/-- Dependency translation of the second pass: each dependency node id is
mapped to the constructor resolved for that node. -/
def resolveNodeDeps (m : List (String × Nat)) (nid : String) :
    List String → Except String (List Nat)
  | [] => .ok []
  | d :: rest =>
    match lookupA m d with
    | none =>
      .error ("Node \"" ++ nid ++ "\" depends on \"" ++ d ++
        "\" which is not found in pipeline definition")
    | some c =>
      match resolveNodeDeps m nid rest with
      | .error e => .error e
      | .ok cs => .ok (c :: cs)

/-- Second pass of `pipelineDefinitionToRegisteredSteps`: builds the
`RegisteredStep` list.  The source reads the node's constructor with a
non-null assertion, justified because the first pass populated every
node id; the embedding mirrors that with a default that is never
reached. -/
def convertNodes (m : List (String × Nat)) :
    List PipelineNodeDefinition → Except String (List Core.RegisteredStep)
  | [] => .ok []
  | n :: rest =>
    let c := (lookupA m n.id).getD 0
    match resolveNodeDeps m n.id n.dependsOn with
    | .error e => .error e
    | .ok deps =>
      match convertNodes m rest with
      | .error e => .error e
      | .ok steps =>
        .ok ({ ctor := c
               dependsOn := if deps.isEmpty then none else some deps
               meta := extractMetadata n.config } :: steps)

/-- `pipelineDefinitionToRegisteredSteps`: converts the intermediate DAG
model to the core model through the registry. -/
def pipelineDefinitionToRegisteredSteps (defn : PipelineDefinition)
    (reg : StepRegistry) : Except String (List Core.RegisteredStep) :=
  match buildNodeIdToCtor reg defn.nodes [] with
  | .error e => .error e
  | .ok m => convertNodes m defn.nodes

/-- The constructor-to-registry-name map of
`registeredStepsToPipelineDefinition`: built over the registry entries in
registration order, a later name for the same constructor overwriting an
earlier one. -/
def buildCtorToId (reg : StepRegistry) : List (Nat × String) :=
  reg.foldl (fun acc e => upsert acc e.2 e.1) []

/-- First pass of `registeredStepsToPipelineDefinition`: creates one task
node per step, its id being the registry name of its constructor, and
accumulates the constructor-to-node-id map. -/
def firstPassNodes (ctorToId : List (Nat × String)) :
    List Core.RegisteredStep → List (Nat × String) →
    Except String (List PipelineNodeDefinition × List (Nat × String))
  | [], acc => .ok ([], acc)
  | s :: rest, acc =>
    match lookupA ctorToId s.ctor with
    | none => .error "Step constructor is not registered in the registry"
    | some ref =>
      match firstPassNodes ctorToId rest (upsert acc s.ctor ref) with
      | .error e => .error e
      | .ok r =>
        .ok ({ id := ref
               type := .task
               dependsOn := []
               stepRef := some ref
               config := s.meta.map metaToJson } :: r.1, r.2)

/-- Translates a step's constructor dependencies to node ids in the
second pass. -/
def resolveStepDeps (m : List (Nat × String)) :
    List Nat → Except String (List String)
  | [] => .ok []
  | c :: rest =>
    match lookupA m c with
    | none => .error "Dependency is not found in the registered steps"
    | some nid =>
      match resolveStepDeps m rest with
      | .error e => .error e
      | .ok nids => .ok (nid :: nids)

/-- Mutation of `node.dependsOn` through `nodes.find`: updates the first
node carrying the given id. -/
def setDepsOnFirst (nodes : List PipelineNodeDefinition) (nid : String)
    (deps : List String) : List PipelineNodeDefinition :=
  match nodes with
  | [] => []
  | n :: rest =>
    if n.id == nid then { n with dependsOn := deps } :: rest
    else n :: setDepsOnFirst rest nid deps

/-- Second pass of `registeredStepsToPipelineDefinition`: fills in the
dependency lists of the nodes created by the first pass. -/
def secondPassDeps (m : List (Nat × String)) :
    List Core.RegisteredStep → List PipelineNodeDefinition →
    Except String (List PipelineNodeDefinition)
  | [], nodes => .ok nodes
  | s :: rest, nodes =>
    let nid := (lookupA m s.ctor).getD ""
    match s.dependsOn with
    | none => secondPassDeps m rest nodes
    | some deps =>
      if deps.isEmpty then secondPassDeps m rest nodes
      else
        match resolveStepDeps m deps with
        | .error e => .error e
        | .ok nids => secondPassDeps m rest (setDepsOnFirst nodes nid nids)

/-- `registeredStepsToPipelineDefinition`: converts the core model back
to the intermediate DAG model through the registry. -/
def registeredStepsToPipelineDefinition (steps : List Core.RegisteredStep)
    (reg : StepRegistry) : Except String PipelineDefinition :=
  let ctorToId := buildCtorToId reg
  match firstPassNodes ctorToId steps [] with
  | .error e => .error e
  | .ok r =>
    match secondPassDeps r.2 steps r.1 with
    | .error e => .error e
    | .ok nodes =>
      let entry := (nodes.filter (fun n => n.dependsOn.isEmpty)).map (·.id)
      .ok { nodes := nodes
            entryNodes := if entry.isEmpty then none else some entry }

end Reg

namespace Planner

/-- Timing estimates of a pipeline path (`PathTiming`). -/
structure PathTiming where
  optimisticMs : Rat
  pessimisticMs : Rat
deriving DecidableEq, Repr

/-- Critical path information (`CriticalPath`). -/
structure CriticalPath where
  nodeIds : List String
  timing : PathTiming
deriving DecidableEq, Repr

/-- The node-id to metadata record (`MetadataByNodeId`). -/
abbrev MetadataByNodeId := List (String × Core.StepMetadata)

/-- Record lookup on the metadata map. -/
def metaLookup (m : MetadataByNodeId) (id : String) : Option Core.StepMetadata :=
  Reg.lookupA m id

/-- Resolved timing of a node in `computeCriticalPath`: p50 defaults to
1000 ms, p99 to twice the resolved p50. -/
def nodeTiming (meta : MetadataByNodeId) (n : Reg.PipelineNodeDefinition) :
    PathTiming :=
  let p50 := (((metaLookup meta n.id).bind (·.timing)).bind (·.p50Ms)).getD 1000
  let p99 := (((metaLookup meta n.id).bind (·.timing)).bind (·.p99Ms)).getD (p50 * 2)
  ⟨p50, p99⟩

/-- The `nodeMap` of `computeCriticalPath`: node id to dependency list
and resolved timing, built in node order with `Map.set` semantics. -/
def buildNodeMap (meta : MetadataByNodeId)
    (nodes : List Reg.PipelineNodeDefinition) :
    List (String × (List String × PathTiming)) :=
  nodes.foldl (fun acc n => Reg.upsert acc n.id (n.dependsOn, nodeTiming meta n)) []

/-- The entry ids of a definition: the explicit `entryNodes` when
provided, otherwise the nodes without dependencies. -/
def entryIdsOf (defn : Reg.PipelineDefinition) : List String :=
  match defn.entryNodes with
  | some l => l
  | none => (defn.nodes.filter (fun n => n.dependsOn.isEmpty)).map (·.id)

/-- One entry of the `longestPath` map: the best path found to a node so
far and its accumulated timing. -/
structure LPEntry where
  path : List String
  timing : PathTiming
deriving DecidableEq, Repr

/-- Relaxation of one candidate dependent during the processing of node
`n` (the body of the `for (const dependent of def.nodes)` loop): updates
the dependent's longest path when the new distance is strictly better
(larger pessimistic, or equal pessimistic and larger optimistic), and
enqueues the dependent once all its dependencies are processed and it is
not already queued. -/
def relaxOne (nodeMap : List (String × (List String × PathTiming)))
    (processed : List String) (n : String) (cur : LPEntry)
    (dep : Reg.PipelineNodeDefinition)
    (lp : List (String × LPEntry)) (q : List String) :
    List (String × LPEntry) × List String :=
  if dep.dependsOn.contains n then
    match Reg.lookupA nodeMap dep.id with
    | none => (lp, q)
    | some nd =>
      let newOpt := cur.timing.optimisticMs + nd.2.optimisticMs
      let newPess := cur.timing.pessimisticMs + nd.2.pessimisticMs
      let lp' :=
        match Reg.lookupA lp dep.id with
        | none =>
          Reg.upsert lp dep.id ⟨cur.path ++ [dep.id], ⟨newOpt, newPess⟩⟩
        | some dp =>
          if newPess > dp.timing.pessimisticMs ∨
              (newPess = dp.timing.pessimisticMs ∧
               newOpt > dp.timing.optimisticMs) then
            Reg.upsert lp dep.id ⟨cur.path ++ [dep.id], ⟨newOpt, newPess⟩⟩
          else lp
      let q' :=
        if dep.dependsOn.all (fun d => processed.contains d) &&
            !(q.contains dep.id) then
          q ++ [dep.id]
        else q
      (lp', q')
  else (lp, q)

/-- Relaxes every node of the definition against the just-processed node
`n`, in definition order. -/
def relaxAll (nodeMap : List (String × (List String × PathTiming)))
    (processed : List String) (n : String) (cur : LPEntry) :
    List Reg.PipelineNodeDefinition →
    List (String × LPEntry) × List String →
    List (String × LPEntry) × List String
  | [], st => st
  | dep :: rest, st =>
    relaxAll nodeMap processed n cur rest (relaxOne nodeMap processed n cur dep st.1 st.2)

/-- The queue-driven longest-path loop of `computeCriticalPath`.  Each
iteration pops the queue head; already-processed ids are skipped; a new
id is marked processed and, when it is a known node, relaxes all of its
dependents.  The fuel bounds the number of iterations; the value passed
by `computeCriticalPath` is shown sufficient in the theorems below. -/
def goCP (defn : Reg.PipelineDefinition)
    (nodeMap : List (String × (List String × PathTiming))) :
    Nat → List (String × LPEntry) → List String → List String →
    List (String × LPEntry)
  | 0, lp, _, _ => lp
  | _ + 1, lp, _, [] => lp
  | fuel + 1, lp, processed, n :: rest =>
    if processed.contains n then goCP defn nodeMap fuel lp processed rest
    else
      let processed' := n :: processed
      match Reg.lookupA nodeMap n with
      | none => goCP defn nodeMap fuel lp processed' rest
      | some _ =>
        let cur := (Reg.lookupA lp n).getD ⟨[n], ⟨0, 0⟩⟩
        let st := relaxAll nodeMap processed' n cur defn.nodes (lp, rest)
        goCP defn nodeMap fuel st.1 processed' st.2

/-- The exit nodes: nodes on which no other node depends. -/
def exitNodesOf (defn : Reg.PipelineDefinition) :
    List Reg.PipelineNodeDefinition :=
  defn.nodes.filter
    (fun n => !(defn.nodes.any (fun o => o.dependsOn.contains n.id)))

/-- Selection of the exit node with the longest pessimistic path (first
exit wins ties, matching the strict comparison of the source). -/
def bestExit (lp : List (String × LPEntry)) :
    List Reg.PipelineNodeDefinition → Option LPEntry → Option LPEntry
  | [], best => best
  | e :: rest, best =>
    match Reg.lookupA lp e.id, best with
    | some p, none => bestExit lp rest (some p)
    | some p, some b =>
      bestExit lp rest
        (if p.timing.pessimisticMs > b.timing.pessimisticMs then some p else some b)
    | none, b => bestExit lp rest b

/-- The fallback of `computeCriticalPath` when no exit node exists: the
longest path over all map values. -/
def bestValue : List (String × LPEntry) → Option LPEntry → Option LPEntry
  | [], best => best
  | e :: rest, best =>
    bestValue rest
      (match best with
       | none => some e.2
       | some b =>
         if e.2.timing.pessimisticMs > b.timing.pessimisticMs then some e.2 else some b)

/-- Fuel for the longest-path loop: an upper bound on the number of loop
iterations (each id enters the queue at most once per completion of its
dependencies, see the invariant proofs). -/
def cpFuel (defn : Reg.PipelineDefinition) (entries : List String) : Nat :=
  (defn.nodes.length + entries.length) * (defn.nodes.length + 1) +
    entries.length + 1

/-- `computeCriticalPath`: the longest path through a DAG under the
resolved per-node timings. -/
def computeCriticalPath (defn : Reg.PipelineDefinition)
    (meta : MetadataByNodeId) : Except String CriticalPath :=
  let nodeMap := buildNodeMap meta defn.nodes
  let entries := entryIdsOf defn
  if entries.isEmpty then .error "Pipeline has no entry nodes"
  else
    let lp0 := entries.foldl (fun acc eid =>
      match Reg.lookupA nodeMap eid with
      | some nd => Reg.upsert acc eid ⟨[eid], nd.2⟩
      | none => acc) []
    let lp := goCP defn nodeMap (cpFuel defn entries) lp0 [] entries
    let exits := exitNodesOf defn
    if exits.isEmpty then
      match bestValue lp none with
      | none => .error "Could not compute critical path"
      | some best => .ok ⟨best.path, best.timing⟩
    else
      match bestExit lp exits none with
      | none => .error "Could not compute critical path"
      | some best => .ok ⟨best.path, best.timing⟩

/-- Execution mode of a plan (`ExecutionMode`): `lambda` is the inline
mode, `stepFunctions` the orchestrated mode. -/
inductive ExecutionMode where
  | lambda
  | stepFunctions
  | hybrid
deriving DecidableEq, Repr

/-- Planner configuration (`PlannerConfig`): `lambdaMaxMs` is the budget,
`safetyMargin` defaults to 0.1. -/
structure PlannerConfig where
  lambdaMaxMs : Rat
  defaultExecutionMode : Option ExecutionMode := none
  safetyMargin : Option Rat := none
deriving Repr

/-- The execution plan (`ExecutionPlan`).  The numeric interpolations of
the `reasoning` strings are elided; each branch of the planner keeps its
distinctive marker string. -/
structure ExecutionPlan where
  mode : ExecutionMode
  criticalPath : CriticalPath
  lambdaNodes : Option (List String) := none
  stepFunctionsNodes : Option (List String) := none
  reasoning : List String
deriving DecidableEq, Repr

/-- The node time used by the hybrid cut walk:
`meta?.timing?.p99Ms ?? 1000` (note the flat 1000 ms default, unlike the
critical-path timing resolution). -/
def cutNodeTime (meta : MetadataByNodeId) (id : String) : Rat :=
  (((metaLookup meta id).bind (·.timing)).bind (·.p99Ms)).getD 1000

/-- The walk over the critical path of `findHybridCutPoint`: nodes join
the Lambda side while the accumulated pessimistic time stays within the
limit; the first node that does not fit sends itself and the whole
remainder to the Step Functions side.  Returns the two sides and the
final accumulated time of the Lambda side. -/
def cutWalk (meta : MetadataByNodeId) (limit : Rat) :
    List String → Rat → List String × List String × Rat
  | [], pfxTime => ([], [], pfxTime)
  | id :: rest, pfxTime =>
    let t := cutNodeTime meta id
    if pfxTime + t ≤ limit then
      let r := cutWalk meta limit rest (pfxTime + t)
      (id :: r.1, r.2.1, r.2.2)
    else ([], id :: rest, pfxTime)

/-- Assignment of the nodes that are not on the critical path: a node
with at least one dependency joins the Lambda side when all of its
dependencies are already on the Lambda side (as accumulated so far, in
definition order); every other off-path node joins the Step Functions
side. -/
def assignOffPath (cpIds : List String) :
    List Reg.PipelineNodeDefinition → List String → List String →
    List String × List String
  | [], lam, sfn => (lam, sfn)
  | n :: rest, lam, sfn =>
    if cpIds.contains n.id then assignOffPath cpIds rest lam sfn
    else if !n.dependsOn.isEmpty &&
        n.dependsOn.all (fun d => lam.contains d) then
      assignOffPath cpIds rest (lam ++ [n.id]) sfn
    else assignOffPath cpIds rest lam (sfn ++ [n.id])

/-- `findHybridCutPoint`: attempts a hybrid split of the pipeline along
the critical path. -/
def findHybridCutPoint (defn : Reg.PipelineDefinition)
    (meta : MetadataByNodeId) (config : PlannerConfig)
    (cp : CriticalPath) : Option ExecutionPlan :=
  let sm := config.safetyMargin.getD (1/10)
  let safeLambdaLimit := config.lambdaMaxMs * (1 - sm)
  let w := cutWalk meta (safeLambdaLimit * (7/10)) cp.nodeIds 0
  if !w.1.isEmpty && !w.2.1.isEmpty then
    let assigned := assignOffPath cp.nodeIds defn.nodes w.1 w.2.1
    some { mode := .hybrid
           criticalPath := cp
           lambdaNodes := some assigned.1
           stepFunctionsNodes := some assigned.2
           reasoning := ["Found hybrid cut point", "Lambda prefix time"] }
  else none

/-- `planExecution`: computes the critical path and selects the
execution mode. -/
def planExecution (defn : Reg.PipelineDefinition) (meta : MetadataByNodeId)
    (config : PlannerConfig) : Except String ExecutionPlan :=
  match computeCriticalPath defn meta with
  | .error e => .error e
  | .ok cp =>
    let hasStepFunctionsOnly := defn.nodes.any (fun n =>
      match (metaLookup meta n.id).bind (·.executionHint) with
      | some .stepFunctionsOnly => true
      | _ => false)
    if hasStepFunctionsOnly then
      .ok { mode := .stepFunctions
            criticalPath := cp
            reasoning := ["Critical path",
              "At least one step requires Step Functions execution"] }
    else
      let sm := config.safetyMargin.getD (1/10)
      let safeLambdaLimit := config.lambdaMaxMs * (1 - sm)
      let pessimisticTime := cp.timing.pessimisticMs
      if pessimisticTime ≥ safeLambdaLimit then
        .ok { mode := .stepFunctions
              criticalPath := cp
              reasoning := ["Critical path", "Safe Lambda limit",
                "Pessimistic time exceeds safe Lambda limit"] }
      else if pessimisticTime ≥ safeLambdaLimit * (8/10) then
        match findHybridCutPoint defn meta config cp with
        | some plan => .ok plan
        | none =>
          .ok { mode := .lambda
                criticalPath := cp
                reasoning := ["Critical path", "Safe Lambda limit",
                  "Pessimistic time is close to safe limit, considering hybrid mode",
                  "Pessimistic time is well within safe Lambda limit"] }
      else
        .ok { mode := .lambda
              criticalPath := cp
              reasoning := ["Critical path", "Safe Lambda limit",
                "Pessimistic time is well within safe Lambda limit"] }

end Planner

namespace Runner

/-- A failure raised by an adapter run: either the distinguished
`LambdaTimeoutError` or any other error. -/
inductive RunError where
  | lambdaTimeout (message : String)
  | failure (message : String)
deriving DecidableEq, Repr

/-- `FallbackChainRunner.runWithFallbackChain`, with the three injected
adapter runs represented by their outcomes on the given definition and
options: Lambda is tried first; a `LambdaTimeoutError` from Lambda
triggers the Hybrid attempt, and any Hybrid failure triggers the Fargate
attempt; every other failure is rethrown. -/
def runWithFallbackChain {R : Type} (lam hyb far : Except RunError R) :
    Except RunError R :=
  match lam with
  | .ok r => .ok r
  | .error (.lambdaTimeout _) =>
    match hyb with
    | .ok r => .ok r
    | .error _ => far
  | .error (.failure m) => .error (.failure m)

/-- The result of `PipelineSplitter.splitPipeline` (`SplitResult`); the
`prefix` field of the source is spelled `pre` here. -/
structure SplitResult where
  pre : Core.PipelineDefinition
  suffix : Core.PipelineDefinition

/-- `PipelineSplitter.splitPipeline`: splits after half of the steps;
definitions with fewer than two steps cannot be split. -/
def splitPipeline (definition : Core.PipelineDefinition) :
    Option SplitResult :=
  let steps := definition.steps
  if steps.length < 2 then none
  else
    some ⟨⟨steps.take (steps.length / 2)⟩, ⟨steps.drop (steps.length / 2)⟩⟩

/-- `HybridAdapter.run`, with the injected Lambda and Step Functions
adapters represented as abstract run functions over a common payload
type (the source erases the type boundary with an `as any` cast): when
the definition cannot be split everything runs on Lambda; otherwise the
prefix runs on Lambda, a non-success prefix result is returned
unchanged, and on success the suffix runs on Step Functions with the
prefix's accumulated target as its source, the executed steps and
completed levels of both stages being concatenated. -/
def hybridRun {V : Type}
    (lambdaRun sfnRun :
      Core.PipelineDefinition → Core.RunPipelineOptions V V →
      Core.PipelineResult V V)
    (definition : Core.PipelineDefinition)
    (options : Core.RunPipelineOptions V V) : Core.PipelineResult V V :=
  match splitPipeline definition with
  | none => lambdaRun definition options
  | some split =>
    let prefixResult := lambdaRun split.pre options
    if prefixResult.status ≠ .success then prefixResult
    else
      let suffixOptions : Core.RunPipelineOptions V V :=
        { source := prefixResult.context.target, target := options.target }
      let suffixResult := sfnRun split.suffix suffixOptions
      { suffixResult with
          executedSteps :=
            prefixResult.executedSteps ++ suffixResult.executedSteps
          completedLevels :=
            prefixResult.completedLevels ++ suffixResult.completedLevels }

end Runner

namespace Asl

/-- An ASL `Resource` value: a string or any non-string JSON value. -/
inductive AslResource where
  | str (s : String)
  | other
deriving DecidableEq, Repr

/-- The character class `[^:]` of the resource patterns. -/
def notColon (c : Char) : Bool := c != ':'

/-- Strips an exact literal from the front of the text. -/
def stripLit : List Char → List Char → Option (List Char)
  | [], l => some l
  | _ :: _, [] => none
  | c :: cs, x :: xs => if x = c then stripLit cs xs else none

/-- Matches, at the current position, the regular-expression tail
`PRE [^:]+ : [^:]+ : KW ([^:]+)` where `PRE` and `KW` are literals (the
source patterns are `arn:aws:lambda:[^:]+:[^:]+:function:([^:]+)` and
`arn:aws:states:[^:]+:[^:]+:activity:([^:]+)`).  Because every `[^:]+`
is followed by a literal colon, greedy matching admits no backtracking:
each run is exactly the maximal colon-free run.  Returns the capture. -/
def matchResAt (pre kw : List Char) (l : List Char) : Option (List Char) :=
  match stripLit pre l with
  | none => none
  | some r1 =>
    let a := r1.takeWhile notColon
    if a.isEmpty then none
    else
      match r1.dropWhile notColon with
      | ':' :: r3 =>
        let b := r3.takeWhile notColon
        if b.isEmpty then none
        else
          match r3.dropWhile notColon with
          | ':' :: r5 =>
            match stripLit kw r5 with
            | none => none
            | some r6 =>
              let c := r6.takeWhile notColon
              if c.isEmpty then none else some c
          | _ => none
      | _ => none

/-- Unanchored leftmost regular-expression search, as `String.match`
performs: tries the pattern at every position from the left. -/
def searchRes (pre kw : List Char) : List Char → Option (List Char)
  | [] => none
  | x :: rest =>
    match matchResAt pre kw (x :: rest) with
    | some c => some c
    | none => searchRes pre kw rest

/-- `resource.split(":")` at the character level: splits on every colon,
preserving empty segments. -/
def splitOnColon : List Char → List (List Char)
  | [] => [[]]
  | c :: rest =>
    if c = ':' then [] :: splitOnColon rest
    else
      match splitOnColon rest with
      | [] => [[c]]
      | r :: rs => (c :: r) :: rs

/-- `resource.startsWith("arn:")` at the character level. -/
def startsWithArn (resource : String) : Bool :=
  (stripLit "arn:".data resource.data).isSome

/-- `extractStepRefFromResource`: Lambda-ARN function name, else
activity-ARN activity name, else the literal for non-ARN strings, else
the last colon-separated ARN segment (or the whole resource when that
segment is empty, matching the falsy-fallback `|| resource`). -/
def extractStepRefFromResource (resource : String) : String :=
  match searchRes "arn:aws:lambda:".data "function:".data resource.data with
  | some c => String.mk c
  | none =>
    match searchRes "arn:aws:states:".data "activity:".data resource.data with
    | some c => String.mk c
    | none =>
      if !startsWithArn resource then resource
      else
        match (splitOnColon resource.data).getLast? with
        | some lastSeg =>
          if lastSeg.isEmpty then resource else String.mk lastSeg
        | none => resource

/-- The `stepRef` chosen by `aslToPipelineDefinition` for a `Task` state:
string resources go through `extractStepRefFromResource`; a missing or
non-string resource falls back to the state name. -/
def aslTaskStepRef (stateName : String) (resource : Option AslResource) :
    String :=
  match resource with
  | some (.str s) => extractStepRefFromResource s
  | some .other => stateName
  | none => stateName

end Asl

namespace Core

/-- Acyclicity of a definition's dependency graph, in the standard
finite form: every nonempty subset of the tokens contains a token none
of whose dependencies lies in the subset. -/
def Acyclic (d : PipelineDefinition) : Prop :=
  ∀ ts ∈ ((ctorsOf d).toFinset).powerset, ts.Nonempty →
    ∃ t ∈ ts, ∀ s ∈ d.steps, s.ctor = t → ∀ u ∈ depsOf s, u ∉ ts

/-- The leveling contract L1 to L4 plus within-level insertion order:
the levels cover exactly the tokens (L1), every token appears in exactly
one level (L2, as no-duplication of the concatenation), every dependency
edge crosses from a strictly earlier level to a later one (L3), no
dependency edge joins two tokens of one level (L4), and every level
lists its tokens in definition insertion order. -/
def BuildLevelsSpec (d : PipelineDefinition) (L : List (List Nat)) : Prop :=
  (∀ t, t ∈ L.flatten ↔ t ∈ ctorsOf d) ∧
  L.flatten.Nodup ∧
  (∀ s ∈ d.steps, ∀ u ∈ depsOf s, ∀ i j lvi lvj,
      L.get? i = some lvi → L.get? j = some lvj →
      u ∈ lvi → s.ctor ∈ lvj → i < j) ∧
  (∀ s ∈ d.steps, ∀ u ∈ depsOf s, ∀ lv ∈ L, s.ctor ∈ lv → u ∉ lv) ∧
  (∀ lv ∈ L, lv.Sublist (ctorsOf d))

end Core

namespace Planner

/-- Acyclicity of an intermediate-model dependency graph, in the same
finite subset form as `Core.Acyclic`. -/
def AcyclicNodes (nodes : List Reg.PipelineNodeDefinition) : Prop :=
  ∀ ts ∈ ((nodes.map (·.id)).toFinset).powerset, ts.Nonempty →
    ∃ t ∈ ts, ∀ n ∈ nodes, n.id = t → ∀ d ∈ n.dependsOn, d ∉ ts

/-- First node carrying the given id. -/
def nodeById (defn : Reg.PipelineDefinition) (i : String) :
    Option Reg.PipelineNodeDefinition :=
  defn.nodes.find? (fun n => n.id == i)

/-- There is a dependency edge from `u` to `v`. -/
def HasNEdge (defn : Reg.PipelineDefinition) (u v : String) : Prop :=
  ∃ n ∈ defn.nodes, n.id = v ∧ u ∈ n.dependsOn

/-- The id has a node without dependencies (a default entry). -/
def IsEntryId (defn : Reg.PipelineDefinition) (v : String) : Prop :=
  ∃ n ∈ defn.nodes, n.id = v ∧ n.dependsOn = []

/-- The id is a node on which no node depends (an exit). -/
def IsSinkId (defn : Reg.PipelineDefinition) (v : String) : Prop :=
  v ∈ defn.nodes.map (·.id) ∧ ∀ n ∈ defn.nodes, v ∉ n.dependsOn

/-- The id list walks consecutive dependency edges through existing
nodes. -/
def IsChain (defn : Reg.PipelineDefinition) : List String → Prop
  | [] => True
  | [v] => v ∈ defn.nodes.map (·.id)
  | u :: v :: rest =>
    u ∈ defn.nodes.map (·.id) ∧ HasNEdge defn u v ∧ IsChain defn (v :: rest)

/-- A root path: a nonempty chain starting at a node without
dependencies. -/
def IsRootPath (defn : Reg.PipelineDefinition) : List String → Prop
  | [] => False
  | v :: rest => IsEntryId defn v ∧ IsChain defn (v :: rest)

/-- A root-to-sink path: a root path ending at an exit node. -/
def IsRootToSinkPath (defn : Reg.PipelineDefinition) (l : List String) :
    Prop :=
  IsRootPath defn l ∧ ∃ z, l.getLast? = some z ∧ IsSinkId defn z

/-- The resolved timing of an id (zero when the id has no node). -/
def idTiming (defn : Reg.PipelineDefinition) (meta : MetadataByNodeId)
    (i : String) : PathTiming :=
  match nodeById defn i with
  | some n => nodeTiming meta n
  | none => ⟨0, 0⟩

/-- Total pessimistic time along an id list. -/
def pessSum (defn : Reg.PipelineDefinition) (meta : MetadataByNodeId)
    (l : List String) : Rat :=
  (l.map (fun i => (idTiming defn meta i).pessimisticMs)).sum

/-- Total optimistic time along an id list. -/
def optSum (defn : Reg.PipelineDefinition) (meta : MetadataByNodeId)
    (l : List String) : Rat :=
  (l.map (fun i => (idTiming defn meta i).optimisticMs)).sum

/-- Total hybrid-cut walk time along an id list (flat per-node
default). -/
def cutSum (meta : MetadataByNodeId) (l : List String) : Rat :=
  (l.map (cutNodeTime meta)).sum

/-- The loop invariant of the longest-path computation, over the state
(longest-path table, processed list, queue).  Every table entry is a
genuine root path with correct sums ending at its key; processed node
ids carry a table entry bounding every root path to them; for every
processed id appearing as a dependency the recorded relaxation bound
holds; dependencies of processed and queued nodes are processed; a node
whose dependencies are all processed is processed or queued; queued ids
are node ids with table entries; and dependency-free nodes keep their
seeded pessimistic value. -/
structure CPInv (defn : Reg.PipelineDefinition) (meta : MetadataByNodeId)
    (lp : List (String × LPEntry)) (processed q : List String) : Prop where
  sound : ∀ v ent, Reg.lookupA lp v = some ent →
    IsRootPath defn ent.path ∧ ent.path.getLast? = some v ∧
    optSum defn meta ent.path = ent.timing.optimisticMs ∧
    pessSum defn meta ent.path = ent.timing.pessimisticMs
  procUB : ∀ v ∈ processed, ∀ n ∈ defn.nodes, n.id = v →
    ∃ ent, Reg.lookupA lp v = some ent ∧
      ∀ p, IsRootPath defn p → p.getLast? = some v →
        pessSum defn meta p ≤ ent.timing.pessimisticMs
  relaxed : ∀ u ∈ processed, ∀ n ∈ defn.nodes, u ∈ n.dependsOn →
    ∃ entu entn, Reg.lookupA lp u = some entu ∧
      Reg.lookupA lp n.id = some entn ∧
      entu.timing.pessimisticMs + (nodeTiming meta n).pessimisticMs ≤
        entn.timing.pessimisticMs
  procClosed : ∀ v ∈ processed, ∀ n ∈ defn.nodes, n.id = v →
    ∀ d ∈ n.dependsOn, d ∈ processed
  queueDeps : ∀ v ∈ q, ∀ n ∈ defn.nodes, n.id = v →
    ∀ d ∈ n.dependsOn, d ∈ processed
  progress : ∀ n ∈ defn.nodes, (∀ d ∈ n.dependsOn, d ∈ processed) →
    n.id ∈ processed ∨ n.id ∈ q
  queueNode : ∀ v ∈ q, v ∈ defn.nodes.map (·.id)
  queueLP : ∀ v ∈ q, ∃ ent, Reg.lookupA lp v = some ent
  entrySeed : ∀ n ∈ defn.nodes, n.dependsOn = [] →
    ∃ ent, Reg.lookupA lp n.id = some ent ∧
      ent.timing.pessimisticMs = (nodeTiming meta n).pessimisticMs

end Planner

namespace Ex

/-- Concrete step environment for the runner instances: token 1 sets the
stop flag, every other token increments the accumulator. -/
def implC1 : Core.StepImpl Nat Nat := fun c ctx =>
  if c = 1 then ⟨ctx.target + 10, true, none⟩
  else ⟨ctx.target + 1, ctx.stopPipeline, none⟩

/-- A linear three-step definition 0 ← 1 ← 2. -/
def defC1 : Core.PipelineDefinition :=
  ⟨[⟨0, none, none⟩, ⟨1, some [0], none⟩, ⟨2, some [1], none⟩]⟩

/-- Options of the concrete run. -/
def optsC1 : Core.RunPipelineOptions Nat Nat := ⟨5, 0⟩

/-- The result of the concrete run: stopped after the second level. -/
def resC1 : Core.PipelineResult Nat Nat :=
  { status := .stopped
    context := { source := 5, target := 11, stopPipeline := true, error := none }
    errors := []
    executedSteps := [0, 1]
    completedLevels := [[0], [1]] }

/-- A definition registering the same constructor twice. -/
def defDup : Core.PipelineDefinition := ⟨[⟨0, none, none⟩, ⟨0, none, none⟩]⟩

/-- A two-step definition, splittable by the pipeline splitter. -/
def defSplit : Core.PipelineDefinition := ⟨[⟨0, none, none⟩, ⟨1, some [0], none⟩]⟩

/-- A non-success (stopped) adapter result. -/
def resStop : Core.PipelineResult Nat Nat :=
  { status := .stopped
    context := { source := 1, target := 7, stopPipeline := true, error := none }
    errors := []
    executedSteps := [0]
    completedLevels := [[0]] }

/-- A successful adapter result. -/
def resOk : Core.PipelineResult Nat Nat :=
  { status := .success
    context := { source := 1, target := 9, stopPipeline := false, error := none }
    errors := []
    executedSteps := [0]
    completedLevels := [[0]] }

/-- A second successful adapter result, distinguishable from `resOk`. -/
def resOk2 : Core.PipelineResult Nat Nat :=
  { status := .success
    context := { source := 2, target := 3, stopPipeline := false, error := none }
    errors := []
    executedSteps := [1]
    completedLevels := [[1]] }

/-- An adapter returning the stopped result. -/
def lamStop : Core.PipelineDefinition → Core.RunPipelineOptions Nat Nat →
    Core.PipelineResult Nat Nat := fun _ _ => resStop

/-- An adapter returning the first successful result. -/
def lamOk : Core.PipelineDefinition → Core.RunPipelineOptions Nat Nat →
    Core.PipelineResult Nat Nat := fun _ _ => resOk

/-- An adapter returning the second successful result. -/
def sfnOk2 : Core.PipelineDefinition → Core.RunPipelineOptions Nat Nat →
    Core.PipelineResult Nat Nat := fun _ _ => resOk2

/-- An adapter returning the stopped result (used to show the suffix
adapter is irrelevant when the prefix fails). -/
def sfnStop : Core.PipelineDefinition → Core.RunPipelineOptions Nat Nat →
    Core.PipelineResult Nat Nat := fun _ _ => resStop

/-- A chain a ← b with an isolated off-path node x. -/
def n7c : Reg.PipelineDefinition :=
  ⟨[{ id := "a", type := .task, dependsOn := [] },
    { id := "b", type := .task, dependsOn := ["a"] },
    { id := "x", type := .task, dependsOn := [] }], none⟩

/-- Timings for `n7c`. -/
def m7c : Planner.MetadataByNodeId :=
  [("a", { timing := some { p50Ms := some 300, p99Ms := some 600 } }),
   ("b", { timing := some { p50Ms := some 300, p99Ms := some 600 } }),
   ("x", { timing := some { p50Ms := some 1, p99Ms := some 1 } })]

/-- Planner configuration with a 1000 ms budget (safe limit 900 ms, cut
limit 630 ms). -/
def cfg7 : Planner.PlannerConfig := { lambdaMaxMs := 1000 }

/-- The critical path of `n7c` under `m7c`. -/
def cp7 : Planner.CriticalPath := ⟨["a", "b"], ⟨600, 1200⟩⟩

/-- A two-node chain whose pessimistic time exceeds the safe budget. -/
def n6 : Reg.PipelineDefinition :=
  ⟨[{ id := "a", type := .task, dependsOn := [] },
    { id := "b", type := .task, dependsOn := ["a"] }], none⟩

/-- Timings for `n6` (p99 600000 and 400000 ms). -/
def m6 : Planner.MetadataByNodeId :=
  [("a", { timing := some { p99Ms := some 600000 } }),
   ("b", { timing := some { p99Ms := some 400000 } })]

/-- Planner configuration with the default 12 minute budget. -/
def cfg6 : Planner.PlannerConfig := { lambdaMaxMs := 720000 }

/-- The critical path of `n6` under `m6` (default p50 of 1000 ms per
node). -/
def cp6 : Planner.CriticalPath := ⟨["a", "b"], ⟨2000, 1000000⟩⟩

/-- A definition whose single step depends on an unregistered token. -/
def defMissing : Core.PipelineDefinition := ⟨[⟨0, some [5], none⟩]⟩

/-- A definition with a two-step dependency cycle. -/
def defCyc : Core.PipelineDefinition :=
  ⟨[⟨0, some [1], none⟩, ⟨1, some [0], none⟩]⟩

/-- A one-entry registry mapping the name `validate` to constructor 0. -/
def reg4 : Reg.StepRegistry := [("validate", 0)]

/-- A single-task model whose node id `step1` differs from its
registered stepRef `validate`. -/
def n4 : Reg.PipelineDefinition :=
  ⟨[⟨"step1", Reg.NodeType.task, [], some "validate", none⟩], none⟩

/-- The core steps the forward conversion produces from `n4`. -/
def steps4 : List Core.RegisteredStep := [⟨0, none, none⟩]

/-- The model the backward conversion produces from `steps4`: the node
is renamed to the registry name `validate`. -/
def n4r : Reg.PipelineDefinition :=
  ⟨[⟨"validate", Reg.NodeType.task, [], some "validate", none⟩],
   some ["validate"]⟩

/-- A two-entry registry for the round-trip witness. -/
def reg4w : Reg.StepRegistry := [("va", 0), ("vb", 1)]

/-- A two-node model whose ids coincide with their registered stepRefs
and whose entry list is the default one. -/
def n4w : Reg.PipelineDefinition :=
  ⟨[⟨"va", Reg.NodeType.task, [], some "va", none⟩,
    ⟨"vb", Reg.NodeType.task, ["va"], some "vb", none⟩], some ["va"]⟩

/-- Two isolated nodes with equal pessimistic but different optimistic
times. -/
def n5 : Reg.PipelineDefinition :=
  ⟨[⟨"a", Reg.NodeType.task, [], none, none⟩,
    ⟨"b", Reg.NodeType.task, [], none, none⟩], none⟩

/-- Metadata for `n5`: node `a` has optimistic 1 and pessimistic 10,
node `b` optimistic 5 and pessimistic 10. -/
def m5 : Planner.MetadataByNodeId :=
  [("a", ⟨none, some ⟨some 1, some 10⟩⟩),
   ("b", ⟨none, some ⟨some 5, some 10⟩⟩)]

end Ex

/-- C1.  For every definition and initial context on which the run
returns a result, the status is `success` exactly when no step raised a
failure (the collected error list, which records precisely the raising
steps, is empty) and the stop flag ended false; `stopped` exactly when
the stop flag ended true and no step raised; and `error` exactly when at
least one step raised. -/
theorem c1_run_status {S T : Type} (impl : Core.StepImpl S T)
    (d : Core.PipelineDefinition) (opts : Core.RunPipelineOptions S T)
    (r : Core.PipelineResult S T)
    (h : Core.runPipeline impl d opts = .ok r) :
    (r.status = .success ↔ r.errors = [] ∧ r.context.stopPipeline = false) ∧
    (r.status = .stopped ↔ r.errors = [] ∧ r.context.stopPipeline = true) ∧
    (r.status = .error ↔ r.errors ≠ []) := by
  unfold Core.runPipeline at h
  revert h
  cases hb : Core.buildLevels d with
  | error e => intro h; cases h
  | ok levels =>
    intro h
    injection h with h
    subst h
    obtain ⟨ctx, ex, er, cl⟩ :=
      Core.runLevels impl levels { source := opts.source, target := opts.target }
    cases er with
    | cons a l =>
      simp [List.isEmpty]
    | nil =>
      cases hstop : ctx.stopPipeline with
      | true => simp [List.isEmpty, hstop]
      | false => simp [List.isEmpty, hstop]

/-- C1 witness: the concrete stopped run satisfies the status
characterization. -/
theorem c1_witness :
    Core.runPipeline Ex.implC1 Ex.defC1 Ex.optsC1 = .ok Ex.resC1 ∧
    (Ex.resC1.status = .stopped ↔
      Ex.resC1.errors = [] ∧ Ex.resC1.context.stopPipeline = true) :=
  ⟨rfl, (c1_run_status Ex.implC1 Ex.defC1 Ex.optsC1 Ex.resC1 rfl).2.1⟩

/-- C3 (amended).  When `buildLevels` fails, `runPipeline` does not
return a result: the failure propagates unchanged to the caller (the
source calls `buildLevels` outside of any try/catch, so the returned
promise rejects). -/
theorem c3_run_propagates {S T : Type} (impl : Core.StepImpl S T)
    (d : Core.PipelineDefinition) (opts : Core.RunPipelineOptions S T)
    (e : String) (hb : Core.buildLevels d = .error e) :
    Core.runPipeline impl d opts = .error e := by
  unfold Core.runPipeline
  rw [hb]

/-- C3 counterexample: on a duplicate-token definition the run rejects
with the duplicate-registration failure instead of returning a result
with status `error` and no executed steps, contradicting the claim. -/
theorem c3_counterexample :
    Core.runPipeline Ex.implC1 Ex.defDup Ex.optsC1 =
      .error "Duplicate step constructor registered" ∧
    (Core.runPipeline Ex.implC1 Ex.defDup Ex.optsC1).toOption = none :=
  ⟨rfl, rfl⟩

/-- C3 witness: the propagation theorem applied to the concrete
duplicate-token definition. -/
theorem c3_witness :
    Core.buildLevels Ex.defDup = .error "Duplicate step constructor registered" ∧
    Core.runPipeline Ex.implC1 Ex.defDup Ex.optsC1 =
      .error "Duplicate step constructor registered" :=
  ⟨rfl, c3_run_propagates Ex.implC1 Ex.defDup Ex.optsC1 _ rfl⟩

/-- C8 (amended).  The fallback chain tries Lambda, Hybrid, Fargate in
that order; a `LambdaTimeoutError` from Lambda triggers the Hybrid
attempt, while any other Lambda failure propagates; however any failure
of the Hybrid attempt, of any kind, triggers the Fargate attempt (whose
outcome, success or failure, is returned as is). -/
theorem c8_fallback_chain {R : Type} (lam hyb far : Except Runner.RunError R) :
    (∀ r, lam = .ok r → Runner.runWithFallbackChain lam hyb far = .ok r) ∧
    (∀ m, lam = .error (.failure m) →
      Runner.runWithFallbackChain lam hyb far = .error (.failure m)) ∧
    (∀ m r, lam = .error (.lambdaTimeout m) → hyb = .ok r →
      Runner.runWithFallbackChain lam hyb far = .ok r) ∧
    (∀ m e, lam = .error (.lambdaTimeout m) → hyb = .error e →
      Runner.runWithFallbackChain lam hyb far = far) := by
  refine ⟨?_, ?_, ?_, ?_⟩
  · intro r h; subst h; rfl
  · intro m h; subst h; rfl
  · intro m r h1 h2; subst h1; subst h2; rfl
  · intro m e h1 h2; subst h1; subst h2; rfl

/-- C8 counterexample: a non-timeout Hybrid failure does not propagate;
the chain slides to Fargate and returns its result, contradicting the
claim that every non-timeout failure propagates to the caller. -/
theorem c8_counterexample :
    Runner.runWithFallbackChain (R := Nat)
      (.error (.lambdaTimeout "t")) (.error (.failure "boom")) (.ok 7) =
      .ok 7 ∧
    Runner.runWithFallbackChain (R := Nat)
      (.error (.lambdaTimeout "t")) (.error (.failure "boom")) (.ok 7) ≠
      .error (.failure "boom") := by
  refine ⟨rfl, fun h => ?_⟩
  rw [show Runner.runWithFallbackChain (R := Nat)
      (.error (.lambdaTimeout "t")) (.error (.failure "boom")) (.ok 7) =
      .ok 7 from rfl] at h
  cases h

/-- C8 witness: the amended chain behaviour at concrete outcomes. -/
theorem c8_witness :
    Runner.runWithFallbackChain (R := Nat)
      (.error (.lambdaTimeout "t")) (.ok 3) (.ok 7) = .ok 3 :=
  (c8_fallback_chain (R := Nat) (.error (.lambdaTimeout "t")) (.ok 3)
    (.ok 7)).2.2.1 "t" 3 rfl rfl

/-- C10.  With a splittable definition: when the Lambda prefix stage
returns a non-success result, the Step Functions suffix stage is never
invoked (the overall result does not depend on the suffix adapter) and
the prefix result is returned unchanged; when the prefix succeeds, the
suffix runs with the prefix result's accumulated target as its source
and the overall result is the suffix result with the prefix's executed
steps and completed levels prepended. -/
theorem c10_hybrid_adapter {V : Type}
    (lambdaRun sfnRun sfnRun' :
      Core.PipelineDefinition → Core.RunPipelineOptions V V →
      Core.PipelineResult V V)
    (definition : Core.PipelineDefinition)
    (options : Core.RunPipelineOptions V V) (split : Runner.SplitResult)
    (hs : Runner.splitPipeline definition = some split) :
    ((lambdaRun split.pre options).status ≠ Core.PipelineStatus.success →
      Runner.hybridRun lambdaRun sfnRun definition options =
        lambdaRun split.pre options ∧
      Runner.hybridRun lambdaRun sfnRun definition options =
        Runner.hybridRun lambdaRun sfnRun' definition options) ∧
    ((lambdaRun split.pre options).status = Core.PipelineStatus.success →
      Runner.hybridRun lambdaRun sfnRun definition options =
        { sfnRun split.suffix
            { source := (lambdaRun split.pre options).context.target
              target := options.target } with
          executedSteps :=
            (lambdaRun split.pre options).executedSteps ++
              (sfnRun split.suffix
                { source := (lambdaRun split.pre options).context.target
                  target := options.target }).executedSteps
          completedLevels :=
            (lambdaRun split.pre options).completedLevels ++
              (sfnRun split.suffix
                { source := (lambdaRun split.pre options).context.target
                  target := options.target }).completedLevels }) := by
  constructor
  · intro hf
    have h1 : Runner.hybridRun lambdaRun sfnRun definition options =
        lambdaRun split.pre options := by
      simp only [Runner.hybridRun, hs]
      rw [if_pos hf]
    have h2 : Runner.hybridRun lambdaRun sfnRun' definition options =
        lambdaRun split.pre options := by
      simp only [Runner.hybridRun, hs]
      rw [if_pos hf]
    exact ⟨h1, h1.trans h2.symm⟩
  · intro hsucc
    have hn : ¬((lambdaRun split.pre options).status ≠
        Core.PipelineStatus.success) := by
      simp [hsucc]
    simp only [Runner.hybridRun, hs]
    rw [if_neg hn]

/-- C10 witness: both branches at concrete adapters over a splittable
definition. -/
theorem c10_witness :
    ((Ex.lamStop (Runner.splitPipeline Ex.defSplit |>.get rfl).pre Ex.optsC1).status ≠
        Core.PipelineStatus.success →
      Runner.hybridRun Ex.lamStop Ex.sfnOk2 Ex.defSplit Ex.optsC1 =
        Ex.lamStop (Runner.splitPipeline Ex.defSplit |>.get rfl).pre Ex.optsC1 ∧
      Runner.hybridRun Ex.lamStop Ex.sfnOk2 Ex.defSplit Ex.optsC1 =
        Runner.hybridRun Ex.lamStop Ex.sfnStop Ex.defSplit Ex.optsC1) ∧
    Runner.hybridRun Ex.lamStop Ex.sfnOk2 Ex.defSplit Ex.optsC1 = Ex.resStop := by
  constructor
  · exact (c10_hybrid_adapter Ex.lamStop Ex.sfnOk2 Ex.sfnStop Ex.defSplit
      Ex.optsC1 _ rfl).1
  · exact ((c10_hybrid_adapter Ex.lamStop Ex.sfnOk2 Ex.sfnStop Ex.defSplit
      Ex.optsC1 _ rfl).1 (by decide)).1

/-- Stripping a literal from a text that starts with it leaves the rest. -/
theorem stripLit_append (lit rest : List Char) :
    Asl.stripLit lit (lit ++ rest) = some rest := by
  induction lit with
  | nil => rfl
  | cons c cs ih => simp [Asl.stripLit, ih]

/-- A character distinct from the colon satisfies the class test. -/
theorem notColon_of_ne {c : Char} (h : c ≠ ':') : Asl.notColon c = true := by
  simp [Asl.notColon, h]

/-- A colon-free block followed by a colon is exactly what the greedy
colon-free run consumes. -/
theorem takeWhile_colon_block (A t : List Char) (hA : ∀ c ∈ A, c ≠ ':') :
    (A ++ ':' :: t).takeWhile Asl.notColon = A ∧
    (A ++ ':' :: t).dropWhile Asl.notColon = ':' :: t := by
  induction A with
  | nil =>
    constructor
    · simp [List.takeWhile, Asl.notColon]
    · simp [List.dropWhile, Asl.notColon]
  | cons c cs ih =>
    have hc : Asl.notColon c = true := notColon_of_ne (hA c (by simp))
    have ih' := ih (fun x hx => hA x (List.mem_cons_of_mem _ hx))
    constructor
    · simp [List.takeWhile_cons, hc, ih'.1]
    · simp [List.dropWhile_cons, hc, ih'.2]

/-- A wholly colon-free text is consumed entirely by the greedy run. -/
theorem takeWhile_colon_all (A : List Char) (hA : ∀ c ∈ A, c ≠ ':') :
    A.takeWhile Asl.notColon = A := by
  induction A with
  | nil => rfl
  | cons c cs ih =>
    have hc : Asl.notColon c = true := notColon_of_ne (hA c (by simp))
    simp [List.takeWhile_cons, hc,
      ih (fun x hx => hA x (List.mem_cons_of_mem _ hx))]

/-- The anchored match succeeds on a text of the exact resource shape
and captures the trailing name. -/
theorem matchResAt_exact (pre kw A B C : List Char)
    (hA : A ≠ []) (hA' : ∀ c ∈ A, c ≠ ':')
    (hB : B ≠ []) (hB' : ∀ c ∈ B, c ≠ ':')
    (hC : C ≠ []) (hC' : ∀ c ∈ C, c ≠ ':') :
    Asl.matchResAt pre kw (pre ++ (A ++ ':' :: (B ++ ':' :: (kw ++ C)))) =
      some C := by
  have h1 := takeWhile_colon_block A (B ++ ':' :: (kw ++ C)) hA'
  have h2 := takeWhile_colon_block B (kw ++ C) hB'
  have h3 := takeWhile_colon_all C hC'
  have hAne : A.isEmpty = false := by
    cases A with
    | nil => exact absurd rfl hA
    | cons x xs => rfl
  have hBne : B.isEmpty = false := by
    cases B with
    | nil => exact absurd rfl hB
    | cons x xs => rfl
  have hCne : C.isEmpty = false := by
    cases C with
    | nil => exact absurd rfl hC
    | cons x xs => rfl
  simp only [Asl.matchResAt, stripLit_append, h1.1, h1.2, h2.1, h2.2, h3,
    hAne, hBne, hCne, Bool.false_eq_true, if_false]

/-- The unanchored search returns the anchored match when the pattern
matches at the very first position. -/
theorem searchRes_head (pre kw : List Char) (l : List Char) (c : List Char)
    (hm : Asl.matchResAt pre kw l = some c) (hl : l ≠ []) :
    Asl.searchRes pre kw l = some c := by
  cases l with
  | nil => exact absurd rfl hl
  | cons x rest => simp [Asl.searchRes, hm]

/-- Rebuilding a string from its character data is the identity. -/
theorem string_mk_data (s : String) : String.mk s.data = s := rfl

/-- C9 (amended).  For an ASL task state: a string resource matching the
Lambda-function ARN pattern yields the function name; one matching the
activity ARN pattern (and not the Lambda pattern) yields the activity
name; a string resource matching neither pattern yields the literal
string when it does not start with "arn:", and otherwise the last
colon-separated segment (or the whole string when that segment is
empty); the state name is used only when the resource is absent or not a
string. -/
theorem c9_stepref_extraction (stateName reg acct nm s res : String)
    (hreg : reg.data ≠ []) (hreg' : ∀ c ∈ reg.data, c ≠ ':')
    (hacct : acct.data ≠ []) (hacct' : ∀ c ∈ acct.data, c ≠ ':')
    (hnm : nm.data ≠ []) (hnm' : ∀ c ∈ nm.data, c ≠ ':') :
    (s.data = "arn:aws:lambda:".data ++
        (reg.data ++ ':' :: (acct.data ++ ':' :: ("function:".data ++ nm.data))) →
      Asl.extractStepRefFromResource s = nm) ∧
    (s.data = "arn:aws:states:".data ++
        (reg.data ++ ':' :: (acct.data ++ ':' :: ("activity:".data ++ nm.data))) →
      Asl.searchRes "arn:aws:lambda:".data "function:".data s.data = none →
      Asl.extractStepRefFromResource s = nm) ∧
    (Asl.searchRes "arn:aws:lambda:".data "function:".data res.data = none →
     Asl.searchRes "arn:aws:states:".data "activity:".data res.data = none →
      (Asl.startsWithArn res = false → Asl.extractStepRefFromResource res = res) ∧
      (Asl.startsWithArn res = true →
        ∀ lastSeg, (Asl.splitOnColon res.data).getLast? = some lastSeg →
          (lastSeg ≠ [] → Asl.extractStepRefFromResource res = String.mk lastSeg) ∧
          (lastSeg = [] → Asl.extractStepRefFromResource res = res))) ∧
    Asl.aslTaskStepRef stateName none = stateName ∧
    Asl.aslTaskStepRef stateName (some .other) = stateName ∧
    (∀ rs, Asl.aslTaskStepRef stateName (some (.str rs)) =
      Asl.extractStepRefFromResource rs) := by
  refine ⟨?_, ?_, ?_, rfl, rfl, fun rs => rfl⟩
  · intro hshape
    have hm := matchResAt_exact "arn:aws:lambda:".data "function:".data
      reg.data acct.data nm.data hreg hreg' hacct hacct' hnm hnm'
    have hsr : Asl.searchRes "arn:aws:lambda:".data "function:".data s.data =
        some nm.data := by
      rw [hshape]
      refine searchRes_head _ _ _ _ hm ?_
      intro hnil
      have := congrArg List.length hnil
      simp at this
    unfold Asl.extractStepRefFromResource
    rw [hsr]
  · intro hshape hlamnone
    have hm := matchResAt_exact "arn:aws:states:".data "activity:".data
      reg.data acct.data nm.data hreg hreg' hacct hacct' hnm hnm'
    have hsr : Asl.searchRes "arn:aws:states:".data "activity:".data s.data =
        some nm.data := by
      rw [hshape]
      refine searchRes_head _ _ _ _ hm ?_
      intro hnil
      have := congrArg List.length hnil
      simp at this
    unfold Asl.extractStepRefFromResource
    rw [hlamnone, hsr]
  · intro h1 h2
    constructor
    · intro hsw
      unfold Asl.extractStepRefFromResource
      rw [h1, h2, hsw]
      rfl
    · intro hsw lastSeg hlast
      constructor
      · intro hne
        have hie : lastSeg.isEmpty = false := by
          cases lastSeg with
          | nil => exact absurd rfl hne
          | cons x xs => rfl
        unfold Asl.extractStepRefFromResource
        rw [h1, h2, hsw]
        simp only [Bool.not_true, Bool.false_eq_true, if_false, hlast, hie]
      · intro he
        subst he
        unfold Asl.extractStepRefFromResource
        rw [h1, h2, hsw]
        simp only [Bool.not_true, Bool.false_eq_true, if_false, hlast,
          List.isEmpty_nil, if_true]

/-- C9 counterexample: a task state named MyState whose resource is an
ARN of another shape receives the last ARN segment as its stepRef, not
the state name the claim prescribes. -/
theorem c9_counterexample :
    Asl.aslTaskStepRef "MyState"
      (some (.str "arn:aws:sns:us-east-1:123:topic")) = "topic" ∧
    "topic" ≠ "MyState" := by
  exact ⟨by decide, by decide⟩

/-- C9 witness: the amended extraction rules at concrete resources. -/
theorem c9_witness :
    Asl.extractStepRefFromResource "arn:aws:lambda:us-east-1:123:function:myFn" =
      "myFn" ∧
    Asl.extractStepRefFromResource "arn:aws:states:us-east-1:123:activity:act1" =
      "act1" ∧
    Asl.extractStepRefFromResource "plainName" = "plainName" ∧
    Asl.extractStepRefFromResource "arn:aws:sns:us-east-1:123:topic" =
      "topic" :=
  ⟨(c9_stepref_extraction "St" "us-east-1" "123" "myFn"
      "arn:aws:lambda:us-east-1:123:function:myFn" "plainName"
      (by decide) (by decide) (by decide) (by decide) (by decide)
      (by decide)).1 (by decide),
   (c9_stepref_extraction "St" "us-east-1" "123" "act1"
      "arn:aws:states:us-east-1:123:activity:act1" "plainName"
      (by decide) (by decide) (by decide) (by decide) (by decide)
      (by decide)).2.1 (by decide) (by decide),
   (((c9_stepref_extraction "St" "us-east-1" "123" "act1"
      "arn:aws:states:us-east-1:123:activity:act1" "plainName"
      (by decide) (by decide) (by decide) (by decide) (by decide)
      (by decide)).2.2.1 (by decide) (by decide)).1 (by decide)),
   ((((c9_stepref_extraction "St" "r" "a" "n" "s"
      "arn:aws:sns:us-east-1:123:topic"
      (by decide) (by decide) (by decide) (by decide) (by decide)
      (by decide)).2.2.1 (by decide) (by decide)).2 (by decide)
      "topic".data (by decide)).1 (by decide))⟩

/-- The hybrid-cut walk produces a take/drop split of the path: the
inline side is the longest initial segment all of whose running sums
stay within the limit, and the first excluded node (when one exists)
would exceed the limit. -/
theorem cutWalk_spec (meta : Planner.MetadataByNodeId) (limit : Rat) :
    ∀ (ids : List String) (pfx : Rat), ∃ k, k ≤ ids.length ∧
      Planner.cutWalk meta limit ids pfx =
        (ids.take k, ids.drop k, pfx + Planner.cutSum meta (ids.take k)) ∧
      (∀ j, j < k → pfx + Planner.cutSum meta (ids.take (j + 1)) ≤ limit) ∧
      (∀ x, (ids.drop k).head? = some x →
        ¬(pfx + Planner.cutSum meta (ids.take k) +
            Planner.cutNodeTime meta x ≤ limit)) := by
  intro ids
  induction ids with
  | nil =>
    intro pfx
    refine ⟨0, Nat.le_refl 0, ?_, ?_, ?_⟩
    · simp [Planner.cutWalk, Planner.cutSum]
    · intro j hj; cases hj
    · intro x hx; cases hx
  | cons id rest ih =>
    intro pfx
    by_cases hle : pfx + Planner.cutNodeTime meta id ≤ limit
    · obtain ⟨k, hk, heq, hwithin, hover⟩ := ih (pfx + Planner.cutNodeTime meta id)
      refine ⟨k + 1, Nat.succ_le_succ hk, ?_, ?_, ?_⟩
      · simp only [Planner.cutWalk, if_pos hle, heq, List.take_succ_cons,
          List.drop_succ_cons]
        refine Prod.ext rfl (Prod.ext rfl ?_)
        simp [Planner.cutSum, add_assoc]
      · intro j hj
        cases j with
        | zero =>
          simpa [Planner.cutSum] using hle
        | succ j' =>
          have := hwithin j' (Nat.lt_of_succ_lt_succ hj)
          simpa [Planner.cutSum, add_assoc] using this
      · intro x hx
        rw [List.drop_succ_cons] at hx
        have hov := hover x hx
        simp only [List.take_succ_cons, Planner.cutSum, List.map_cons,
          List.sum_cons] at hov ⊢
        intro hcon
        exact hov (by linarith)
    · refine ⟨0, Nat.zero_le _, ?_, ?_, ?_⟩
      · simp [Planner.cutWalk, if_neg hle, Planner.cutSum]
      · intro j hj; cases hj
      · intro x hx
        simp only [List.drop_zero, List.head?_cons, Option.some.injEq] at hx
        subst hx
        simp only [List.take_zero, Planner.cutSum, List.map_nil, List.sum_nil]
        intro hcon
        exact hle (by linarith)

/-- A produced hybrid plan carries mode `hybrid`, the given critical
path, and the two node sets produced by the walk and the off-path
assignment. -/
theorem findHybridCutPoint_some_spec (defn : Reg.PipelineDefinition)
    (meta : Planner.MetadataByNodeId) (config : Planner.PlannerConfig)
    (cp : Planner.CriticalPath) (plan : Planner.ExecutionPlan)
    (h : Planner.findHybridCutPoint defn meta config cp = some plan) :
    plan.mode = Planner.ExecutionMode.hybrid ∧ plan.criticalPath = cp ∧
    plan.lambdaNodes = some (Planner.assignOffPath cp.nodeIds defn.nodes
      (Planner.cutWalk meta
        (config.lambdaMaxMs * (1 - config.safetyMargin.getD (1/10)) * (7/10))
        cp.nodeIds 0).1
      (Planner.cutWalk meta
        (config.lambdaMaxMs * (1 - config.safetyMargin.getD (1/10)) * (7/10))
        cp.nodeIds 0).2.1).1 ∧
    plan.stepFunctionsNodes = some (Planner.assignOffPath cp.nodeIds defn.nodes
      (Planner.cutWalk meta
        (config.lambdaMaxMs * (1 - config.safetyMargin.getD (1/10)) * (7/10))
        cp.nodeIds 0).1
      (Planner.cutWalk meta
        (config.lambdaMaxMs * (1 - config.safetyMargin.getD (1/10)) * (7/10))
        cp.nodeIds 0).2.1).2 := by
  unfold Planner.findHybridCutPoint at h
  simp only [] at h
  split at h
  · injection h with h
    subst h
    exact ⟨rfl, rfl, rfl, rfl⟩
  · cases h

/-- A hybrid plan is produced exactly when both sides of the walk are
nonempty. -/
theorem findHybridCutPoint_isSome_iff (defn : Reg.PipelineDefinition)
    (meta : Planner.MetadataByNodeId) (config : Planner.PlannerConfig)
    (cp : Planner.CriticalPath) :
    (Planner.findHybridCutPoint defn meta config cp).isSome = true ↔
      (Planner.cutWalk meta
        (config.lambdaMaxMs * (1 - config.safetyMargin.getD (1/10)) * (7/10))
        cp.nodeIds 0).1 ≠ [] ∧
      (Planner.cutWalk meta
        (config.lambdaMaxMs * (1 - config.safetyMargin.getD (1/10)) * (7/10))
        cp.nodeIds 0).2.1 ≠ [] := by
  unfold Planner.findHybridCutPoint
  simp only []
  split
  · next hc =>
    simp only [Option.isSome_some, true_iff]
    rw [Bool.and_eq_true, Bool.not_eq_true', Bool.not_eq_true'] at hc
    constructor
    · intro he
      rw [he] at hc
      simp at hc
    · intro he
      rw [he] at hc
      simp at hc
  · next hc =>
    simp only [Option.isSome_none, Bool.false_eq_true, false_iff]
    intro hcon
    obtain ⟨h1, h2⟩ := hcon
    refine hc ?_
    rw [Bool.and_eq_true, Bool.not_eq_true', Bool.not_eq_true']
    constructor
    · cases hl : (Planner.cutWalk meta
          (config.lambdaMaxMs * (1 - config.safetyMargin.getD (1/10)) * (7/10))
          cp.nodeIds 0).1 with
      | nil => exact absurd hl h1
      | cons a l => rfl
    · cases hl : (Planner.cutWalk meta
          (config.lambdaMaxMs * (1 - config.safetyMargin.getD (1/10)) * (7/10))
          cp.nodeIds 0).2.1 with
      | nil => exact absurd hl h2
      | cons a l => rfl

/-- The Step Functions side of the off-path assignment only grows. -/
theorem assignOffPath_sfn_mono (cpIds : List String) (x : String) :
    ∀ (nodes : List Reg.PipelineNodeDefinition) (lam sfn : List String),
      x ∈ sfn → x ∈ (Planner.assignOffPath cpIds nodes lam sfn).2 := by
  intro nodes
  induction nodes with
  | nil => intro lam sfn hx; simpa [Planner.assignOffPath] using hx
  | cons n rest ih =>
    intro lam sfn hx
    unfold Planner.assignOffPath
    by_cases h1 : (cpIds.contains n.id) = true
    · rw [if_pos h1]; exact ih lam sfn hx
    · rw [if_neg h1]
      by_cases h2 : (!n.dependsOn.isEmpty &&
          n.dependsOn.all fun d => lam.contains d) = true
      · rw [if_pos h2]; exact ih _ _ hx
      · rw [if_neg h2]; exact ih _ _ (List.mem_append_left _ hx)

/-- An off-path node without dependencies is assigned to the Step
Functions side. -/
theorem assignOffPath_nodep (cpIds : List String) :
    ∀ (nodes : List Reg.PipelineNodeDefinition) (lam sfn : List String)
      (n : Reg.PipelineNodeDefinition), n ∈ nodes →
      cpIds.contains n.id = false → n.dependsOn = [] →
      n.id ∈ (Planner.assignOffPath cpIds nodes lam sfn).2 := by
  intro nodes
  induction nodes with
  | nil => intro lam sfn n hn; cases hn
  | cons m rest ih =>
    intro lam sfn n hn hcp hdep
    unfold Planner.assignOffPath
    rcases List.mem_cons.mp hn with heq | hmem
    · subst heq
      rw [if_neg (by rw [hcp]; exact Bool.false_ne_true),
        if_neg (by rw [hdep]; simp)]
      exact assignOffPath_sfn_mono cpIds n.id rest lam _
        (List.mem_append_right _ (by simp))
    · by_cases h1 : (cpIds.contains m.id) = true
      · rw [if_pos h1]; exact ih _ _ n hmem hcp hdep
      · rw [if_neg h1]
        by_cases h2 : (!m.dependsOn.isEmpty &&
            m.dependsOn.all fun d => lam.contains d) = true
        · rw [if_pos h2]; exact ih _ _ n hmem hcp hdep
        · rw [if_neg h2]; exact ih _ _ n hmem hcp hdep

/-- C7 (amended).  The hybrid cut walks the critical path in order
accumulating the per-node pessimistic cut time, keeping nodes on the
inline side while the running sum stays within 0.7 of the safe budget
and sending the remainder to the orchestrated side; a cut is emitted
exactly when both sides are nonempty; the emitted plan carries the two
assigned node sets; an off-path node with no predecessors is assigned to
the orchestrated side (not vacuously inline); and each off-path node
with predecessors joins the inline side exactly when all its
predecessors are in the inline side as accumulated when it is visited. -/
theorem c7_hybrid_cut (defn : Reg.PipelineDefinition)
    (meta : Planner.MetadataByNodeId) (config : Planner.PlannerConfig)
    (cp : Planner.CriticalPath) :
    (∃ k, k ≤ cp.nodeIds.length ∧
      Planner.cutWalk meta
          (config.lambdaMaxMs * (1 - config.safetyMargin.getD (1/10)) * (7/10))
          cp.nodeIds 0 =
        (cp.nodeIds.take k, cp.nodeIds.drop k,
          0 + Planner.cutSum meta (cp.nodeIds.take k)) ∧
      (∀ j, j < k → 0 + Planner.cutSum meta (cp.nodeIds.take (j + 1)) ≤
        config.lambdaMaxMs * (1 - config.safetyMargin.getD (1/10)) * (7/10)) ∧
      (∀ x, (cp.nodeIds.drop k).head? = some x →
        ¬(0 + Planner.cutSum meta (cp.nodeIds.take k) +
            Planner.cutNodeTime meta x ≤
          config.lambdaMaxMs * (1 - config.safetyMargin.getD (1/10)) * (7/10)))) ∧
    ((Planner.findHybridCutPoint defn meta config cp).isSome = true ↔
      (Planner.cutWalk meta
        (config.lambdaMaxMs * (1 - config.safetyMargin.getD (1/10)) * (7/10))
        cp.nodeIds 0).1 ≠ [] ∧
      (Planner.cutWalk meta
        (config.lambdaMaxMs * (1 - config.safetyMargin.getD (1/10)) * (7/10))
        cp.nodeIds 0).2.1 ≠ []) ∧
    (∀ plan, Planner.findHybridCutPoint defn meta config cp = some plan →
      plan.mode = Planner.ExecutionMode.hybrid ∧ plan.criticalPath = cp ∧
      plan.lambdaNodes = some (Planner.assignOffPath cp.nodeIds defn.nodes
        (Planner.cutWalk meta
          (config.lambdaMaxMs * (1 - config.safetyMargin.getD (1/10)) * (7/10))
          cp.nodeIds 0).1
        (Planner.cutWalk meta
          (config.lambdaMaxMs * (1 - config.safetyMargin.getD (1/10)) * (7/10))
          cp.nodeIds 0).2.1).1 ∧
      plan.stepFunctionsNodes = some (Planner.assignOffPath cp.nodeIds defn.nodes
        (Planner.cutWalk meta
          (config.lambdaMaxMs * (1 - config.safetyMargin.getD (1/10)) * (7/10))
          cp.nodeIds 0).1
        (Planner.cutWalk meta
          (config.lambdaMaxMs * (1 - config.safetyMargin.getD (1/10)) * (7/10))
          cp.nodeIds 0).2.1).2) ∧
    (∀ plan, Planner.findHybridCutPoint defn meta config cp = some plan →
      ∀ n ∈ defn.nodes, cp.nodeIds.contains n.id = false → n.dependsOn = [] →
      ∃ l, plan.stepFunctionsNodes = some l ∧ n.id ∈ l) ∧
    (∀ (cpIds : List String) (nodes : List Reg.PipelineNodeDefinition)
        (lam sfn : List String) (n : Reg.PipelineNodeDefinition),
      (cpIds.contains n.id = true →
        Planner.assignOffPath cpIds (n :: nodes) lam sfn =
          Planner.assignOffPath cpIds nodes lam sfn) ∧
      (cpIds.contains n.id = false → n.dependsOn ≠ [] →
        (∀ d ∈ n.dependsOn, lam.contains d = true) →
        Planner.assignOffPath cpIds (n :: nodes) lam sfn =
          Planner.assignOffPath cpIds nodes (lam ++ [n.id]) sfn) ∧
      (cpIds.contains n.id = false →
        (n.dependsOn = [] ∨ ∃ d ∈ n.dependsOn, lam.contains d = false) →
        Planner.assignOffPath cpIds (n :: nodes) lam sfn =
          Planner.assignOffPath cpIds nodes lam (sfn ++ [n.id]))) := by
  refine ⟨cutWalk_spec meta _ cp.nodeIds 0, findHybridCutPoint_isSome_iff _ _ _ _,
    fun plan h => findHybridCutPoint_some_spec _ _ _ _ _ h, ?_, ?_⟩
  · intro plan h n hn hcpmem hdep
    obtain ⟨-, -, -, hsfn⟩ := findHybridCutPoint_some_spec _ _ _ _ _ h
    exact ⟨_, hsfn, assignOffPath_nodep cp.nodeIds defn.nodes _ _ n hn hcpmem hdep⟩
  · intro cpIds nodes lam sfn n
    refine ⟨?_, ?_, ?_⟩
    · intro hin
      simp only [Planner.assignOffPath]
      rw [if_pos hin]
    · intro hout hne hall
      have hdep : (!n.dependsOn.isEmpty &&
          n.dependsOn.all fun d => lam.contains d) = true := by
        rw [Bool.and_eq_true, Bool.not_eq_true']
        constructor
        · cases hd : n.dependsOn with
          | nil => exact absurd hd hne
          | cons a l => rfl
        · rw [List.all_eq_true]
          exact hall
      simp only [Planner.assignOffPath]
      rw [if_neg (by rw [hout]; exact Bool.false_ne_true), if_pos hdep]
    · intro hout hbad
      have hdep : ¬((!n.dependsOn.isEmpty &&
          n.dependsOn.all fun d => lam.contains d) = true) := by
        rw [Bool.and_eq_true, Bool.not_eq_true']
        rcases hbad with hnil | ⟨d, hd, hdf⟩
        · intro hcon
          rw [hnil] at hcon
          simp at hcon
        · intro hcon
          have := (List.all_eq_true.mp hcon.2) d hd
          rw [hdf] at this
          cases this
      simp only [Planner.assignOffPath]
      rw [if_neg (by rw [hout]; exact Bool.false_ne_true), if_neg hdep]


/-- C7 counterexample: the off-path node x has no predecessors, so the
claim's rule (all predecessors vacuously in the inline set) would place
it inline; the code assigns it to the orchestrated (Step Functions)
side. -/
theorem c7_counterexample :
    Planner.findHybridCutPoint Ex.n7c Ex.m7c Ex.cfg7 Ex.cp7 =
      some { mode := .hybrid, criticalPath := Ex.cp7,
             lambdaNodes := some ["a"],
             stepFunctionsNodes := some ["b", "x"],
             reasoning := ["Found hybrid cut point", "Lambda prefix time"] } ∧
    Ex.n7c.nodes.getLast? =
      some { id := "x", type := .task, dependsOn := [] } ∧
    ("x" ∈ Ex.cp7.nodeIds) = False ∧ ("x" ∈ ["a"]) = False := by
  refine ⟨?_, rfl, by simp [Ex.cp7], by simp⟩
  have e4 : Planner.cutNodeTime Ex.m7c "a" = 600 := by decide
  have e5 : Planner.cutNodeTime Ex.m7c "b" = 600 := by decide
  have hn : Ex.cp7.nodeIds = ["a", "b"] := rfl
  have hl : Ex.cfg7.lambdaMaxMs = 1000 := rfl
  have hs : Ex.cfg7.safetyMargin = none := rfl
  have hnodes : Ex.n7c.nodes =
    [{ id := "a", type := .task, dependsOn := [] },
     { id := "b", type := .task, dependsOn := ["a"] },
     { id := "x", type := .task, dependsOn := [] }] := rfl
  have hx : ¬(("x" : String) = "a" ∨ ("x" : String) = "b") := by decide
  norm_num [Planner.findHybridCutPoint, Planner.cutWalk,
    Planner.assignOffPath, hn, hl, hs, hnodes, e4, e5, hx]

/-- C7 witness: the amended cut behaviour at the concrete inputs — the
cut is emitted (both sides of the walk nonempty) and the
no-predecessor off-path node is in the orchestrated set. -/
theorem c7_witness :
    (Planner.findHybridCutPoint Ex.n7c Ex.m7c Ex.cfg7 Ex.cp7).isSome = true ∧
    (∃ l, ({ mode := .hybrid, criticalPath := Ex.cp7,
             lambdaNodes := some ["a"],
             stepFunctionsNodes := some ["b", "x"],
             reasoning := ["Found hybrid cut point", "Lambda prefix time"] } :
        Planner.ExecutionPlan).stepFunctionsNodes = some l ∧ "x" ∈ l) := by
  have h := c7_hybrid_cut Ex.n7c Ex.m7c Ex.cfg7 Ex.cp7
  have e4 : Planner.cutNodeTime Ex.m7c "a" = 600 := by decide
  have e5 : Planner.cutNodeTime Ex.m7c "b" = 600 := by decide
  have hn : Ex.cp7.nodeIds = ["a", "b"] := rfl
  have hl : Ex.cfg7.lambdaMaxMs = 1000 := rfl
  have hs : Ex.cfg7.safetyMargin = none := rfl
  have hw : Planner.cutWalk Ex.m7c
      (Ex.cfg7.lambdaMaxMs * (1 - Ex.cfg7.safetyMargin.getD (1/10)) * (7/10))
      Ex.cp7.nodeIds 0 = (["a"], ["b"], 600) := by
    norm_num [Planner.cutWalk, hn, hl, hs, e4, e5]
  have hnodes : Ex.n7c.nodes =
    [{ id := "a", type := .task, dependsOn := [] },
     { id := "b", type := .task, dependsOn := ["a"] },
     { id := "x", type := .task, dependsOn := [] }] := rfl
  have hx : ¬(("x" : String) = "a" ∨ ("x" : String) = "b") := by decide
  have hsome : Planner.findHybridCutPoint Ex.n7c Ex.m7c Ex.cfg7 Ex.cp7 =
      some { mode := .hybrid, criticalPath := Ex.cp7,
             lambdaNodes := some ["a"],
             stepFunctionsNodes := some ["b", "x"],
             reasoning := ["Found hybrid cut point", "Lambda prefix time"] } := by
    norm_num [Planner.findHybridCutPoint, Planner.cutWalk,
      Planner.assignOffPath, hn, hl, hs, hnodes, e4, e5, hx]
  constructor
  · exact h.2.1.mpr ⟨by rw [hw]; simp, by rw [hw]; simp⟩
  · have hmem : ({ id := "x", type := .task, dependsOn := [] } :
        Reg.PipelineNodeDefinition) ∈ Ex.n7c.nodes := by
      rw [hnodes]
      exact List.Mem.tail _ (List.Mem.tail _ (List.Mem.head _))
    have hres := h.2.2.2.1 _ hsome _ hmem (by decide) rfl
    exact hres

/-- C6.  When the critical path computation succeeds, the planner
selects the mode by the claimed cascade: orchestrated (Step Functions)
when any node carries the orchestrated-only hint; else orchestrated when
the critical path's pessimistic time reaches the safe budget
(budget times one minus the safety margin, default 0.1); else hybrid
when it reaches 0.8 of the safe budget and a hybrid cut is found;
otherwise inline (Lambda).  The returned plan carries the computed
critical path. -/
theorem c6_plan_mode (defn : Reg.PipelineDefinition)
    (meta : Planner.MetadataByNodeId) (config : Planner.PlannerConfig)
    (cp : Planner.CriticalPath)
    (hcp : Planner.computeCriticalPath defn meta = .ok cp) :
    ∃ plan, Planner.planExecution defn meta config = .ok plan ∧
      plan.criticalPath = cp ∧
      plan.mode =
        (if (defn.nodes.any fun n =>
              match (Planner.metaLookup meta n.id).bind (·.executionHint) with
              | some .stepFunctionsOnly => true
              | _ => false) = true then Planner.ExecutionMode.stepFunctions
         else if cp.timing.pessimisticMs ≥
            config.lambdaMaxMs * (1 - config.safetyMargin.getD (1/10)) then
           Planner.ExecutionMode.stepFunctions
         else if cp.timing.pessimisticMs ≥
            config.lambdaMaxMs * (1 - config.safetyMargin.getD (1/10)) * (8/10) ∧
            (Planner.findHybridCutPoint defn meta config cp).isSome = true then
           Planner.ExecutionMode.hybrid
         else Planner.ExecutionMode.lambda) := by
  by_cases hb : (defn.nodes.any fun n =>
      match (Planner.metaLookup meta n.id).bind (·.executionHint) with
      | some .stepFunctionsOnly => true
      | _ => false) = true
  · refine ⟨{ mode := .stepFunctions
              criticalPath := cp
              reasoning := ["Critical path",
                "At least one step requires Step Functions execution"] },
      ?_, rfl, ?_⟩
    · unfold Planner.planExecution
      rw [hcp]
      simp only []
      rw [if_pos hb]
    · rw [if_pos hb]
  · by_cases h2 : cp.timing.pessimisticMs ≥
        config.lambdaMaxMs * (1 - config.safetyMargin.getD (1/10))
    · refine ⟨{ mode := .stepFunctions
                criticalPath := cp
                reasoning := ["Critical path", "Safe Lambda limit",
                  "Pessimistic time exceeds safe Lambda limit"] },
        ?_, rfl, ?_⟩
      · unfold Planner.planExecution
        rw [hcp]
        simp only []
        rw [if_neg hb, if_pos h2]
      · rw [if_neg hb, if_pos h2]
    · by_cases h3 : cp.timing.pessimisticMs ≥
          config.lambdaMaxMs * (1 - config.safetyMargin.getD (1/10)) * (8/10)
      · cases hfc : Planner.findHybridCutPoint defn meta config cp with
        | some plan =>
          obtain ⟨hmode, hcpeq, -, -⟩ :=
            findHybridCutPoint_some_spec defn meta config cp plan hfc
          refine ⟨plan, ?_, hcpeq, ?_⟩
          · unfold Planner.planExecution
            rw [hcp]
            simp only []
            rw [if_neg hb, if_neg h2, if_pos h3, hfc]
          · rw [if_neg hb, if_neg h2]
            rw [if_pos (show cp.timing.pessimisticMs ≥
                config.lambdaMaxMs * (1 - config.safetyMargin.getD (1/10)) * (8/10) ∧
                (some plan).isSome = true from ⟨h3, rfl⟩)]
            exact hmode
        | none =>
          refine ⟨{ mode := .lambda
                    criticalPath := cp
                    reasoning := ["Critical path", "Safe Lambda limit",
                      "Pessimistic time is close to safe limit, considering hybrid mode",
                      "Pessimistic time is well within safe Lambda limit"] },
            ?_, rfl, ?_⟩
          · unfold Planner.planExecution
            rw [hcp]
            simp only []
            rw [if_neg hb, if_neg h2, if_pos h3, hfc]
          · rw [if_neg hb, if_neg h2]
            rw [if_neg (show ¬(cp.timing.pessimisticMs ≥
                config.lambdaMaxMs * (1 - config.safetyMargin.getD (1/10)) * (8/10) ∧
                (none : Option Planner.ExecutionPlan).isSome = true) from
                fun hcon => by cases hcon.2)]
      · refine ⟨{ mode := .lambda
                  criticalPath := cp
                  reasoning := ["Critical path", "Safe Lambda limit",
                    "Pessimistic time is well within safe Lambda limit"] },
          ?_, rfl, ?_⟩
        · unfold Planner.planExecution
          rw [hcp]
          simp only []
          rw [if_neg hb, if_neg h2, if_neg h3]
        · rw [if_neg hb, if_neg h2, if_neg (fun hcon => h3 hcon.1)]

/-- C6 witness: the cascade at the concrete over-budget chain, which
selects the orchestrated (Step Functions) mode. -/
theorem c6_witness :
    ∃ plan, Planner.planExecution Ex.n6 Ex.m6 Ex.cfg6 = .ok plan ∧
      plan.criticalPath = Ex.cp6 ∧
      plan.mode =
        (if (Ex.n6.nodes.any fun n =>
              match (Planner.metaLookup Ex.m6 n.id).bind (·.executionHint) with
              | some .stepFunctionsOnly => true
              | _ => false) = true then Planner.ExecutionMode.stepFunctions
         else if Ex.cp6.timing.pessimisticMs ≥
            Ex.cfg6.lambdaMaxMs * (1 - Ex.cfg6.safetyMargin.getD (1/10)) then
           Planner.ExecutionMode.stepFunctions
         else if Ex.cp6.timing.pessimisticMs ≥
            Ex.cfg6.lambdaMaxMs * (1 - Ex.cfg6.safetyMargin.getD (1/10)) * (8/10) ∧
            (Planner.findHybridCutPoint Ex.n6 Ex.m6 Ex.cfg6 Ex.cp6).isSome = true then
           Planner.ExecutionMode.hybrid
         else Planner.ExecutionMode.lambda) :=
  c6_plan_mode Ex.n6 Ex.m6 Ex.cfg6 Ex.cp6 (by
    simp [Planner.computeCriticalPath, Planner.buildNodeMap,
      Planner.nodeTiming, Planner.metaLookup, Reg.lookupA, Reg.upsert,
      Planner.entryIdsOf, Planner.goCP, Planner.relaxAll, Planner.relaxOne,
      Planner.exitNodesOf, Planner.bestExit, Planner.cpFuel, Ex.n6, Ex.m6,
      Ex.cp6]
    norm_num)

/-- The duplicate scan returns false exactly on duplicate-free lists. -/
theorem hasDup_eq_false_iff (l : List Nat) :
    Core.hasDup l = false ↔ l.Nodup := by
  induction l with
  | nil => simp [Core.hasDup]
  | cons x xs ih =>
    simp [Core.hasDup, List.nodup_cons, ih, Bool.or_eq_false_iff]

/-- Filtering with a predicate that rejects some member strictly
shrinks the list. -/
theorem length_filter_lt {α : Type} (l : List α) (p : α → Bool) (x : α)
    (hx : x ∈ l) (hpx : p x = false) :
    (l.filter p).length < l.length := by
  induction l with
  | nil => cases hx
  | cons a rest ih =>
    rcases List.mem_cons.mp hx with heq | hmem
    · subst heq
      rw [List.filter_cons, hpx]
      exact Nat.lt_succ_of_le (List.length_filter_le p rest)
    · rw [List.filter_cons]
      cases hpa : p a
      · exact Nat.lt_succ_of_lt (ih hmem)
      · simpa using Nat.succ_lt_succ (ih hmem)

/-- Membership of an element of a level of a list of levels in the
concatenation. -/
theorem mem_flatten_of_get {L : List (List Nat)} {i : Nat} {lv : List Nat}
    {t : Nat} (hget : L.get? i = some lv) (ht : t ∈ lv) : t ∈ L.flatten := by
  have hlv : lv ∈ L := List.get?_mem hget
  exact List.mem_flatten.mpr ⟨lv, hlv, ht⟩

/-- Membership in the concatenation of the first `j` levels yields a
level index below `j`. -/
theorem mem_take_flatten {t : Nat} :
    ∀ (L : List (List Nat)) (j : Nat), t ∈ (L.take j).flatten →
      ∃ i, i < j ∧ ∃ lv, L.get? i = some lv ∧ t ∈ lv := by
  intro L
  induction L with
  | nil => intro j h; simp at h
  | cons lv L' ih =>
    intro j h
    cases j with
    | zero => simp at h
    | succ j' =>
      rw [List.take_succ_cons, List.flatten_cons, List.mem_append] at h
      rcases h with h | h
      · exact ⟨0, Nat.succ_pos _, lv, rfl, h⟩
      · obtain ⟨i', hi', lv', hget, ht⟩ := ih j' h
        exact ⟨i' + 1, Nat.succ_lt_succ hi', lv', hget, ht⟩

/-- In a list of levels with duplicate-free concatenation, a token
determines its level index. -/
theorem unique_level {t : Nat} :
    ∀ (L : List (List Nat)), L.flatten.Nodup →
      ∀ i j lvi lvj, L.get? i = some lvi → L.get? j = some lvj →
      t ∈ lvi → t ∈ lvj → i = j := by
  intro L
  induction L with
  | nil => intro _ i j lvi lvj hi; cases hi
  | cons lv L' ih =>
    intro hnd i j lvi lvj hi hj hti htj
    rw [List.flatten_cons, List.nodup_append] at hnd
    obtain ⟨hnd1, hnd2, hdisj⟩ := hnd
    cases i with
    | zero =>
      cases j with
      | zero => rfl
      | succ j' =>
        injection hi with hi
        subst hi
        have hj' : L'.get? j' = some lvj := hj
        exact absurd (mem_flatten_of_get hj' htj) (fun hc => hdisj hti hc)
    | succ i' =>
      cases j with
      | zero =>
        injection hj with hj
        subst hj
        have hi' : L'.get? i' = some lvi := hi
        exact absurd (mem_flatten_of_get hi' hti) (fun hc => hdisj htj hc)
      | succ j' =>
        exact congrArg Nat.succ (ih hnd2 i' j' lvi lvj hi hj hti htj)

/-- Bool membership test versus propositional membership. -/
theorem contains_iff_mem {α : Type} [BEq α] [LawfulBEq α] {l : List α}
    {a : α} : l.contains a = true ↔ a ∈ l := by
  simp [List.contains]

/-- The per-wave dependency-registration scan passes on a remaining list
whose dependencies are all registered. -/
theorem any_unreg_eq_false {allC : List Nat}
    {remaining : List Core.RegisteredStep}
    (hreg : ∀ s ∈ remaining, ∀ u ∈ Core.depsOf s, u ∈ allC) :
    remaining.any (Core.hasUnregisteredDep allC) = false := by
  rw [Bool.eq_false_iff]
  intro hc
  obtain ⟨s, hs, hbad⟩ := List.any_eq_true.mp hc
  obtain ⟨u, hu, hun⟩ := List.any_eq_true.mp hbad
  rw [Bool.not_eq_true'] at hun
  exact absurd (contains_iff_mem.mpr (hreg s hs u hu)) (by rw [hun]; simp)

/-- A step of the ready wave has all dependencies resolved. -/
theorem mem_readySteps_iff {resolved : List Nat}
    {remaining : List Core.RegisteredStep} {s : Core.RegisteredStep} :
    s ∈ Core.readySteps resolved remaining ↔
      s ∈ remaining ∧ ∀ u ∈ Core.depsOf s, u ∈ resolved := by
  rw [Core.readySteps, List.mem_filter]
  constructor
  · rintro ⟨h1, h2⟩
    refine ⟨h1, fun u hu => ?_⟩
    exact contains_iff_mem.mp (List.all_eq_true.mp h2 u hu)
  · rintro ⟨h1, h2⟩
    refine ⟨h1, List.all_eq_true.mpr fun u hu => ?_⟩
    exact contains_iff_mem.mpr (h2 u hu)

/-- The wave-expansion loop succeeds on a duplicate-free, fully
registered, acyclic remaining list, producing levels that permute the
remaining tokens, whose dependencies always point to the resolved prefix
or to strictly earlier levels, and that preserve insertion order. -/
theorem buildLevelsGo_spec (allC : List Nat) :
    ∀ (fuel : Nat) (resolved : List Nat) (remaining : List Core.RegisteredStep),
    remaining.length ≤ fuel →
    (remaining.map (·.ctor)).Nodup →
    (∀ s ∈ remaining, ∀ u ∈ Core.depsOf s, u ∈ allC) →
    (∀ t ∈ allC, t ∈ resolved ∨ t ∈ remaining.map (·.ctor)) →
    (∀ ts : Finset Nat, (∀ t ∈ ts, t ∈ remaining.map (·.ctor)) → ts.Nonempty →
      ∃ t ∈ ts, ∀ s ∈ remaining, s.ctor = t → ∀ u ∈ Core.depsOf s, u ∉ ts) →
    ∃ L, Core.buildLevelsGo allC fuel resolved remaining = .ok L ∧
      L.flatten.Perm (remaining.map (·.ctor)) ∧
      (∀ i lv, L.get? i = some lv → ∀ t ∈ lv, ∃ s ∈ remaining, s.ctor = t ∧
        ∀ u ∈ Core.depsOf s, u ∈ resolved ∨ u ∈ (L.take i).flatten) ∧
      (∀ lv ∈ L, lv.Sublist (remaining.map (·.ctor))) := by
  intro fuel
  induction fuel with
  | zero =>
    intro resolved remaining hlen hnd hreg hcov hacy
    cases remaining with
    | nil =>
      refine ⟨[], rfl, by simp, ?_, ?_⟩
      · intro i lv h
        cases i <;> cases h
      · intro lv h
        cases h
    | cons s rest => simp at hlen
  | succ f ih =>
    intro resolved remaining hlen hnd hreg hcov hacy
    cases remaining with
    | nil =>
      refine ⟨[], rfl, by simp, ?_, ?_⟩
      · intro i lv h
        cases i <;> cases h
      · intro lv h
        cases h
    | cons s0 rest =>
      have hany : ((s0 :: rest).any (Core.hasUnregisteredDep allC)) = false :=
        any_unreg_eq_false hreg
      -- the wave is nonempty: the acyclicity source is ready
      obtain ⟨t, htts, hsrc⟩ := hacy ((s0 :: rest).map (·.ctor)).toFinset
        (fun t ht => List.mem_toFinset.mp ht)
        ⟨s0.ctor, List.mem_toFinset.mpr (by simp)⟩
      obtain ⟨st, hst_mem, hst_ctor⟩ :=
        List.mem_map.mp (List.mem_toFinset.mp htts)
      have hst_ready : st ∈ Core.readySteps resolved (s0 :: rest) := by
        rw [mem_readySteps_iff]
        refine ⟨hst_mem, fun u hu => ?_⟩
        have hnot : u ∉ ((s0 :: rest).map (·.ctor)).toFinset :=
          hsrc st hst_mem hst_ctor u hu
        rcases hcov u (hreg st hst_mem u hu) with h | h
        · exact h
        · exact absurd (List.mem_toFinset.mpr h) hnot
      have hready_ne :
          (Core.readySteps resolved (s0 :: rest)).isEmpty = false := by
        cases hre : Core.readySteps resolved (s0 :: rest) with
        | nil => rw [hre] at hst_ready; cases hst_ready
        | cons a l => rfl
      -- notation for the wave and the new state
      have hq : ∀ s ∈ (s0 :: rest),
          ((((Core.readySteps resolved (s0 :: rest)).map (·.ctor)).contains
            s.ctor) = true ↔ s ∈ Core.readySteps resolved (s0 :: rest)) := by
        intro s hs
        rw [contains_iff_mem]
        constructor
        · intro hc
          obtain ⟨s', hs', hctor⟩ := List.mem_map.mp hc
          have hs'mem : s' ∈ (s0 :: rest) := (mem_readySteps_iff.mp hs').1
          have heq : s' = s :=
            List.inj_on_of_nodup_map hnd hs'mem hs hctor
          rw [← heq]
          exact hs'
        · intro hmem
          exact List.mem_map.mpr ⟨s, hmem, rfl⟩
      -- apply the induction hypothesis to the shrunk state
      have hlen' : ((s0 :: rest).filter (fun s =>
          !(((Core.readySteps resolved (s0 :: rest)).map (·.ctor)).contains
            s.ctor))).length ≤ f := by
        have hlt := length_filter_lt (s0 :: rest)
          (fun s => !(((Core.readySteps resolved (s0 :: rest)).map
            (·.ctor)).contains s.ctor)) st hst_mem
          (by show (!(((Core.readySteps resolved (s0 :: rest)).map
                (·.ctor)).contains st.ctor)) = false
              rw [(hq st hst_mem).mpr hst_ready]
              rfl)
        omega
      obtain ⟨L', hrun', hperm', hlvl', hord'⟩ := ih
        (resolved ++ (Core.readySteps resolved (s0 :: rest)).map (·.ctor))
        ((s0 :: rest).filter (fun s =>
          !(((Core.readySteps resolved (s0 :: rest)).map (·.ctor)).contains
            s.ctor)))
        hlen'
        (List.Nodup.sublist
          (List.Sublist.map _ (List.filter_sublist _)) hnd)
        (fun s hs => hreg s (List.mem_of_mem_filter hs))
        (fun t ht => by
          rcases hcov t ht with h | h
          · exact Or.inl (List.mem_append_left _ h)
          · obtain ⟨s, hs, hctor⟩ := List.mem_map.mp h
            by_cases hc : s ∈ Core.readySteps resolved (s0 :: rest)
            · refine Or.inl (List.mem_append_right _ ?_)
              rw [← hctor]
              exact List.mem_map.mpr ⟨s, hc, rfl⟩
            · refine Or.inr (List.mem_map.mpr ⟨s, ?_, hctor⟩)
              rw [List.mem_filter]
              refine ⟨hs, ?_⟩
              show (!(((Core.readySteps resolved (s0 :: rest)).map
                (·.ctor)).contains s.ctor)) = true
              have hcc : (((Core.readySteps resolved (s0 :: rest)).map
                  (·.ctor)).contains s.ctor) = false := by
                cases hv : (((Core.readySteps resolved (s0 :: rest)).map
                    (·.ctor)).contains s.ctor)
                · rfl
                · exact absurd ((hq s hs).mp hv) hc
              rw [hcc]
              rfl)
        (fun ts hts hne => by
          obtain ⟨t2, ht2mem, hsrc2⟩ := hacy ts
            (fun t2 ht2 => by
              obtain ⟨s, hs, hctor⟩ := List.mem_map.mp (hts t2 ht2)
              exact List.mem_map.mpr ⟨s, List.mem_of_mem_filter hs, hctor⟩)
            hne
          exact ⟨t2, ht2mem, fun s hs hctor u hu =>
            hsrc2 s (List.mem_of_mem_filter hs) hctor u hu⟩)
      refine ⟨(Core.readySteps resolved (s0 :: rest)).map (·.ctor) :: L',
        ?_, ?_, ?_, ?_⟩
      · simp only [Core.buildLevelsGo]
        rw [if_neg (by rw [hany]; exact Bool.false_ne_true)]
        rw [if_neg (by rw [hready_ne]; exact Bool.false_ne_true)]
        rw [hrun']
      · rw [List.flatten_cons]
        have hfc : (s0 :: rest).filter (fun s =>
            !(((Core.readySteps resolved (s0 :: rest)).map (·.ctor)).contains
              s.ctor)) = (s0 :: rest).filter (fun s =>
            !((Core.depsOf s).all (fun d => resolved.contains d))) := by
          refine List.filter_congr fun s hs => ?_
          show (!(((Core.readySteps resolved (s0 :: rest)).map
            (·.ctor)).contains s.ctor)) =
            (!((Core.depsOf s).all (fun d => resolved.contains d)))
          congr 1
          cases hv : (Core.depsOf s).all (fun d => resolved.contains d)
          · cases hw : (((Core.readySteps resolved (s0 :: rest)).map
                (·.ctor)).contains s.ctor)
            · rfl
            · have := (hq s hs).mp hw
              rw [Core.readySteps, List.mem_filter] at this
              rw [this.2] at hv
              cases hv
          · exact (hq s hs).mpr (by
              rw [Core.readySteps, List.mem_filter]
              exact ⟨hs, hv⟩)
        have hkey : ((Core.readySteps resolved (s0 :: rest)).map (·.ctor) ++
            ((s0 :: rest).filter (fun s =>
              !(((Core.readySteps resolved (s0 :: rest)).map
                (·.ctor)).contains s.ctor))).map (·.ctor)).Perm
            ((s0 :: rest).map (·.ctor)) := by
          rw [hfc, ← List.map_append]
          refine List.Perm.map _ ?_
          exact List.filter_append_perm _ _
        exact (List.Perm.append_left _ hperm').trans hkey
      · intro i lv hget t ht
        cases i with
        | zero =>
          injection hget with hget
          subst hget
          obtain ⟨s, hs, hctor⟩ := List.mem_map.mp ht
          have hsr := mem_readySteps_iff.mp hs
          exact ⟨s, hsr.1, hctor, fun u hu => Or.inl (hsr.2 u hu)⟩
        | succ i' =>
          have hget' : L'.get? i' = some lv := hget
          obtain ⟨s, hs, hctor, hdeps⟩ := hlvl' i' lv hget' t ht
          refine ⟨s, List.mem_of_mem_filter hs, hctor, fun u hu => ?_⟩
          rcases hdeps u hu with h | h
          · rcases List.mem_append.mp h with h1 | h1
            · exact Or.inl h1
            · refine Or.inr ?_
              rw [List.take_succ_cons, List.flatten_cons]
              exact List.mem_append_left _ h1
          · refine Or.inr ?_
            rw [List.take_succ_cons, List.flatten_cons]
            exact List.mem_append_right _ h
      · intro lv hlv
        rcases List.mem_cons.mp hlv with heq | hmem
        · subst heq
          exact List.Sublist.map _ (List.filter_sublist _)
        · exact (hord' lv hmem).trans
            (List.Sublist.map _ (List.filter_sublist _))

/-- Membership in a list yields an index at which `get?` returns the
element. -/
theorem mem_exists_idx {α : Type} {l : List α} {a : α} (h : a ∈ l) :
    ∃ n, l.get? n = some a := by
  obtain ⟨i, hi, hget⟩ := List.mem_iff_getElem.mp h
  refine ⟨i, ?_⟩
  rw [List.get?_eq_getElem?, List.getElem?_eq_getElem hi]
  exact congrArg some hget

/-- Whenever the wave-expansion loop returns levels (with no hypothesis
on the input beyond duplicate-freeness of the tokens), the levels
permute the remaining tokens and every level's dependencies point to the
resolved prefix or to strictly earlier levels. -/
theorem buildLevelsGo_ok_spec (allC : List Nat) :
    ∀ (fuel : Nat) (resolved : List Nat)
      (remaining : List Core.RegisteredStep) (L : List (List Nat)),
    (remaining.map (·.ctor)).Nodup →
    Core.buildLevelsGo allC fuel resolved remaining = .ok L →
    L.flatten.Perm (remaining.map (·.ctor)) ∧
      (∀ i lv, L.get? i = some lv → ∀ t ∈ lv, ∃ s ∈ remaining, s.ctor = t ∧
        ∀ u ∈ Core.depsOf s, u ∈ resolved ∨ u ∈ (L.take i).flatten) := by
  intro fuel
  induction fuel with
  | zero =>
    intro resolved remaining L hnd hok
    cases remaining with
    | nil =>
      simp only [Core.buildLevelsGo] at hok
      injection hok with hok
      subst hok
      exact ⟨by simp, by intro i lv h; cases i <;> cases h⟩
    | cons s0 rest =>
      simp only [Core.buildLevelsGo] at hok
      exact Except.noConfusion hok
  | succ f ih =>
    intro resolved remaining L hnd hok
    cases remaining with
    | nil =>
      simp only [Core.buildLevelsGo] at hok
      injection hok with hok
      subst hok
      exact ⟨by simp, by intro i lv h; cases i <;> cases h⟩
    | cons s0 rest =>
      simp only [Core.buildLevelsGo] at hok
      by_cases hany : ((s0 :: rest).any (Core.hasUnregisteredDep allC)) = true
      · rw [if_pos hany] at hok
        exact Except.noConfusion hok
      · rw [if_neg hany] at hok
        by_cases hemp : (Core.readySteps resolved (s0 :: rest)).isEmpty = true
        · rw [if_pos hemp] at hok
          exact Except.noConfusion hok
        · rw [if_neg hemp] at hok
          cases hrec : Core.buildLevelsGo allC f
              (resolved ++ (Core.readySteps resolved (s0 :: rest)).map (·.ctor))
              ((s0 :: rest).filter (fun s =>
                !(((Core.readySteps resolved (s0 :: rest)).map
                  (·.ctor)).contains s.ctor))) with
          | error e =>
            rw [hrec] at hok
            exact Except.noConfusion hok
          | ok L' =>
            rw [hrec] at hok
            injection hok with hok
            subst hok
            have hq : ∀ s ∈ (s0 :: rest),
                ((((Core.readySteps resolved (s0 :: rest)).map
                  (·.ctor)).contains s.ctor) = true ↔
                  s ∈ Core.readySteps resolved (s0 :: rest)) := by
              intro s hs
              rw [contains_iff_mem]
              constructor
              · intro hc
                obtain ⟨s', hs', hctor⟩ := List.mem_map.mp hc
                have hs'mem : s' ∈ (s0 :: rest) :=
                  (mem_readySteps_iff.mp hs').1
                have heq : s' = s :=
                  List.inj_on_of_nodup_map hnd hs'mem hs hctor
                rw [← heq]
                exact hs'
              · intro hmem
                exact List.mem_map.mpr ⟨s, hmem, rfl⟩
            obtain ⟨hperm', hlvl'⟩ := ih
              (resolved ++ (Core.readySteps resolved (s0 :: rest)).map (·.ctor))
              ((s0 :: rest).filter (fun s =>
                !(((Core.readySteps resolved (s0 :: rest)).map
                  (·.ctor)).contains s.ctor)))
              L'
              (List.Nodup.sublist
                (List.Sublist.map _ (List.filter_sublist _)) hnd)
              hrec
            constructor
            · rw [List.flatten_cons]
              have hfc : (s0 :: rest).filter (fun s =>
                  !(((Core.readySteps resolved (s0 :: rest)).map
                    (·.ctor)).contains s.ctor)) =
                  (s0 :: rest).filter (fun s =>
                  !((Core.depsOf s).all (fun d => resolved.contains d))) := by
                refine List.filter_congr fun s hs => ?_
                show (!(((Core.readySteps resolved (s0 :: rest)).map
                  (·.ctor)).contains s.ctor)) =
                  (!((Core.depsOf s).all (fun d => resolved.contains d)))
                congr 1
                cases hv : (Core.depsOf s).all (fun d => resolved.contains d)
                · cases hw : (((Core.readySteps resolved (s0 :: rest)).map
                      (·.ctor)).contains s.ctor)
                  · rfl
                  · have := (hq s hs).mp hw
                    rw [Core.readySteps, List.mem_filter] at this
                    rw [this.2] at hv
                    cases hv
                · exact (hq s hs).mpr (by
                    rw [Core.readySteps, List.mem_filter]
                    exact ⟨hs, hv⟩)
              have hkey : ((Core.readySteps resolved (s0 :: rest)).map
                  (·.ctor) ++
                  ((s0 :: rest).filter (fun s =>
                    !(((Core.readySteps resolved (s0 :: rest)).map
                      (·.ctor)).contains s.ctor))).map (·.ctor)).Perm
                  ((s0 :: rest).map (·.ctor)) := by
                rw [hfc, ← List.map_append]
                refine List.Perm.map _ ?_
                exact List.filter_append_perm _ _
              exact (List.Perm.append_left _ hperm').trans hkey
            · intro i lv hget t ht
              cases i with
              | zero =>
                injection hget with hget
                subst hget
                obtain ⟨s, hs, hctor⟩ := List.mem_map.mp ht
                have hsr := mem_readySteps_iff.mp hs
                exact ⟨s, hsr.1, hctor, fun u hu => Or.inl (hsr.2 u hu)⟩
              | succ i' =>
                have hget' : L'.get? i' = some lv := hget
                obtain ⟨s, hs, hctor, hdeps⟩ := hlvl' i' lv hget' t ht
                refine ⟨s, List.mem_of_mem_filter hs, hctor, fun u hu => ?_⟩
                rcases hdeps u hu with h | h
                · rcases List.mem_append.mp h with h1 | h1
                  · exact Or.inl h1
                  · refine Or.inr ?_
                    rw [List.take_succ_cons, List.flatten_cons]
                    exact List.mem_append_left _ h1
                · refine Or.inr ?_
                  rw [List.take_succ_cons, List.flatten_cons]
                  exact List.mem_append_right _ h

/-- On a fully registered remaining list the wave-expansion loop either
raises the cycle error or succeeds: the registration error is
unreachable, and running out of fuel raises the same cycle error string
the loop itself raises. -/
theorem buildLevelsGo_ok_or_cycle (allC : List Nat) :
    ∀ (fuel : Nat) (resolved : List Nat)
      (remaining : List Core.RegisteredStep),
    (∀ s ∈ remaining, ∀ u ∈ Core.depsOf s, u ∈ allC) →
    Core.buildLevelsGo allC fuel resolved remaining =
        .error "Cyclic or unsatisfied dependencies detected" ∨
      ∃ L, Core.buildLevelsGo allC fuel resolved remaining = .ok L := by
  intro fuel
  induction fuel with
  | zero =>
    intro resolved remaining hreg
    cases remaining with
    | nil => exact Or.inr ⟨[], rfl⟩
    | cons s0 rest => exact Or.inl rfl
  | succ f ih =>
    intro resolved remaining hreg
    cases remaining with
    | nil => exact Or.inr ⟨[], rfl⟩
    | cons s0 rest =>
      have hany := any_unreg_eq_false hreg
      by_cases hemp : (Core.readySteps resolved (s0 :: rest)).isEmpty = true
      · left
        simp only [Core.buildLevelsGo]
        rw [if_neg (by rw [hany]; exact Bool.false_ne_true), if_pos hemp]
      · rcases ih
          (resolved ++ (Core.readySteps resolved (s0 :: rest)).map (·.ctor))
          ((s0 :: rest).filter (fun s =>
            !(((Core.readySteps resolved (s0 :: rest)).map
              (·.ctor)).contains s.ctor)))
          (fun s hs => hreg s (List.mem_of_mem_filter hs)) with
          herr | ⟨L', hok⟩
        · left
          simp only [Core.buildLevelsGo]
          rw [if_neg (by rw [hany]; exact Bool.false_ne_true)]
          rw [if_neg hemp, herr]
        · right
          refine ⟨(Core.readySteps resolved (s0 :: rest)).map (·.ctor) :: L',
            ?_⟩
          simp only [Core.buildLevelsGo]
          rw [if_neg (by rw [hany]; exact Bool.false_ne_true)]
          rw [if_neg hemp, hok]

/-- A successful run of the leveling loop on a duplicate-free definition
certifies acyclicity: every nonempty subset of the tokens has a member
whose dependencies avoid the subset (the member sitting at the least
level the subset meets). -/
theorem buildLevels_ok_acyclic (d : Core.PipelineDefinition)
    (L : List (List Nat)) (hnd : (Core.ctorsOf d).Nodup)
    (hok : Core.buildLevelsGo (Core.ctorsOf d) d.steps.length [] d.steps =
      .ok L) :
    Core.Acyclic d := by
  obtain ⟨hperm, hlvl⟩ := buildLevelsGo_ok_spec (Core.ctorsOf d)
    d.steps.length [] d.steps L hnd hok
  intro ts hts hne
  have hts' : ∀ t ∈ ts, t ∈ Core.ctorsOf d := fun t ht =>
    List.mem_toFinset.mp (Finset.mem_powerset.mp hts ht)
  classical
  have hex : ∃ j, ∃ t ∈ ts, ∃ lv, L.get? j = some lv ∧ t ∈ lv := by
    obtain ⟨t0, ht0⟩ := hne
    have hmem : t0 ∈ L.flatten := hperm.mem_iff.mpr (hts' t0 ht0)
    obtain ⟨lv, hlv, htlv⟩ := List.mem_flatten.mp hmem
    obtain ⟨n, hn⟩ := mem_exists_idx hlv
    exact ⟨n, t0, ht0, lv, hn, htlv⟩
  obtain ⟨t, hts_t, lv, hget, htlv⟩ := Nat.find_spec hex
  refine ⟨t, hts_t, fun s hs hctor u hu huts => ?_⟩
  obtain ⟨s', hs', hctor', hdeps⟩ := hlvl (Nat.find hex) lv hget t htlv
  have hss' : s' = s :=
    List.inj_on_of_nodup_map hnd hs' hs (hctor'.trans hctor.symm)
  subst hss'
  rcases hdeps u hu with h | h
  · cases h
  · obtain ⟨i, hij, lv', hg', hu'⟩ := mem_take_flatten L (Nat.find hex) h
    exact Nat.find_min hex hij ⟨u, huts, lv', hg', hu'⟩

/-- C2.  On every valid definition (duplicate-free tokens, all
dependency tokens registered, acyclic graph) `buildLevels` succeeds and
its levels partition exactly the definition's tokens, each token
appearing in exactly one level, with every dependency edge crossing from
a strictly earlier level to its target's level, no dependency edge
inside one level, and each level listing its tokens in the definition's
insertion order; it fails with the duplicate error on a repeated token,
with the registration error on a duplicate-free definition that
references an unregistered dependency token, and with the cycle error on
a duplicate-free fully registered definition that is not acyclic (an
empty wave while steps remain). -/
theorem c2_buildLevels (d : Core.PipelineDefinition) :
    ((Core.ctorsOf d).Nodup →
      (∀ s ∈ d.steps, ∀ u ∈ Core.depsOf s, u ∈ Core.ctorsOf d) →
      Core.Acyclic d →
      ∃ L, Core.buildLevels d = .ok L ∧ Core.BuildLevelsSpec d L) ∧
    (¬ (Core.ctorsOf d).Nodup →
      Core.buildLevels d = .error "Duplicate step constructor registered") ∧
    ((Core.ctorsOf d).Nodup →
      (∃ s ∈ d.steps, ∃ u ∈ Core.depsOf s, u ∉ Core.ctorsOf d) →
      Core.buildLevels d = .error "Step dependency not registered") ∧
    ((Core.ctorsOf d).Nodup →
      (∀ s ∈ d.steps, ∀ u ∈ Core.depsOf s, u ∈ Core.ctorsOf d) →
      ¬ Core.Acyclic d →
      Core.buildLevels d =
        .error "Cyclic or unsatisfied dependencies detected") := by
  refine ⟨?_, ?_, ?_, ?_⟩
  · intro hnd hreg hacy
    obtain ⟨L, hok, hperm, hlvl, hord⟩ := buildLevelsGo_spec (Core.ctorsOf d)
      d.steps.length [] d.steps (Nat.le_refl _) hnd hreg
      (fun t ht => Or.inr ht)
      (fun ts hts hne => hacy ts (Finset.mem_powerset.mpr
        (fun t ht => List.mem_toFinset.mpr (hts t ht))) hne)
    have hfl : L.flatten.Nodup := hperm.nodup_iff.mpr hnd
    refine ⟨L, ?_, ?_, hfl, ?_, ?_, hord⟩
    · have hnodup : Core.hasDup (Core.ctorsOf d) = false :=
        (hasDup_eq_false_iff _).mpr hnd
      simp only [Core.buildLevels]
      rw [if_neg (by rw [hnodup]; exact Bool.false_ne_true)]
      exact hok
    · exact fun t => hperm.mem_iff
    · intro s hs u hu i j lvi lvj hgi hgj hui hsj
      obtain ⟨s', hs', hctor', hdeps⟩ := hlvl j lvj hgj s.ctor hsj
      have hss' : s' = s := List.inj_on_of_nodup_map hnd hs' hs hctor'
      subst hss'
      rcases hdeps u hu with h | h
      · cases h
      · obtain ⟨i', hi'j, lv', hg', hu'⟩ := mem_take_flatten L j h
        have hii' : i = i' := unique_level L hfl i i' lvi lv' hgi hg' hui hu'
        omega
    · intro s hs u hu lv hlvmem hslv hulv
      obtain ⟨j, hj⟩ := mem_exists_idx hlvmem
      obtain ⟨s', hs', hctor', hdeps⟩ := hlvl j lv hj s.ctor hslv
      have hss' : s' = s := List.inj_on_of_nodup_map hnd hs' hs hctor'
      subst hss'
      rcases hdeps u hu with h | h
      · cases h
      · obtain ⟨i', hi'j, lv', hg', hu'⟩ := mem_take_flatten L j h
        have : j = i' := unique_level L hfl j i' lv lv' hj hg' hulv hu'
        omega
  · intro hnd
    have hdup : Core.hasDup (Core.ctorsOf d) = true := by
      cases h : Core.hasDup (Core.ctorsOf d)
      · exact absurd ((hasDup_eq_false_iff _).mp h) hnd
      · rfl
    simp only [Core.buildLevels]
    rw [if_pos hdup]
  · intro hnd hbad
    have hnodup : Core.hasDup (Core.ctorsOf d) = false :=
      (hasDup_eq_false_iff _).mpr hnd
    simp only [Core.buildLevels]
    rw [if_neg (by rw [hnodup]; exact Bool.false_ne_true)]
    obtain ⟨s, hs, u, hu, hun⟩ := hbad
    have hany : (d.steps.any
        (Core.hasUnregisteredDep (Core.ctorsOf d))) = true := by
      refine List.any_eq_true.mpr ⟨s, hs, ?_⟩
      refine List.any_eq_true.mpr ⟨u, hu, ?_⟩
      rw [Bool.not_eq_true']
      cases hc : (Core.ctorsOf d).contains u
      · rfl
      · exact absurd (contains_iff_mem.mp hc) hun
    cases hsteps : d.steps with
    | nil => rw [hsteps] at hs; cases hs
    | cons s0 rest =>
      rw [hsteps] at hany
      simp only [List.length_cons]
      simp only [Core.buildLevelsGo]
      rw [if_pos hany]
  · intro hnd hreg hnacy
    rcases buildLevelsGo_ok_or_cycle (Core.ctorsOf d) d.steps.length []
        d.steps hreg with herr | ⟨L, hok⟩
    · have hnodup : Core.hasDup (Core.ctorsOf d) = false :=
        (hasDup_eq_false_iff _).mpr hnd
      simp only [Core.buildLevels]
      rw [if_neg (by rw [hnodup]; exact Bool.false_ne_true)]
      exact herr
    · exact absurd (buildLevels_ok_acyclic d L hnd hok) hnacy

/-- Witness for C2: the four branches on concrete definitions — a valid
two-step chain levels successfully with the full contract, a repeated
token gives the duplicate error, an unregistered dependency gives the
registration error, and a two-step cycle gives the cycle error. -/
theorem c2_witness :
    (∃ L, Core.buildLevels Ex.defSplit = .ok L ∧
      Core.BuildLevelsSpec Ex.defSplit L) ∧
    Core.buildLevels Ex.defDup =
      .error "Duplicate step constructor registered" ∧
    Core.buildLevels Ex.defMissing =
      .error "Step dependency not registered" ∧
    Core.buildLevels Ex.defCyc =
      .error "Cyclic or unsatisfied dependencies detected" := by
  have hacy : Core.Acyclic Ex.defSplit := by
    show ∀ ts ∈ ((Core.ctorsOf Ex.defSplit).toFinset).powerset,
      ts.Nonempty → ∃ t ∈ ts, ∀ s ∈ Ex.defSplit.steps, s.ctor = t →
        ∀ u ∈ Core.depsOf s, u ∉ ts
    decide
  have hnacy : ¬ Core.Acyclic Ex.defCyc := by
    show ¬ ∀ ts ∈ ((Core.ctorsOf Ex.defCyc).toFinset).powerset,
      ts.Nonempty → ∃ t ∈ ts, ∀ s ∈ Ex.defCyc.steps, s.ctor = t →
        ∀ u ∈ Core.depsOf s, u ∉ ts
    decide
  exact ⟨(c2_buildLevels Ex.defSplit).1 (by decide) (by decide) hacy,
    (c2_buildLevels Ex.defDup).2.1 (by decide),
    (c2_buildLevels Ex.defMissing).2.2.1 (by decide) (by decide),
    (c2_buildLevels Ex.defCyc).2.2.2 (by decide) (by decide) hnacy⟩

/-- Looking up the upserted key finds the new value. -/
theorem lookupA_upsert_self {α β : Type} [BEq α] [LawfulBEq α] :
    ∀ (l : List (α × β)) (k : α) (v : β),
      Reg.lookupA (Reg.upsert l k v) k = some v := by
  intro l
  induction l with
  | nil => intro k v; simp [Reg.upsert, Reg.lookupA]
  | cons e rest ih =>
    intro k v
    rw [Reg.upsert]
    by_cases h : (e.1 == k) = true
    · rw [if_pos h, Reg.lookupA, if_pos (by simp)]
    · rw [if_neg h, Reg.lookupA, if_neg h]
      exact ih k v

/-- Looking up another key is unaffected by an upsert. -/
theorem lookupA_upsert_ne {α β : Type} [BEq α] [LawfulBEq α] :
    ∀ (l : List (α × β)) (k : α) (v : β) (k' : α), k' ≠ k →
      Reg.lookupA (Reg.upsert l k v) k' = Reg.lookupA l k' := by
  intro l
  induction l with
  | nil =>
    intro k v k' hne
    rw [Reg.upsert, Reg.lookupA, Reg.lookupA,
      if_neg (by simp; exact fun h => absurd h.symm hne)]
    rfl
  | cons e rest ih =>
    intro k v k' hne
    rw [Reg.upsert]
    by_cases h : (e.1 == k) = true
    · have he : e.1 = k := by simpa using h
      rw [if_pos h, Reg.lookupA, Reg.lookupA,
        if_neg (by simp; exact fun hc => absurd hc.symm hne)]
      rw [if_neg (by rw [he]; simp; exact fun hc => absurd hc.symm hne)]
    · rw [if_neg h, Reg.lookupA, Reg.lookupA]
      by_cases h2 : (e.1 == k') = true
      · rw [if_pos h2, if_pos h2]
      · rw [if_neg h2, if_neg h2]
        exact ih k v k' hne

/-- A fold of upserts leaves keys outside the folded list untouched. -/
theorem lookupA_foldl_upsert_not_mem {α β γ : Type} [BEq α] [LawfulBEq α]
    (key : γ → α) (val : γ → β) :
    ∀ (l : List γ) (acc : List (α × β)) (k : α), (∀ x ∈ l, key x ≠ k) →
      Reg.lookupA (l.foldl (fun a x => Reg.upsert a (key x) (val x)) acc) k =
        Reg.lookupA acc k := by
  intro l
  induction l with
  | nil => intro acc k _; rfl
  | cons x rest ih =>
    intro acc k hne
    rw [List.foldl_cons]
    rw [ih _ k (fun y hy => hne y (List.mem_cons_of_mem x hy))]
    exact lookupA_upsert_ne acc (key x) (val x) k
      (fun h => hne x (List.mem_cons_self x rest) h.symm)

/-- With duplicate-free keys, a fold of upserts binds each folded element
to its value. -/
theorem lookupA_foldl_upsert_mem {α β γ : Type} [BEq α] [LawfulBEq α]
    (key : γ → α) (val : γ → β) :
    ∀ (l : List γ) (acc : List (α × β)) (x : γ), x ∈ l →
      (l.map key).Nodup →
      Reg.lookupA (l.foldl (fun a x => Reg.upsert a (key x) (val x)) acc)
        (key x) = some (val x) := by
  intro l
  induction l with
  | nil => intro acc x hx; cases hx
  | cons y rest ih =>
    intro acc x hx hnd
    rw [List.map_cons, List.nodup_cons] at hnd
    rcases List.mem_cons.mp hx with heq | hmem
    · subst heq
      rw [List.foldl_cons]
      rw [lookupA_foldl_upsert_not_mem key val rest _ (key x)
        (fun z hz hc => hnd.1 (hc ▸ List.mem_map_of_mem key hz))]
      exact lookupA_upsert_self acc (key x) (val x)
    · rw [List.foldl_cons]
      exact ih _ x hmem hnd.2

/-- First forward pass: when every node's stepRef is its own id and that
id resolves through the registry, the pass succeeds and accumulates the
id-to-constructor map as a fold of upserts. -/
theorem buildNodeIdToCtor_ok (reg : Reg.StepRegistry) :
    ∀ (nodes : List Reg.PipelineNodeDefinition)
      (acc : List (String × Nat)),
    (∀ n ∈ nodes, n.stepRef = some n.id ∧
      (Reg.lookupA reg n.id).isSome = true) →
    Reg.buildNodeIdToCtor reg nodes acc = .ok (nodes.foldl
      (fun a n => Reg.upsert a n.id ((Reg.lookupA reg n.id).getD 0)) acc) := by
  intro nodes
  induction nodes with
  | nil => intro acc _; rfl
  | cons n rest ih =>
    intro acc h
    obtain ⟨href, hsome⟩ := h n (List.mem_cons_self n rest)
    rw [Reg.buildNodeIdToCtor, href]
    cases hc : Reg.lookupA reg n.id with
    | none => rw [hc] at hsome; cases hsome
    | some c =>
      simp only [Reg.resolve, hc]
      rw [List.foldl_cons, hc]
      exact ih _ (fun x hx => h x (List.mem_cons_of_mem n hx))

/-- Forward dependency resolution: when each dependency id is bound in
the map according to a constructor assignment, the resolution returns
the mapped constructors in order. -/
theorem resolveNodeDeps_ok (m : List (String × Nat)) (nid : String)
    (c : String → Nat) :
    ∀ (deps : List String), (∀ d ∈ deps, Reg.lookupA m d = some (c d)) →
      Reg.resolveNodeDeps m nid deps = .ok (deps.map c) := by
  intro deps
  induction deps with
  | nil => intro _; rfl
  | cons d rest ih =>
    intro h
    rw [Reg.resolveNodeDeps, h d (List.mem_cons_self d rest),
      ih (fun x hx => h x (List.mem_cons_of_mem d hx))]
    rfl

/-- Second forward pass: with every node id and dependency id bound in
the map, the conversion produces the expected registered step for each
node in order. -/
theorem convertNodes_ok (m : List (String × Nat)) (c : String → Nat) :
    ∀ (ns : List Reg.PipelineNodeDefinition),
    (∀ n ∈ ns, Reg.lookupA m n.id = some (c n.id) ∧
      ∀ d ∈ n.dependsOn, Reg.lookupA m d = some (c d)) →
    Reg.convertNodes m ns = .ok (ns.map (fun n =>
      { ctor := c n.id
        dependsOn := if (n.dependsOn.map c).isEmpty then none
          else some (n.dependsOn.map c)
        meta := Reg.extractMetadata n.config })) := by
  intro ns
  induction ns with
  | nil => intro _; rfl
  | cons n rest ih =>
    intro h
    obtain ⟨hid, hdeps⟩ := h n (List.mem_cons_self n rest)
    rw [Reg.convertNodes, resolveNodeDeps_ok m n.id c n.dependsOn hdeps,
      ih (fun x hx => h x (List.mem_cons_of_mem n hx)), hid]
    rfl

/-- First backward pass: with every step's constructor bound in the
constructor-to-name map, the pass produces one task node per step named
by the map, and accumulates the constructor-to-id map as a fold of
upserts. -/
theorem firstPassNodes_ok (ctorToId : List (Nat × String))
    (idf : Nat → String) :
    ∀ (ss : List Core.RegisteredStep) (acc : List (Nat × String)),
    (∀ s ∈ ss, Reg.lookupA ctorToId s.ctor = some (idf s.ctor)) →
    Reg.firstPassNodes ctorToId ss acc = .ok (ss.map (fun s =>
      { id := idf s.ctor
        type := .task
        dependsOn := []
        stepRef := some (idf s.ctor)
        config := s.meta.map Reg.metaToJson }),
      ss.foldl (fun a s => Reg.upsert a s.ctor (idf s.ctor)) acc) := by
  intro ss
  induction ss with
  | nil => intro acc _; rfl
  | cons s rest ih =>
    intro acc h
    have hrest := ih (Reg.upsert acc s.ctor (idf s.ctor))
      (fun x hx => h x (List.mem_cons_of_mem s hx))
    simp only [Reg.firstPassNodes, h s (List.mem_cons_self s rest), hrest,
      List.map_cons, List.foldl_cons]

/-- Backward dependency resolution: each constructor bound in the
constructor-to-id map translates back to its id, in order. -/
theorem resolveStepDeps_ok (m : List (Nat × String)) (idf : Nat → String) :
    ∀ (cs : List Nat), (∀ x ∈ cs, Reg.lookupA m x = some (idf x)) →
      Reg.resolveStepDeps m cs = .ok (cs.map idf) := by
  intro cs
  induction cs with
  | nil => intro _; rfl
  | cons x rest ih =>
    intro h
    rw [Reg.resolveStepDeps, h x (List.mem_cons_self x rest),
      ih (fun y hy => h y (List.mem_cons_of_mem x hy))]
    rfl

/-- Second backward pass as a fold: with each step's constructor mapping
back to its node id and its dependency constructors translating back to
the original dependency ids, the pass rewires the current node list one
`setDepsOnFirst` per step with nonempty dependencies. -/
theorem secondPassDeps_ok (m : List (Nat × String)) (c : String → Nat) :
    ∀ (ns : List Reg.PipelineNodeDefinition)
      (cur : List Reg.PipelineNodeDefinition),
    (∀ n ∈ ns, Reg.lookupA m (c n.id) = some n.id ∧
      Reg.resolveStepDeps m (n.dependsOn.map c) = .ok n.dependsOn) →
    Reg.secondPassDeps m (ns.map (fun n =>
      { ctor := c n.id
        dependsOn := if (n.dependsOn.map c).isEmpty then none
          else some (n.dependsOn.map c)
        meta := Reg.extractMetadata n.config })) cur =
    .ok (ns.foldl (fun cu n => if n.dependsOn.isEmpty then cu
      else Reg.setDepsOnFirst cu n.id n.dependsOn) cur) := by
  intro ns
  induction ns with
  | nil => intro cur _; rfl
  | cons n rest ih =>
    intro cur h
    obtain ⟨hid, hdeps⟩ := h n (List.mem_cons_self n rest)
    rw [List.map_cons, List.foldl_cons]
    cases hdo : n.dependsOn with
    | nil =>
      simp only [Reg.secondPassDeps, hdo, List.map_nil, List.isEmpty_nil,
        if_pos rfl, List.isEmpty_nil]
      exact ih cur (fun x hx => h x (List.mem_cons_of_mem n hx))
    | cons d ds =>
      rw [hdo] at hdeps
      rw [List.map_cons] at hdeps
      simp only [Reg.secondPassDeps, hdo, List.map_cons, List.isEmpty_cons,
        if_neg (by exact Bool.false_ne_true), hid, Option.getD_some, hdeps]
      exact ih _ (fun x hx => h x (List.mem_cons_of_mem n hx))

/-- The rewiring fold skips a head node whose id none of the folded
nodes carries. -/
theorem foldl_setDeps_cons (c0 : Reg.PipelineNodeDefinition) :
    ∀ (ns : List Reg.PipelineNodeDefinition)
      (cur : List Reg.PipelineNodeDefinition),
    (∀ n ∈ ns, n.id ≠ c0.id) →
    ns.foldl (fun cu n => if n.dependsOn.isEmpty then cu
      else Reg.setDepsOnFirst cu n.id n.dependsOn) (c0 :: cur) =
    c0 :: ns.foldl (fun cu n => if n.dependsOn.isEmpty then cu
      else Reg.setDepsOnFirst cu n.id n.dependsOn) cur := by
  intro ns
  induction ns with
  | nil => intro cur _; rfl
  | cons n rest ih =>
    intro cur h
    rw [List.foldl_cons, List.foldl_cons]
    by_cases he : n.dependsOn.isEmpty = true
    · rw [if_pos he, if_pos he]
      exact ih cur (fun x hx => h x (List.mem_cons_of_mem n hx))
    · rw [if_neg he, if_neg he]
      rw [Reg.setDepsOnFirst, if_neg (by
        simp
        exact fun hc => h n (List.mem_cons_self n rest) hc.symm)]
      exact ih _ (fun x hx => h x (List.mem_cons_of_mem n hx))

/-- With aligned, duplicate-free ids, the rewiring fold rewrites each
node of the current list against its aligned source node. -/
theorem foldl_setDeps_zip :
    ∀ (ns : List Reg.PipelineNodeDefinition)
      (cur : List Reg.PipelineNodeDefinition),
    cur.map (·.id) = ns.map (·.id) → (ns.map (·.id)).Nodup →
    ns.foldl (fun cu n => if n.dependsOn.isEmpty then cu
      else Reg.setDepsOnFirst cu n.id n.dependsOn) cur =
    List.zipWith (fun cu n => if n.dependsOn.isEmpty then cu
      else { cu with dependsOn := n.dependsOn }) cur ns := by
  intro ns
  induction ns with
  | nil =>
    intro cur hal _
    rw [List.map_nil, List.map_eq_nil] at hal
    subst hal
    rfl
  | cons n rest ih =>
    intro cur hal hnd
    cases cur with
    | nil => rw [List.map_nil, List.map_cons] at hal; cases hal
    | cons cu cur' =>
      rw [List.map_cons, List.map_cons] at hal
      injection hal with hid hal'
      rw [List.map_cons, List.nodup_cons] at hnd
      rw [List.foldl_cons, List.zipWith_cons_cons]
      have hstep : (if n.dependsOn.isEmpty then (cu :: cur')
          else Reg.setDepsOnFirst (cu :: cur') n.id n.dependsOn) =
          (if n.dependsOn.isEmpty then cu
            else { cu with dependsOn := n.dependsOn }) :: cur' := by
        by_cases he : n.dependsOn.isEmpty = true
        · rw [if_pos he, if_pos he]
        · rw [if_neg he, if_neg he]
          rw [Reg.setDepsOnFirst, if_pos (by simp [hid])]
      rw [hstep]
      have hcid : (if n.dependsOn.isEmpty = true then cu
          else { cu with dependsOn := n.dependsOn }).id = cu.id := by
        by_cases he : n.dependsOn.isEmpty = true
        · rw [if_pos he]
        · rw [if_neg he]
      rw [foldl_setDeps_cons _ rest _ (fun x hx hc => by
        rw [hcid, hid] at hc
        exact hnd.1 (hc ▸ List.mem_map_of_mem (·.id) hx))]
      congr 1
      exact ih cur' hal' hnd.2

/-- Zipping a mapped list against the original applies the combine
function to each element and its image. -/
theorem zipWith_map_self {α β : Type} (f : α → β) (g : β → α → β) :
    ∀ (l : List α), List.zipWith g (l.map f) l = l.map (fun x => g (f x) x) := by
  intro l
  induction l with
  | nil => rfl
  | cons x rest ih => rw [List.map_cons, List.zipWith_cons_cons, ih]; rfl

/-- C4.  The registry round trip is the identity only on models whose
node ids coincide with their stepRefs: converting a model whose nodes
are all tasks, whose stepRefs equal their node ids and resolve through
the registry, whose constructor resolves back to the same name, whose
dependencies reference existing nodes, and whose entry list is the
default one, to core steps and back reproduces every node's id, kind,
dependency list and stepRef in order, and the entry ids.  (The
unamended claim fails because the backward conversion names nodes by
the registry name of their constructor, discarding the original id; see
the counterexample.) -/
theorem c4_round_trip (N : Reg.PipelineDefinition) (reg : Reg.StepRegistry)
    (hnd : (N.nodes.map (·.id)).Nodup)
    (htask : ∀ n ∈ N.nodes, n.type = Reg.NodeType.task)
    (href : ∀ n ∈ N.nodes, n.stepRef = some n.id)
    (hreg : ∀ n ∈ N.nodes, (Reg.lookupA reg n.id).isSome = true ∧
      Reg.lookupA (Reg.buildCtorToId reg) ((Reg.lookupA reg n.id).getD 0) =
        some n.id)
    (hdep : ∀ n ∈ N.nodes, ∀ d ∈ n.dependsOn, d ∈ N.nodes.map (·.id))
    (hentry : N.entryNodes =
      (if ((N.nodes.filter (fun n => n.dependsOn.isEmpty)).map (·.id)).isEmpty
       then none
       else some ((N.nodes.filter (fun n => n.dependsOn.isEmpty)).map (·.id)))) :
    ∃ steps N2,
      Reg.pipelineDefinitionToRegisteredSteps N reg = .ok steps ∧
      Reg.registeredStepsToPipelineDefinition steps reg = .ok N2 ∧
      N2.nodes.map (fun n => (n.id, n.type, n.dependsOn, n.stepRef)) =
        N.nodes.map (fun n => (n.id, n.type, n.dependsOn, n.stepRef)) ∧
      N2.entryNodes = N.entryNodes := by
  -- the forward id-to-constructor map
  have hm := buildNodeIdToCtor_ok reg N.nodes []
    (fun n hn => ⟨href n hn, (hreg n hn).1⟩)
  have hmn : ∀ n ∈ N.nodes,
      Reg.lookupA (N.nodes.foldl (fun a n =>
        Reg.upsert a n.id ((Reg.lookupA reg n.id).getD 0)) [])
        n.id = some ((Reg.lookupA reg n.id).getD 0) :=
    fun n hn => lookupA_foldl_upsert_mem (fun n => n.id)
      (fun n => (Reg.lookupA reg n.id).getD 0) N.nodes [] n hn hnd
  have hmd : ∀ d ∈ N.nodes.map (·.id),
      Reg.lookupA (N.nodes.foldl (fun a n =>
        Reg.upsert a n.id ((Reg.lookupA reg n.id).getD 0)) [])
        d = some ((Reg.lookupA reg d).getD 0) := by
    intro d hd
    obtain ⟨x, hx, rfl⟩ := List.mem_map.mp hd
    exact hmn x hx
  have hcv := convertNodes_ok
    (N.nodes.foldl (fun a n =>
      Reg.upsert a n.id ((Reg.lookupA reg n.id).getD 0)) [])
    (fun i => (Reg.lookupA reg i).getD 0) N.nodes
    (fun n hn => ⟨hmn n hn, fun d hd => hmd d (hdep n hn d hd)⟩)
  have hfw : Reg.pipelineDefinitionToRegisteredSteps N reg = .ok
      (N.nodes.map (fun n =>
        { ctor := (Reg.lookupA reg n.id).getD 0
          dependsOn :=
            if (n.dependsOn.map (fun i => (Reg.lookupA reg i).getD 0)).isEmpty
            then none
            else some (n.dependsOn.map (fun i => (Reg.lookupA reg i).getD 0))
          meta := Reg.extractMetadata n.config })) := by
    simp only [Reg.pipelineDefinitionToRegisteredSteps, hm, hcv]
  -- the backward constructor-to-id map
  have hback : ∀ s ∈ N.nodes.map (fun n =>
      ({ ctor := (Reg.lookupA reg n.id).getD 0
         dependsOn :=
           if (n.dependsOn.map (fun i => (Reg.lookupA reg i).getD 0)).isEmpty
           then none
           else some (n.dependsOn.map (fun i => (Reg.lookupA reg i).getD 0))
         meta := Reg.extractMetadata n.config } : Core.RegisteredStep)),
      Reg.lookupA (Reg.buildCtorToId reg) s.ctor =
        some ((Reg.lookupA (Reg.buildCtorToId reg) s.ctor).getD "") := by
    intro s hs
    obtain ⟨n, hn, rfl⟩ := List.mem_map.mp hs
    have h2 := (hreg n hn).2
    show Reg.lookupA (Reg.buildCtorToId reg) ((Reg.lookupA reg n.id).getD 0) =
      _
    rw [h2]
    rfl
  have hfp := firstPassNodes_ok (Reg.buildCtorToId reg)
    (fun ct => (Reg.lookupA (Reg.buildCtorToId reg) ct).getD "")
    (N.nodes.map (fun n =>
      { ctor := (Reg.lookupA reg n.id).getD 0
        dependsOn :=
          if (n.dependsOn.map (fun i => (Reg.lookupA reg i).getD 0)).isEmpty
          then none
          else some (n.dependsOn.map (fun i => (Reg.lookupA reg i).getD 0))
        meta := Reg.extractMetadata n.config })) [] hback
  -- duplicate-freeness of the step constructors
  have hctor_inj : ∀ x ∈ N.nodes.map (·.id), ∀ y ∈ N.nodes.map (·.id),
      (Reg.lookupA reg x).getD 0 = (Reg.lookupA reg y).getD 0 → x = y := by
    intro x hx y hy hxy
    obtain ⟨nx, hnx, rfl⟩ := List.mem_map.mp hx
    obtain ⟨ny, hny, rfl⟩ := List.mem_map.mp hy
    have h2x := (hreg nx hnx).2
    have h2y := (hreg ny hny).2
    rw [hxy, h2y] at h2x
    exact (Option.some_injective _ h2x).symm
  have hsnd : ((N.nodes.map (fun n =>
      ({ ctor := (Reg.lookupA reg n.id).getD 0
         dependsOn :=
           if (n.dependsOn.map (fun i => (Reg.lookupA reg i).getD 0)).isEmpty
           then none
           else some (n.dependsOn.map (fun i => (Reg.lookupA reg i).getD 0))
         meta := Reg.extractMetadata n.config } : Core.RegisteredStep))).map
      (·.ctor)).Nodup := by
    rw [List.map_map]
    have h1 := List.Nodup.map_on hctor_inj hnd
    rw [List.map_map] at h1
    exact h1
  have hm2 : ∀ s ∈ N.nodes.map (fun n =>
      ({ ctor := (Reg.lookupA reg n.id).getD 0
         dependsOn :=
           if (n.dependsOn.map (fun i => (Reg.lookupA reg i).getD 0)).isEmpty
           then none
           else some (n.dependsOn.map (fun i => (Reg.lookupA reg i).getD 0))
         meta := Reg.extractMetadata n.config } : Core.RegisteredStep)),
      Reg.lookupA ((N.nodes.map (fun n =>
        ({ ctor := (Reg.lookupA reg n.id).getD 0
           dependsOn :=
             if (n.dependsOn.map (fun i => (Reg.lookupA reg i).getD 0)).isEmpty
             then none
             else some (n.dependsOn.map (fun i => (Reg.lookupA reg i).getD 0))
           meta := Reg.extractMetadata n.config } : Core.RegisteredStep))).foldl
          (fun a s => Reg.upsert a s.ctor
            ((Reg.lookupA (Reg.buildCtorToId reg) s.ctor).getD "")) [])
        s.ctor =
        some ((Reg.lookupA (Reg.buildCtorToId reg) s.ctor).getD "") :=
    fun s hs => lookupA_foldl_upsert_mem (fun s => s.ctor)
      (fun s => (Reg.lookupA (Reg.buildCtorToId reg) s.ctor).getD "")
      _ [] s hs hsnd
  have hm2n : ∀ n ∈ N.nodes,
      Reg.lookupA ((N.nodes.map (fun n =>
        ({ ctor := (Reg.lookupA reg n.id).getD 0
           dependsOn :=
             if (n.dependsOn.map (fun i => (Reg.lookupA reg i).getD 0)).isEmpty
             then none
             else some (n.dependsOn.map (fun i => (Reg.lookupA reg i).getD 0))
           meta := Reg.extractMetadata n.config } : Core.RegisteredStep))).foldl
          (fun a s => Reg.upsert a s.ctor
            ((Reg.lookupA (Reg.buildCtorToId reg) s.ctor).getD "")) [])
        ((Reg.lookupA reg n.id).getD 0) = some n.id := by
    intro n hn
    have hs := hm2 _ (List.mem_map_of_mem _ hn)
    rw [show Reg.lookupA (Reg.buildCtorToId reg)
        ((Reg.lookupA reg n.id).getD 0) = some n.id from (hreg n hn).2] at hs
    exact hs
  have hdeps_back : ∀ n ∈ N.nodes,
      Reg.resolveStepDeps ((N.nodes.map (fun n =>
        ({ ctor := (Reg.lookupA reg n.id).getD 0
           dependsOn :=
             if (n.dependsOn.map (fun i => (Reg.lookupA reg i).getD 0)).isEmpty
             then none
             else some (n.dependsOn.map (fun i => (Reg.lookupA reg i).getD 0))
           meta := Reg.extractMetadata n.config } : Core.RegisteredStep))).foldl
          (fun a s => Reg.upsert a s.ctor
            ((Reg.lookupA (Reg.buildCtorToId reg) s.ctor).getD "")) [])
        (n.dependsOn.map (fun i => (Reg.lookupA reg i).getD 0)) =
        .ok n.dependsOn := by
    intro n hn
    have hr := resolveStepDeps_ok
      ((N.nodes.map (fun n =>
        ({ ctor := (Reg.lookupA reg n.id).getD 0
           dependsOn :=
             if (n.dependsOn.map (fun i => (Reg.lookupA reg i).getD 0)).isEmpty
             then none
             else some (n.dependsOn.map (fun i => (Reg.lookupA reg i).getD 0))
           meta := Reg.extractMetadata n.config } : Core.RegisteredStep))).foldl
          (fun a s => Reg.upsert a s.ctor
            ((Reg.lookupA (Reg.buildCtorToId reg) s.ctor).getD "")) [])
      (fun ct => (Reg.lookupA (Reg.buildCtorToId reg) ct).getD "")
      (n.dependsOn.map (fun i => (Reg.lookupA reg i).getD 0))
      (by
        intro x hx
        obtain ⟨d, hd, rfl⟩ := List.mem_map.mp hx
        obtain ⟨x', hx', rfl⟩ := List.mem_map.mp (hdep n hn d hd)
        show Reg.lookupA ((N.nodes.map (fun n =>
        ({ ctor := (Reg.lookupA reg n.id).getD 0
           dependsOn :=
             if (n.dependsOn.map (fun i => (Reg.lookupA reg i).getD 0)).isEmpty
             then none
             else some (n.dependsOn.map (fun i => (Reg.lookupA reg i).getD 0))
           meta := Reg.extractMetadata n.config } : Core.RegisteredStep))).foldl
          (fun a s => Reg.upsert a s.ctor
            ((Reg.lookupA (Reg.buildCtorToId reg) s.ctor).getD "")) []) ((Reg.lookupA reg x'.id).getD 0) =
          some ((Reg.lookupA (Reg.buildCtorToId reg)
            ((Reg.lookupA reg x'.id).getD 0)).getD "")
        rw [(hreg x' hx').2]
        exact hm2n x' hx')
    rw [List.map_map] at hr
    have hmapid : n.dependsOn.map ((fun ct =>
        (Reg.lookupA (Reg.buildCtorToId reg) ct).getD "") ∘
        (fun i => (Reg.lookupA reg i).getD 0)) = n.dependsOn := by
      refine (List.map_congr_left ?_).trans (List.map_id n.dependsOn)
      intro d hd
      obtain ⟨x', hx', rfl⟩ := List.mem_map.mp (hdep n hn d hd)
      show (Reg.lookupA (Reg.buildCtorToId reg)
        ((Reg.lookupA reg x'.id).getD 0)).getD "" = x'.id
      rw [(hreg x' hx').2]
      rfl
    rw [hmapid] at hr
    exact hr
  have hsp := secondPassDeps_ok
    ((N.nodes.map (fun n =>
        ({ ctor := (Reg.lookupA reg n.id).getD 0
           dependsOn :=
             if (n.dependsOn.map (fun i => (Reg.lookupA reg i).getD 0)).isEmpty
             then none
             else some (n.dependsOn.map (fun i => (Reg.lookupA reg i).getD 0))
           meta := Reg.extractMetadata n.config } : Core.RegisteredStep))).foldl
          (fun a s => Reg.upsert a s.ctor
            ((Reg.lookupA (Reg.buildCtorToId reg) s.ctor).getD "")) []) (fun i => (Reg.lookupA reg i).getD 0)
    N.nodes
    ((N.nodes.map (fun n =>
      ({ ctor := (Reg.lookupA reg n.id).getD 0
         dependsOn :=
           if (n.dependsOn.map (fun i => (Reg.lookupA reg i).getD 0)).isEmpty
           then none
           else some (n.dependsOn.map (fun i => (Reg.lookupA reg i).getD 0))
         meta := Reg.extractMetadata n.config } : Core.RegisteredStep))).map
      (fun s => { id := (Reg.lookupA (Reg.buildCtorToId reg) s.ctor).getD ""
                  type := .task
                  dependsOn := []
                  stepRef :=
                    some ((Reg.lookupA (Reg.buildCtorToId reg) s.ctor).getD "")
                  config := s.meta.map Reg.metaToJson }))
    (fun n hn => ⟨hm2n n hn, hdeps_back n hn⟩)
  have hal : (((N.nodes.map (fun n =>
      ({ ctor := (Reg.lookupA reg n.id).getD 0
         dependsOn :=
           if (n.dependsOn.map (fun i => (Reg.lookupA reg i).getD 0)).isEmpty
           then none
           else some (n.dependsOn.map (fun i => (Reg.lookupA reg i).getD 0))
         meta := Reg.extractMetadata n.config } : Core.RegisteredStep))).map
      (fun s => ({ id := (Reg.lookupA (Reg.buildCtorToId reg) s.ctor).getD ""
                   type := .task
                   dependsOn := []
                   stepRef :=
                     some ((Reg.lookupA (Reg.buildCtorToId reg) s.ctor).getD "")
                   config := s.meta.map Reg.metaToJson } :
                   Reg.PipelineNodeDefinition))).map (·.id)) =
      N.nodes.map (·.id) := by
    rw [List.map_map, List.map_map]
    refine List.map_congr_left ?_
    intro n hn
    show (Reg.lookupA (Reg.buildCtorToId reg)
      ((Reg.lookupA reg n.id).getD 0)).getD "" = n.id
    rw [(hreg n hn).2]
    rfl
  have hzip := foldl_setDeps_zip N.nodes _ hal hnd
  have hnodesFinal : N.nodes.foldl (fun cu n =>
      if n.dependsOn.isEmpty then cu
      else Reg.setDepsOnFirst cu n.id n.dependsOn)
      ((N.nodes.map (fun n =>
        ({ ctor := (Reg.lookupA reg n.id).getD 0
           dependsOn :=
             if (n.dependsOn.map (fun i => (Reg.lookupA reg i).getD 0)).isEmpty
             then none
             else some (n.dependsOn.map (fun i => (Reg.lookupA reg i).getD 0))
           meta := Reg.extractMetadata n.config } : Core.RegisteredStep))).map
        (fun s => { id := (Reg.lookupA (Reg.buildCtorToId reg) s.ctor).getD ""
                    type := .task
                    dependsOn := []
                    stepRef :=
                      some ((Reg.lookupA (Reg.buildCtorToId reg) s.ctor).getD "")
                    config := s.meta.map Reg.metaToJson })) =
      N.nodes.map (fun n =>
        ({ id := n.id
           type := n.type
           dependsOn := n.dependsOn
           stepRef := n.stepRef
           config := (Reg.extractMetadata n.config).map Reg.metaToJson } :
           Reg.PipelineNodeDefinition)) := by
    rw [hzip, List.map_map, zipWith_map_self]
    refine List.map_congr_left ?_
    intro n hn
    show (if n.dependsOn.isEmpty then
        ({ id := (Reg.lookupA (Reg.buildCtorToId reg)
             ((Reg.lookupA reg n.id).getD 0)).getD ""
           type := .task
           dependsOn := []
           stepRef := some ((Reg.lookupA (Reg.buildCtorToId reg)
             ((Reg.lookupA reg n.id).getD 0)).getD "")
           config := (Reg.extractMetadata n.config).map Reg.metaToJson } :
           Reg.PipelineNodeDefinition)
      else
        { id := (Reg.lookupA (Reg.buildCtorToId reg)
            ((Reg.lookupA reg n.id).getD 0)).getD ""
          type := .task
          dependsOn := n.dependsOn
          stepRef := some ((Reg.lookupA (Reg.buildCtorToId reg)
            ((Reg.lookupA reg n.id).getD 0)).getD "")
          config := (Reg.extractMetadata n.config).map Reg.metaToJson }) =
      { id := n.id
        type := n.type
        dependsOn := n.dependsOn
        stepRef := n.stepRef
        config := (Reg.extractMetadata n.config).map Reg.metaToJson }
    have hid2 : (Reg.lookupA (Reg.buildCtorToId reg)
        ((Reg.lookupA reg n.id).getD 0)).getD "" = n.id := by
      rw [(hreg n hn).2]
      rfl
    by_cases he : n.dependsOn.isEmpty = true
    · have hdo : n.dependsOn = [] := by
        cases hv : n.dependsOn with
        | nil => rfl
        | cons a l => rw [hv] at he; cases he
      rw [if_pos he, hid2, htask n hn, href n hn, hdo]
    · rw [if_neg he, hid2, htask n hn, href n hn]
  refine ⟨_, ⟨N.nodes.map (fun n =>
      ({ id := n.id
         type := n.type
         dependsOn := n.dependsOn
         stepRef := n.stepRef
         config := (Reg.extractMetadata n.config).map Reg.metaToJson } :
         Reg.PipelineNodeDefinition)), N.entryNodes⟩, hfw, ?_, ?_, rfl⟩
  · have hfe : ((N.nodes.map (fun n =>
        ({ id := n.id
           type := n.type
           dependsOn := n.dependsOn
           stepRef := n.stepRef
           config := (Reg.extractMetadata n.config).map Reg.metaToJson } :
           Reg.PipelineNodeDefinition))).filter
          (fun n => n.dependsOn.isEmpty)).map (·.id) =
        (N.nodes.filter (fun n => n.dependsOn.isEmpty)).map (·.id) := by
      rw [List.filter_map]
      rw [List.filter_congr (fun a _ => rfl)]
      rw [List.map_map]
      exact List.map_congr_left (fun a _ => rfl)
    simp only [Reg.registeredStepsToPipelineDefinition, hfp, hsp, hnodesFinal,
      hfe, ← hentry]
  · rw [List.map_map]
    exact List.map_congr_left (fun n _ => rfl)

/-- Counterexample to the unamended C4: a single-task model whose node
id `step1` differs from its registered stepRef `validate` satisfies all
of the claim's hypotheses, yet the round trip renames the node to
`validate`, so the round trip is not the identity on node ids. -/
theorem c4_counterexample :
    (∀ n ∈ Ex.n4.nodes, n.type = Reg.NodeType.task ∧
      n.stepRef = some "validate" ∧ n.dependsOn = []) ∧
    (Reg.lookupA Ex.reg4 "validate").isSome = true ∧
    Reg.pipelineDefinitionToRegisteredSteps Ex.n4 Ex.reg4 = .ok Ex.steps4 ∧
    Reg.registeredStepsToPipelineDefinition Ex.steps4 Ex.reg4 = .ok Ex.n4r ∧
    Ex.n4r.nodes.map (·.id) = ["validate"] ∧
    Ex.n4.nodes.map (·.id) = ["step1"] :=
  ⟨by decide, by decide, rfl, rfl, by decide, by decide⟩

/-- Witness for C4: the two-node model `n4w`, whose ids equal their
stepRefs, satisfies every hypothesis of the amended round-trip theorem,
which then reproduces its ids, kinds, dependencies, stepRefs, and entry
ids. -/
theorem c4_witness :
    ((Ex.n4w.nodes.map (·.id)).Nodup ∧
     (∀ n ∈ Ex.n4w.nodes, n.type = Reg.NodeType.task) ∧
     Ex.n4w.entryNodes = some ["va"]) ∧
    (∃ steps N2,
      Reg.pipelineDefinitionToRegisteredSteps Ex.n4w Ex.reg4w = .ok steps ∧
      Reg.registeredStepsToPipelineDefinition steps Ex.reg4w = .ok N2 ∧
      N2.nodes.map (fun n => (n.id, n.type, n.dependsOn, n.stepRef)) =
        Ex.n4w.nodes.map (fun n => (n.id, n.type, n.dependsOn, n.stepRef)) ∧
      N2.entryNodes = Ex.n4w.entryNodes) :=
  ⟨⟨by decide, by decide, by decide⟩,
    c4_round_trip Ex.n4w Ex.reg4w (by decide) (by decide) (by decide)
      (by decide) (by decide) (by decide)⟩

/-- Filtering with a pointwise-stronger predicate yields at most as many
elements. -/
theorem length_filter_mono {α : Type} (l : List α) (p q : α → Bool)
    (h : ∀ x ∈ l, q x = true → p x = true) :
    (l.filter q).length ≤ (l.filter p).length := by
  induction l with
  | nil => exact Nat.le_refl _
  | cons a rest ih =>
    have ih' := ih (fun x hx => h x (List.mem_cons_of_mem a hx))
    rw [List.filter_cons, List.filter_cons]
    cases hq : q a
    · cases hp : p a
      · exact ih'
      · exact Nat.le_succ_of_le ih'
    · rw [h a (List.mem_cons_self a rest) hq]
      exact Nat.succ_le_succ ih'

/-- Filtering with a pointwise-stronger predicate that loses some member
yields strictly fewer elements. -/
theorem length_filter_lt2 {α : Type} (l : List α) (p q : α → Bool)
    (h : ∀ x ∈ l, q x = true → p x = true) (x0 : α) (hx0 : x0 ∈ l)
    (hp0 : p x0 = true) (hq0 : q x0 = false) :
    (l.filter q).length < (l.filter p).length := by
  induction l with
  | nil => cases hx0
  | cons a rest ih =>
    rw [List.filter_cons, List.filter_cons]
    rcases List.mem_cons.mp hx0 with heq | hmem
    · subst heq
      rw [hp0, hq0]
      exact Nat.lt_succ_of_le
        (length_filter_mono rest p q
          (fun y hy => h y (List.mem_cons_of_mem x0 hy)))
    · have ih' := ih (fun y hy => h y (List.mem_cons_of_mem a hy)) hmem
      cases hq : q a
      · cases hp : p a
        · exact ih'
        · exact Nat.lt_succ_of_lt ih'
      · rw [h a (List.mem_cons_self a rest) hq]
        exact Nat.succ_lt_succ ih'

/-- Node-map lookup of a node id returns that node's dependencies and
resolved timing (with duplicate-free ids). -/
theorem nmap_lookup (meta : Planner.MetadataByNodeId)
    (nodes : List Reg.PipelineNodeDefinition)
    (hnd : (nodes.map (·.id)).Nodup) (n : Reg.PipelineNodeDefinition)
    (hn : n ∈ nodes) :
    Reg.lookupA (Planner.buildNodeMap meta nodes) n.id =
      some (n.dependsOn, Planner.nodeTiming meta n) := by
  show Reg.lookupA (nodes.foldl (fun acc n =>
    Reg.upsert acc n.id (n.dependsOn, Planner.nodeTiming meta n)) []) n.id = _
  exact lookupA_foldl_upsert_mem (fun n => n.id)
    (fun n => (n.dependsOn, Planner.nodeTiming meta n)) nodes [] n hn hnd

/-- Node-map lookup fails on ids that are not node ids. -/
theorem nmap_none (meta : Planner.MetadataByNodeId)
    (nodes : List Reg.PipelineNodeDefinition) (i : String)
    (hi : i ∉ nodes.map (·.id)) :
    Reg.lookupA (Planner.buildNodeMap meta nodes) i = none := by
  show Reg.lookupA (nodes.foldl (fun acc n =>
    Reg.upsert acc n.id (n.dependsOn, Planner.nodeTiming meta n)) []) i = none
  rw [lookupA_foldl_upsert_not_mem (fun n => n.id)
    (fun n => (n.dependsOn, Planner.nodeTiming meta n)) nodes [] i
    (fun x hx hc => hi (hc ▸ List.mem_map_of_mem (·.id) hx))]
  rfl

/-- With duplicate-free ids, `nodeById` of a member's id is that
member. -/
theorem nodeById_self (defn : Reg.PipelineDefinition)
    (hnd : (defn.nodes.map (·.id)).Nodup) (n : Reg.PipelineNodeDefinition)
    (hn : n ∈ defn.nodes) :
    Planner.nodeById defn n.id = some n := by
  rw [Planner.nodeById]
  rcases defn with ⟨nodes, entry⟩
  induction nodes with
  | nil => cases hn
  | cons y rest ih =>
    rw [List.map_cons, List.nodup_cons] at hnd
    rcases List.mem_cons.mp hn with heq | hmem
    · subst heq
      rw [List.find?_cons_of_pos _ (by simp)]
    · rw [List.find?_cons_of_neg, ih hnd.2 hmem]
      simp
      intro hc
      exact hnd.1 (hc ▸ List.mem_map_of_mem (·.id) hmem)

/-- With duplicate-free ids, two nodes sharing an id are equal. -/
theorem node_id_inj (defn : Reg.PipelineDefinition)
    (hnd : (defn.nodes.map (·.id)).Nodup)
    {n m : Reg.PipelineNodeDefinition} (hn : n ∈ defn.nodes)
    (hm : m ∈ defn.nodes) (h : n.id = m.id) : n = m :=
  List.inj_on_of_nodup_map hnd hn hm h

/-- The id timing of a member's id is its node timing. -/
theorem idTiming_eq (defn : Reg.PipelineDefinition)
    (meta : Planner.MetadataByNodeId)
    (hnd : (defn.nodes.map (·.id)).Nodup) (n : Reg.PipelineNodeDefinition)
    (hn : n ∈ defn.nodes) :
    Planner.idTiming defn meta n.id = Planner.nodeTiming meta n := by
  rw [Planner.idTiming, nodeById_self defn hnd n hn]

/-- An acyclic node list has no self-dependency. -/
theorem no_self_dep (nodes : List Reg.PipelineNodeDefinition)
    (hacy : Planner.AcyclicNodes nodes) (n : Reg.PipelineNodeDefinition)
    (hn : n ∈ nodes) : n.id ∉ n.dependsOn := by
  intro hc
  obtain ⟨t, ht, hsrc⟩ := hacy {n.id}
    (Finset.mem_powerset.mpr (by
      intro x hx
      rw [Finset.mem_singleton] at hx
      subst hx
      exact List.mem_toFinset.mpr (List.mem_map_of_mem (·.id) hn)))
    ⟨n.id, Finset.mem_singleton_self n.id⟩
  rw [Finset.mem_singleton] at ht
  subst ht
  exact hsrc n hn rfl n.id hc (Finset.mem_singleton_self n.id)

/-- Pessimistic sum of a path extended by one id. -/
theorem pessSum_append (defn : Reg.PipelineDefinition)
    (meta : Planner.MetadataByNodeId) (p : List String) (x : String) :
    Planner.pessSum defn meta (p ++ [x]) =
      Planner.pessSum defn meta p +
        (Planner.idTiming defn meta x).pessimisticMs := by
  rw [Planner.pessSum, Planner.pessSum, List.map_append, List.sum_append]
  simp

/-- Optimistic sum of a path extended by one id. -/
theorem optSum_append (defn : Reg.PipelineDefinition)
    (meta : Planner.MetadataByNodeId) (p : List String) (x : String) :
    Planner.optSum defn meta (p ++ [x]) =
      Planner.optSum defn meta p +
        (Planner.idTiming defn meta x).optimisticMs := by
  rw [Planner.optSum, Planner.optSum, List.map_append, List.sum_append]
  simp

/-- Extending a chain along a dependency edge keeps it a chain. -/
theorem chain_append (defn : Reg.PipelineDefinition) :
    ∀ (p : List String) (u x : String), Planner.IsChain defn p →
      p.getLast? = some u → Planner.HasNEdge defn u x →
      x ∈ defn.nodes.map (·.id) →
      Planner.IsChain defn (p ++ [x]) := by
  intro p
  induction p with
  | nil => intro u x _ hl; cases hl
  | cons a rest ih =>
    intro u x hch hl hedge hx
    cases rest with
    | nil =>
      injection hl with hl
      subst hl
      exact ⟨hch, hedge, hx⟩
    | cons b rest' =>
      obtain ⟨ha, hab, hch'⟩ := hch
      rw [List.getLast?_cons_cons] at hl
      exact ⟨ha, hab, ih u x hch' hl hedge hx⟩

/-- Extending a root path along a dependency edge keeps it a root
path ending at the new id. -/
theorem rootPath_append (defn : Reg.PipelineDefinition) (p : List String)
    (u x : String) (hp : Planner.IsRootPath defn p)
    (hl : p.getLast? = some u) (hedge : Planner.HasNEdge defn u x)
    (hx : x ∈ defn.nodes.map (·.id)) :
    Planner.IsRootPath defn (p ++ [x]) ∧
      (p ++ [x]).getLast? = some x := by
  cases p with
  | nil => cases hp
  | cons a rest =>
    obtain ⟨hent, hch⟩ := hp
    exact ⟨⟨hent, chain_append defn (a :: rest) u x hch hl hedge hx⟩,
      List.getLast?_concat _⟩

/-- A chain ending at `v` is the singleton `[v]` or a chain extended by
one edge into `v`. -/
theorem chain_split (defn : Reg.PipelineDefinition) :
    ∀ (p : List String) (v : String), Planner.IsChain defn p →
      p.getLast? = some v →
      p = [v] ∨ ∃ p' u, p = p' ++ [v] ∧ Planner.IsChain defn p' ∧
        p'.getLast? = some u ∧ Planner.HasNEdge defn u v := by
  intro p
  induction p with
  | nil => intro v _ hl; cases hl
  | cons a rest ih =>
    intro v hch hl
    cases rest with
    | nil =>
      injection hl with hl
      subst hl
      exact Or.inl rfl
    | cons b rest' =>
      obtain ⟨ha, hab, hch'⟩ := hch
      rw [List.getLast?_cons_cons] at hl
      rcases ih v hch' hl with heq | ⟨p'', u, heq, hch'', hl'', hedge''⟩
      · refine Or.inr ⟨[a], a, ?_, ha, rfl, ?_⟩
        · rw [heq]
          rfl
        · injection heq with h1 _
          rw [← h1]
          exact hab
      · cases p'' with
        | nil => cases hl''
        | cons c p2 =>
          injection heq with hbc heq2
          subst hbc
          refine Or.inr ⟨a :: b :: p2, u, ?_, ⟨ha, hab, hch''⟩,
            ?_, hedge''⟩
          · simp [heq2]
          · rw [List.getLast?_cons_cons]
            exact hl''

/-- A root path ending at `v` is the entry singleton `[v]` or a root
path extended by one edge into `v`. -/
theorem rootPath_split (defn : Reg.PipelineDefinition) (p : List String)
    (v : String) (hp : Planner.IsRootPath defn p)
    (hl : p.getLast? = some v) :
    (p = [v] ∧ Planner.IsEntryId defn v) ∨
      ∃ p' u, p = p' ++ [v] ∧ Planner.IsRootPath defn p' ∧
        p'.getLast? = some u ∧ Planner.HasNEdge defn u v := by
  cases p with
  | nil => cases hp
  | cons a rest =>
    obtain ⟨hent, hch⟩ := hp
    rcases chain_split defn (a :: rest) v hch hl with
      heq | ⟨p', u, heq, hch', hl', hedge'⟩
    · refine Or.inl ⟨heq, ?_⟩
      injection heq with h1 _
      rw [← h1]
      exact hent
    · cases p' with
      | nil => cases hl'
      | cons c p2 =>
        injection heq with hac heq2
        subst hac
        exact Or.inr ⟨a :: p2, u, by simp [heq2],
          ⟨hent, hch'⟩, hl', hedge'⟩

/-- Case analysis of one relaxation step: either the dependent does not
depend on the processed node (or is unknown to the node map) and the
state is unchanged, or the state is the recorded update. -/
theorem relaxOne_cases
    (nodeMap : List (String × (List String × Planner.PathTiming)))
    (processed : List String) (n : String) (cur : Planner.LPEntry)
    (dep : Reg.PipelineNodeDefinition) (lp : List (String × Planner.LPEntry))
    (q : List String) :
    (Planner.relaxOne nodeMap processed n cur dep lp q = (lp, q) ∧
      (dep.dependsOn.contains n = false ∨
        Reg.lookupA nodeMap dep.id = none)) ∨
    ∃ nd, dep.dependsOn.contains n = true ∧
      Reg.lookupA nodeMap dep.id = some nd ∧
      Planner.relaxOne nodeMap processed n cur dep lp q =
        ((match Reg.lookupA lp dep.id with
          | none => Reg.upsert lp dep.id
              ⟨cur.path ++ [dep.id],
               ⟨cur.timing.optimisticMs + nd.2.optimisticMs,
                cur.timing.pessimisticMs + nd.2.pessimisticMs⟩⟩
          | some dp =>
            if cur.timing.pessimisticMs + nd.2.pessimisticMs >
                dp.timing.pessimisticMs ∨
                (cur.timing.pessimisticMs + nd.2.pessimisticMs =
                  dp.timing.pessimisticMs ∧
                 cur.timing.optimisticMs + nd.2.optimisticMs >
                  dp.timing.optimisticMs) then
              Reg.upsert lp dep.id
                ⟨cur.path ++ [dep.id],
                 ⟨cur.timing.optimisticMs + nd.2.optimisticMs,
                  cur.timing.pessimisticMs + nd.2.pessimisticMs⟩⟩
            else lp),
         (if dep.dependsOn.all (fun d => processed.contains d) &&
             !(q.contains dep.id) then q ++ [dep.id] else q)) := by
  by_cases h1 : dep.dependsOn.contains n = true
  · cases h2 : Reg.lookupA nodeMap dep.id with
    | none =>
      refine Or.inl ⟨?_, Or.inr rfl⟩
      simp only [Planner.relaxOne]
      rw [if_pos h1, h2]
    | some nd =>
      refine Or.inr ⟨nd, h1, rfl, ?_⟩
      simp only [Planner.relaxOne]
      rw [if_pos h1, h2]
  · have h1' : dep.dependsOn.contains n = false := by
      cases hb : dep.dependsOn.contains n
      · rfl
      · exact absurd hb h1
    refine Or.inl ⟨?_, Or.inl h1'⟩
    simp only [Planner.relaxOne]
    rw [if_neg h1]

/-- The longest-path table after one relaxation step: either unchanged
(with the no-update reason recorded) or upserted with the new candidate
(which then dominates any previous entry). -/
theorem relaxOne_fst
    (nodeMap : List (String × (List String × Planner.PathTiming)))
    (processed : List String) (n : String) (cur : Planner.LPEntry)
    (dep : Reg.PipelineNodeDefinition) (lp : List (String × Planner.LPEntry))
    (q : List String) :
    ((Planner.relaxOne nodeMap processed n cur dep lp q).1 = lp ∧
      (dep.dependsOn.contains n = false ∨
       Reg.lookupA nodeMap dep.id = none ∨
       ∃ nd dp, Reg.lookupA nodeMap dep.id = some nd ∧
         Reg.lookupA lp dep.id = some dp ∧
         cur.timing.pessimisticMs + nd.2.pessimisticMs ≤
           dp.timing.pessimisticMs)) ∨
    (∃ nd, Reg.lookupA nodeMap dep.id = some nd ∧
      dep.dependsOn.contains n = true ∧
      (Planner.relaxOne nodeMap processed n cur dep lp q).1 =
        Reg.upsert lp dep.id
          ⟨cur.path ++ [dep.id],
           ⟨cur.timing.optimisticMs + nd.2.optimisticMs,
            cur.timing.pessimisticMs + nd.2.pessimisticMs⟩⟩ ∧
      (∀ dp, Reg.lookupA lp dep.id = some dp →
        dp.timing.pessimisticMs ≤
          cur.timing.pessimisticMs + nd.2.pessimisticMs)) := by
  rcases relaxOne_cases nodeMap processed n cur dep lp q with
    ⟨heq, hcond⟩ | ⟨nd, h1, h2, heq⟩
  · refine Or.inl ⟨by rw [heq], ?_⟩
    rcases hcond with h | h
    · exact Or.inl h
    · exact Or.inr (Or.inl h)
  · cases hlp : Reg.lookupA lp dep.id with
    | none =>
      refine Or.inr ⟨nd, h2, h1, ?_, ?_⟩
      · simp only [heq, hlp]
      · intro dp hdp
        cases hdp
    | some dp =>
      by_cases hcmp : cur.timing.pessimisticMs + nd.2.pessimisticMs >
          dp.timing.pessimisticMs ∨
          (cur.timing.pessimisticMs + nd.2.pessimisticMs =
            dp.timing.pessimisticMs ∧
           cur.timing.optimisticMs + nd.2.optimisticMs >
            dp.timing.optimisticMs)
      · refine Or.inr ⟨nd, h2, h1, ?_, ?_⟩
        · simp only [heq, hlp]
          rw [if_pos hcmp]
        · intro dp' hdp'
          injection hdp' with hdp'
          subst hdp'
          rcases hcmp with h | h
          · exact le_of_lt h
          · exact le_of_eq h.1.symm
      · refine Or.inl ⟨by simp only [heq, hlp]; rw [if_neg hcmp],
          Or.inr (Or.inr ⟨nd, dp, h2, rfl, ?_⟩)⟩
        push_neg at hcmp
        exact hcmp.1

/-- The queue after one relaxation step: unchanged or extended by the
dependent, which then satisfies the enqueue conditions and has a table
entry. -/
theorem relaxOne_snd
    (nodeMap : List (String × (List String × Planner.PathTiming)))
    (processed : List String) (n : String) (cur : Planner.LPEntry)
    (dep : Reg.PipelineNodeDefinition) (lp : List (String × Planner.LPEntry))
    (q : List String) :
    ((Planner.relaxOne nodeMap processed n cur dep lp q).2 = q) ∨
    ((Planner.relaxOne nodeMap processed n cur dep lp q).2 = q ++ [dep.id] ∧
      dep.dependsOn.contains n = true ∧
      (∃ nd, Reg.lookupA nodeMap dep.id = some nd) ∧
      dep.dependsOn.all (fun d => processed.contains d) = true ∧
      ∃ e, Reg.lookupA
        (Planner.relaxOne nodeMap processed n cur dep lp q).1 dep.id =
        some e) := by
  rcases relaxOne_cases nodeMap processed n cur dep lp q with
    ⟨heq, hcond⟩ | ⟨nd, h1, h2, heq⟩
  · exact Or.inl (by rw [heq])
  · by_cases hq : (dep.dependsOn.all (fun d => processed.contains d) &&
        !(q.contains dep.id)) = true
    · refine Or.inr ⟨by rw [heq, if_pos hq], h1, ⟨nd, h2⟩,
        (by rw [Bool.and_eq_true] at hq; exact hq.1), ?_⟩
      rcases relaxOne_fst nodeMap processed n cur dep lp q with
        ⟨hf, hcond2⟩ | ⟨nd', _, _, hf, _⟩
      · rcases hcond2 with h | h | ⟨nd', dp, _, hlp, _⟩
        · rw [h] at h1; cases h1
        · rw [h] at h2; cases h2
        · exact ⟨dp, by rw [hf]; exact hlp⟩
      · exact ⟨_, by rw [hf]; exact lookupA_upsert_self lp dep.id _⟩
    · exact Or.inl (by rw [heq, if_neg hq])

/-- A dependent of the processed node whose dependencies are all
processed ends up in the queue after its relaxation step. -/
theorem relaxOne_enqueue
    (nodeMap : List (String × (List String × Planner.PathTiming)))
    (processed : List String) (n : String) (cur : Planner.LPEntry)
    (dep : Reg.PipelineNodeDefinition) (lp : List (String × Planner.LPEntry))
    (q : List String)
    (h1 : dep.dependsOn.contains n = true)
    (hall : dep.dependsOn.all (fun d => processed.contains d) = true)
    (nd : List String × Planner.PathTiming)
    (h2 : Reg.lookupA nodeMap dep.id = some nd) :
    dep.id ∈ (Planner.relaxOne nodeMap processed n cur dep lp q).2 := by
  rcases relaxOne_cases nodeMap processed n cur dep lp q with
    ⟨heq, hcond⟩ | ⟨nd', h1', h2', heq⟩
  · rcases hcond with h | h
    · rw [h] at h1; cases h1
    · rw [h] at h2; cases h2
  · rw [heq]
    by_cases hq : (dep.dependsOn.all (fun d => processed.contains d) &&
        !(q.contains dep.id)) = true
    · rw [if_pos hq]
      exact List.mem_append_right _ (List.mem_singleton_self _)
    · rw [if_neg hq]
      have : (q.contains dep.id) = true := by
        cases hb : q.contains dep.id
        · rw [hall, hb] at hq
          exact absurd rfl hq
        · rfl
      exact contains_iff_mem.mp this

/-- One relaxation step preserves table keys and never decreases their
pessimistic values. -/
theorem relaxOne_mono
    (nodeMap : List (String × (List String × Planner.PathTiming)))
    (processed : List String) (n : String) (cur : Planner.LPEntry)
    (dep : Reg.PipelineNodeDefinition) (lp : List (String × Planner.LPEntry))
    (q : List String) (k : String) (e : Planner.LPEntry)
    (he : Reg.lookupA lp k = some e) :
    ∃ e', Reg.lookupA (Planner.relaxOne nodeMap processed n cur dep lp q).1
        k = some e' ∧
      e.timing.pessimisticMs ≤ e'.timing.pessimisticMs := by
  rcases relaxOne_fst nodeMap processed n cur dep lp q with
    ⟨hf, -⟩ | ⟨nd, -, -, hf, hdom⟩
  · exact ⟨e, by rw [hf]; exact he, le_refl _⟩
  · by_cases hk : k = dep.id
    · subst hk
      refine ⟨_, by rw [hf]; exact lookupA_upsert_self lp dep.id _, ?_⟩
      exact hdom e he
    · exact ⟨e, by rw [hf, lookupA_upsert_ne lp dep.id _ k hk]; exact he,
        le_refl _⟩

/-- Every table entry after one relaxation step is an old entry or the
recorded new candidate of the step's dependent. -/
theorem relaxOne_new
    (nodeMap : List (String × (List String × Planner.PathTiming)))
    (processed : List String) (n : String) (cur : Planner.LPEntry)
    (dep : Reg.PipelineNodeDefinition) (lp : List (String × Planner.LPEntry))
    (q : List String) (k : String) (e' : Planner.LPEntry)
    (he' : Reg.lookupA (Planner.relaxOne nodeMap processed n cur dep lp q).1
      k = some e') :
    Reg.lookupA lp k = some e' ∨
    (k = dep.id ∧ dep.dependsOn.contains n = true ∧
      ∃ nd, Reg.lookupA nodeMap dep.id = some nd ∧
        e' = ⟨cur.path ++ [dep.id],
          ⟨cur.timing.optimisticMs + nd.2.optimisticMs,
           cur.timing.pessimisticMs + nd.2.pessimisticMs⟩⟩) := by
  rcases relaxOne_fst nodeMap processed n cur dep lp q with
    ⟨hf, -⟩ | ⟨nd, h2, h1, hf, -⟩
  · rw [hf] at he'
    exact Or.inl he'
  · by_cases hk : k = dep.id
    · subst hk
      rw [hf, lookupA_upsert_self lp dep.id _] at he'
      injection he' with he'
      exact Or.inr ⟨rfl, h1, nd, h2, he'.symm⟩
    · rw [hf, lookupA_upsert_ne lp dep.id _ k hk] at he'
      exact Or.inl he'

/-- One relaxation step leaves every key other than the dependent's id
untouched. -/
theorem relaxOne_untouched
    (nodeMap : List (String × (List String × Planner.PathTiming)))
    (processed : List String) (n : String) (cur : Planner.LPEntry)
    (dep : Reg.PipelineNodeDefinition) (lp : List (String × Planner.LPEntry))
    (q : List String) (k : String) (hk : k ≠ dep.id) :
    Reg.lookupA (Planner.relaxOne nodeMap processed n cur dep lp q).1 k =
      Reg.lookupA lp k := by
  rcases relaxOne_fst nodeMap processed n cur dep lp q with
    ⟨hf, -⟩ | ⟨nd, -, -, hf, -⟩
  · rw [hf]
  · rw [hf, lookupA_upsert_ne lp dep.id _ k hk]

/-- After relaxing a dependent of the processed node, its table entry
dominates the new candidate distance. -/
theorem relaxOne_target
    (nodeMap : List (String × (List String × Planner.PathTiming)))
    (processed : List String) (n : String) (cur : Planner.LPEntry)
    (dep : Reg.PipelineNodeDefinition) (lp : List (String × Planner.LPEntry))
    (q : List String)
    (h1 : dep.dependsOn.contains n = true)
    (nd : List String × Planner.PathTiming)
    (h2 : Reg.lookupA nodeMap dep.id = some nd) :
    ∃ e', Reg.lookupA (Planner.relaxOne nodeMap processed n cur dep lp q).1
        dep.id = some e' ∧
      cur.timing.pessimisticMs + nd.2.pessimisticMs ≤
        e'.timing.pessimisticMs := by
  rcases relaxOne_fst nodeMap processed n cur dep lp q with
    ⟨hf, hcond⟩ | ⟨nd', h2', -, hf, -⟩
  · rcases hcond with h | h | ⟨nd', dp, hnd', hlp, hble⟩
    · rw [h] at h1; cases h1
    · rw [h] at h2; cases h2
    · rw [h2] at hnd'
      injection hnd' with hnd'
      subst hnd'
      exact ⟨dp, by rw [hf]; exact hlp, hble⟩
  · rw [h2] at h2'
    injection h2' with h2'
    subst h2'
    exact ⟨_, by rw [hf]; exact lookupA_upsert_self lp dep.id _, le_refl _⟩

/-- The relaxation sweep preserves table keys and never decreases their
pessimistic values. -/
theorem relaxAll_mono
    (nodeMap : List (String × (List String × Planner.PathTiming)))
    (processed : List String) (n : String) (cur : Planner.LPEntry) :
    ∀ (ns : List Reg.PipelineNodeDefinition)
      (st : List (String × Planner.LPEntry) × List String)
      (k : String) (e : Planner.LPEntry),
    Reg.lookupA st.1 k = some e →
    ∃ e', Reg.lookupA (Planner.relaxAll nodeMap processed n cur ns st).1 k =
        some e' ∧
      e.timing.pessimisticMs ≤ e'.timing.pessimisticMs := by
  intro ns
  induction ns with
  | nil => intro st k e he; exact ⟨e, he, le_refl _⟩
  | cons dep rest ih =>
    intro st k e he
    obtain ⟨e1, he1, hle1⟩ :=
      relaxOne_mono nodeMap processed n cur dep st.1 st.2 k e he
    obtain ⟨e', he', hle'⟩ :=
      ih (Planner.relaxOne nodeMap processed n cur dep st.1 st.2) k e1 he1
    exact ⟨e', he', le_trans hle1 hle'⟩

/-- Every table entry after the relaxation sweep is an old entry or the
recorded candidate of some dependent of the processed node. -/
theorem relaxAll_new
    (nodeMap : List (String × (List String × Planner.PathTiming)))
    (processed : List String) (n : String) (cur : Planner.LPEntry) :
    ∀ (ns : List Reg.PipelineNodeDefinition)
      (st : List (String × Planner.LPEntry) × List String)
      (k : String) (e' : Planner.LPEntry),
    Reg.lookupA (Planner.relaxAll nodeMap processed n cur ns st).1 k =
      some e' →
    Reg.lookupA st.1 k = some e' ∨
    ∃ dep ∈ ns, k = dep.id ∧ dep.dependsOn.contains n = true ∧
      ∃ nd, Reg.lookupA nodeMap dep.id = some nd ∧
        e' = ⟨cur.path ++ [dep.id],
          ⟨cur.timing.optimisticMs + nd.2.optimisticMs,
           cur.timing.pessimisticMs + nd.2.pessimisticMs⟩⟩ := by
  intro ns
  induction ns with
  | nil => intro st k e' he'; exact Or.inl he'
  | cons dep rest ih =>
    intro st k e' he'
    rcases ih (Planner.relaxOne nodeMap processed n cur dep st.1 st.2)
        k e' he' with hold | ⟨d, hd, rest'⟩
    · rcases relaxOne_new nodeMap processed n cur dep st.1 st.2 k e' hold with
        h | ⟨hk, h1, nd, h2, hval⟩
      · exact Or.inl h
      · exact Or.inr ⟨dep, List.mem_cons_self dep rest, hk, h1, nd, h2, hval⟩
    · exact Or.inr ⟨d, List.mem_cons_of_mem dep hd, rest'⟩

/-- The relaxation sweep leaves keys carried by no dependent of the
sweep untouched. -/
theorem relaxAll_untouched
    (nodeMap : List (String × (List String × Planner.PathTiming)))
    (processed : List String) (n : String) (cur : Planner.LPEntry) :
    ∀ (ns : List Reg.PipelineNodeDefinition)
      (st : List (String × Planner.LPEntry) × List String) (k : String),
    (∀ dep ∈ ns, dep.id ≠ k) →
    Reg.lookupA (Planner.relaxAll nodeMap processed n cur ns st).1 k =
      Reg.lookupA st.1 k := by
  intro ns
  induction ns with
  | nil => intro st k _; rfl
  | cons dep rest ih =>
    intro st k hk
    rw [show Planner.relaxAll nodeMap processed n cur (dep :: rest) st =
      Planner.relaxAll nodeMap processed n cur rest
        (Planner.relaxOne nodeMap processed n cur dep st.1 st.2) from rfl]
    rw [ih _ k (fun d hd => hk d (List.mem_cons_of_mem dep hd))]
    exact relaxOne_untouched nodeMap processed n cur dep st.1 st.2 k
      (fun h => hk dep (List.mem_cons_self dep rest) h.symm)

/-- The queue after the relaxation sweep extends the old queue by at
most one justified enqueue per swept node. -/
theorem relaxAll_q
    (nodeMap : List (String × (List String × Planner.PathTiming)))
    (processed : List String) (n : String) (cur : Planner.LPEntry) :
    ∀ (ns : List Reg.PipelineNodeDefinition)
      (st : List (String × Planner.LPEntry) × List String),
    ∃ suf, (Planner.relaxAll nodeMap processed n cur ns st).2 =
        st.2 ++ suf ∧
      suf.length ≤ ns.length ∧
      ∀ x ∈ suf, ∃ dep ∈ ns, x = dep.id ∧
        dep.dependsOn.contains n = true ∧
        (∃ nd, Reg.lookupA nodeMap dep.id = some nd) ∧
        dep.dependsOn.all (fun d => processed.contains d) = true ∧
        ∃ e, Reg.lookupA
          (Planner.relaxAll nodeMap processed n cur ns st).1 x = some e := by
  intro ns
  induction ns with
  | nil =>
    intro st
    exact ⟨[], by rw [List.append_nil]; rfl, Nat.le_refl _,
      fun x hx => by cases hx⟩
  | cons dep rest ih =>
    intro st
    obtain ⟨suf, hsuf, hlen, hjust⟩ :=
      ih (Planner.relaxOne nodeMap processed n cur dep st.1 st.2)
    rcases relaxOne_snd nodeMap processed n cur dep st.1 st.2 with
      hq | ⟨hq, h1, hnd, hall, e0, he0⟩
    · refine ⟨suf, ?_, Nat.le_succ_of_le hlen, ?_⟩
      · rw [show Planner.relaxAll nodeMap processed n cur (dep :: rest) st =
          Planner.relaxAll nodeMap processed n cur rest
            (Planner.relaxOne nodeMap processed n cur dep st.1 st.2) from rfl,
          hsuf, hq]
      · intro x hx
        obtain ⟨d, hd, hrest⟩ := hjust x hx
        exact ⟨d, List.mem_cons_of_mem dep hd, hrest⟩
    · refine ⟨dep.id :: suf, ?_, Nat.succ_le_succ hlen, ?_⟩
      · rw [show Planner.relaxAll nodeMap processed n cur (dep :: rest) st =
          Planner.relaxAll nodeMap processed n cur rest
            (Planner.relaxOne nodeMap processed n cur dep st.1 st.2) from rfl,
          hsuf, hq, List.append_assoc]
        rfl
      · intro x hx
        rcases List.mem_cons.mp hx with heq | hmem
        · subst heq
          obtain ⟨e', he', -⟩ := relaxAll_mono nodeMap processed n cur rest
            (Planner.relaxOne nodeMap processed n cur dep st.1 st.2)
            dep.id e0 he0
          exact ⟨dep, List.mem_cons_self dep rest, rfl, h1, hnd, hall,
            e', he'⟩
        · obtain ⟨d, hd, hrest⟩ := hjust x hmem
          exact ⟨d, List.mem_cons_of_mem dep hd, hrest⟩

/-- After the sweep for a processed node, every dependent's table entry
dominates the candidate distance through that node. -/
theorem relaxAll_target
    (nodeMap : List (String × (List String × Planner.PathTiming)))
    (processed : List String) (n : String) (cur : Planner.LPEntry) :
    ∀ (ns : List Reg.PipelineNodeDefinition)
      (st : List (String × Planner.LPEntry) × List String)
      (dep : Reg.PipelineNodeDefinition), dep ∈ ns →
    dep.dependsOn.contains n = true →
    ∀ nd, Reg.lookupA nodeMap dep.id = some nd →
    ∃ e', Reg.lookupA (Planner.relaxAll nodeMap processed n cur ns st).1
        dep.id = some e' ∧
      cur.timing.pessimisticMs + nd.2.pessimisticMs ≤
        e'.timing.pessimisticMs := by
  intro ns
  induction ns with
  | nil => intro st dep hdep; cases hdep
  | cons d rest ih =>
    intro st dep hdep h1 nd h2
    rcases List.mem_cons.mp hdep with heq | hmem
    · subst heq
      obtain ⟨e1, he1, hle1⟩ :=
        relaxOne_target nodeMap processed n cur dep st.1 st.2 h1 nd h2
      obtain ⟨e', he', hle'⟩ := relaxAll_mono nodeMap processed n cur rest
        (Planner.relaxOne nodeMap processed n cur dep st.1 st.2)
        dep.id e1 he1
      exact ⟨e', he', le_trans hle1 hle'⟩
    · exact ih (Planner.relaxOne nodeMap processed n cur d st.1 st.2)
        dep hmem h1 nd h2

/-- A dependent of the processed node whose dependencies are all
processed is in the queue after the sweep. -/
theorem relaxAll_enqueue
    (nodeMap : List (String × (List String × Planner.PathTiming)))
    (processed : List String) (n : String) (cur : Planner.LPEntry) :
    ∀ (ns : List Reg.PipelineNodeDefinition)
      (st : List (String × Planner.LPEntry) × List String)
      (dep : Reg.PipelineNodeDefinition), dep ∈ ns →
    dep.dependsOn.contains n = true →
    dep.dependsOn.all (fun d => processed.contains d) = true →
    ∀ nd, Reg.lookupA nodeMap dep.id = some nd →
    dep.id ∈ (Planner.relaxAll nodeMap processed n cur ns st).2 := by
  intro ns
  induction ns with
  | nil => intro st dep hdep; cases hdep
  | cons d rest ih =>
    intro st dep hdep h1 hall nd h2
    rcases List.mem_cons.mp hdep with heq | hmem
    · subst heq
      have hmem1 := relaxOne_enqueue nodeMap processed n cur dep st.1 st.2
        h1 hall nd h2
      obtain ⟨suf, hsuf, -, -⟩ := relaxAll_q nodeMap processed n cur rest
        (Planner.relaxOne nodeMap processed n cur dep st.1 st.2)
      rw [show Planner.relaxAll nodeMap processed n cur (dep :: rest) st =
        Planner.relaxAll nodeMap processed n cur rest
          (Planner.relaxOne nodeMap processed n cur dep st.1 st.2) from rfl,
        hsuf]
      exact List.mem_append_left suf hmem1
    · exact ih (Planner.relaxOne nodeMap processed n cur d st.1 st.2)
        dep hmem h1 hall nd h2

/-- One relaxation step leaves a key untouched when its carrier does not
depend on the processed node. -/
theorem relaxOne_untouched2
    (nodeMap : List (String × (List String × Planner.PathTiming)))
    (processed : List String) (n : String) (cur : Planner.LPEntry)
    (dep : Reg.PipelineNodeDefinition) (lp : List (String × Planner.LPEntry))
    (q : List String) (k : String)
    (h : dep.id = k → dep.dependsOn.contains n = false) :
    Reg.lookupA (Planner.relaxOne nodeMap processed n cur dep lp q).1 k =
      Reg.lookupA lp k := by
  by_cases hk : k = dep.id
  · rcases relaxOne_cases nodeMap processed n cur dep lp q with
      ⟨heq, -⟩ | ⟨nd, h1, -, -⟩
    · rw [heq]
    · rw [h hk.symm] at h1
      cases h1
  · exact relaxOne_untouched nodeMap processed n cur dep lp q k hk

/-- The relaxation sweep leaves a key untouched when no carrier of that
key depends on the processed node. -/
theorem relaxAll_untouched2
    (nodeMap : List (String × (List String × Planner.PathTiming)))
    (processed : List String) (n : String) (cur : Planner.LPEntry) :
    ∀ (ns : List Reg.PipelineNodeDefinition)
      (st : List (String × Planner.LPEntry) × List String) (k : String),
    (∀ dep ∈ ns, dep.id = k → dep.dependsOn.contains n = false) →
    Reg.lookupA (Planner.relaxAll nodeMap processed n cur ns st).1 k =
      Reg.lookupA st.1 k := by
  intro ns
  induction ns with
  | nil => intro st k _; rfl
  | cons dep rest ih =>
    intro st k hk
    rw [show Planner.relaxAll nodeMap processed n cur (dep :: rest) st =
      Planner.relaxAll nodeMap processed n cur rest
        (Planner.relaxOne nodeMap processed n cur dep st.1 st.2) from rfl]
    rw [ih _ k (fun d hd => hk d (List.mem_cons_of_mem dep hd))]
    exact relaxOne_untouched2 nodeMap processed n cur dep st.1 st.2 k
      (hk dep (List.mem_cons_self dep rest))

/-- The longest-path loop returns its table when the queue is empty. -/
theorem goCP_nil (defn : Reg.PipelineDefinition)
    (nodeMap : List (String × (List String × Planner.PathTiming)))
    (fuel : Nat) (lp : List (String × Planner.LPEntry))
    (processed : List String) :
    Planner.goCP defn nodeMap fuel lp processed [] = lp := by
  cases fuel with
  | zero => rfl
  | succ f => rfl

/-- The longest-path loop, run with sufficient fuel from an invariant
state, drains its queue while maintaining the invariant. -/
theorem goCP_main (defn : Reg.PipelineDefinition)
    (meta : Planner.MetadataByNodeId)
    (hnd : (defn.nodes.map (·.id)).Nodup)
    (hdeps : ∀ n ∈ defn.nodes, ∀ d ∈ n.dependsOn,
      d ∈ defn.nodes.map (·.id))
    (hacy : Planner.AcyclicNodes defn.nodes) :
    ∀ (fuel : Nat) (lp : List (String × Planner.LPEntry))
      (processed q : List String),
    Planner.CPInv defn meta lp processed q →
    q.length + ((defn.nodes.map (·.id)).filter
      (fun i => !(processed.contains i))).length *
      (defn.nodes.length + 1) ≤ fuel →
    ∃ processed', Planner.CPInv defn meta
      (Planner.goCP defn (Planner.buildNodeMap meta defn.nodes)
        fuel lp processed q)
      processed' [] := by
  intro fuel
  induction fuel with
  | zero =>
    intro lp processed q hinv hfuel
    cases q with
    | nil =>
      rw [goCP_nil]
      exact ⟨processed, hinv⟩
    | cons n0 rest => simp at hfuel
  | succ f ih =>
    intro lp processed q hinv hfuel
    cases q with
    | nil =>
      rw [goCP_nil]
      exact ⟨processed, hinv⟩
    | cons n0 rest =>
      by_cases hpr : processed.contains n0 = true
      · -- already processed: skip
        have hstep : Planner.goCP defn (Planner.buildNodeMap meta defn.nodes)
            (f + 1) lp processed (n0 :: rest) =
            Planner.goCP defn (Planner.buildNodeMap meta defn.nodes)
              f lp processed rest := by
          simp only [Planner.goCP]
          rw [if_pos hpr]
        rw [hstep]
        refine ih lp processed rest ?_ ?_
        · exact
            { sound := hinv.sound
              procUB := hinv.procUB
              relaxed := hinv.relaxed
              procClosed := hinv.procClosed
              queueDeps := fun v hv =>
                hinv.queueDeps v (List.mem_cons_of_mem n0 hv)
              progress := fun m hm hd => by
                rcases hinv.progress m hm hd with h | h
                · exact Or.inl h
                · rcases List.mem_cons.mp h with heq | hmem
                  · exact Or.inl (heq ▸ contains_iff_mem.mp hpr)
                  · exact Or.inr hmem
              queueNode := fun v hv =>
                hinv.queueNode v (List.mem_cons_of_mem n0 hv)
              queueLP := fun v hv =>
                hinv.queueLP v (List.mem_cons_of_mem n0 hv)
              entrySeed := hinv.entrySeed }
        · rw [List.length_cons] at hfuel
          omega
      · cases hnm : Reg.lookupA (Planner.buildNodeMap meta defn.nodes) n0 with
        | none =>
          have hstep : Planner.goCP defn
              (Planner.buildNodeMap meta defn.nodes)
              (f + 1) lp processed (n0 :: rest) =
              Planner.goCP defn (Planner.buildNodeMap meta defn.nodes)
                f lp (n0 :: processed) rest := by
            simp only [Planner.goCP]
            rw [if_neg hpr, hnm]
          rw [hstep]
          have hn0 : n0 ∉ defn.nodes.map (·.id) := by
            intro hc
            obtain ⟨m, hm, hmid⟩ := List.mem_map.mp hc
            rw [← hmid, nmap_lookup meta defn.nodes hnd m hm] at hnm
            cases hnm
          refine ih lp (n0 :: processed) rest ?_ ?_
          · refine
              { sound := hinv.sound
                procUB := fun v hv m hm hmv => ?_
                relaxed := fun u hu m hm hudep => ?_
                procClosed := fun v hv m hm hmv => ?_
                queueDeps := fun v hv m hm hmv d hd => List.mem_cons_of_mem n0
                  (hinv.queueDeps v (List.mem_cons_of_mem n0 hv) m hm hmv d hd)
                progress := fun m hm hd => ?_
                queueNode := fun v hv =>
                  hinv.queueNode v (List.mem_cons_of_mem n0 hv)
                queueLP := fun v hv =>
                  hinv.queueLP v (List.mem_cons_of_mem n0 hv)
                entrySeed := hinv.entrySeed }
            · rcases List.mem_cons.mp hv with heq | hmem
              · exact absurd (heq ▸ hmv ▸ List.mem_map_of_mem (·.id) hm) hn0
              · exact hinv.procUB v hmem m hm hmv
            · rcases List.mem_cons.mp hu with heq | hmem
              · exact absurd (heq ▸ hdeps m hm u hudep) hn0
              · obtain ⟨entu, entm, h1, h2, h3⟩ :=
                  hinv.relaxed u hmem m hm hudep
                exact ⟨entu, entm, h1, h2, h3⟩
            · rcases List.mem_cons.mp hv with heq | hmem
              · exact absurd (heq ▸ hmv ▸ List.mem_map_of_mem (·.id) hm) hn0
              · exact fun d hd => List.mem_cons_of_mem n0
                  (hinv.procClosed v hmem m hm hmv d hd)
            · have hd' : ∀ d ∈ m.dependsOn, d ∈ processed := by
                intro d hdm
                rcases List.mem_cons.mp (hd d hdm) with heq | hmem
                · exact absurd (heq ▸ hdeps m hm d hdm) (heq ▸ hn0)
                · exact hmem
              rcases hinv.progress m hm hd' with h | h
              · exact Or.inl (List.mem_cons_of_mem n0 h)
              · rcases List.mem_cons.mp h with heq | hmem
                · exact absurd (heq ▸ List.mem_map_of_mem (·.id) hm) hn0
                · exact Or.inr hmem
          · have hmono : (((defn.nodes.map (·.id)).filter
                (fun i => !((n0 :: processed).contains i))).length ≤
                ((defn.nodes.map (·.id)).filter
                  (fun i => !(processed.contains i))).length) := by
              refine length_filter_mono _ _ _ ?_
              intro x hx hq
              rw [Bool.not_eq_true'] at hq ⊢
              cases hb : processed.contains x
              · rfl
              · exact absurd (by
                  rw [List.contains_cons, hb, Bool.or_true] at hq
                  exact hq) (by simp)
            rw [List.length_cons] at hfuel
            have hm2 := Nat.mul_le_mul_right (defn.nodes.length + 1) hmono
            omega
        | some nd0 =>
          obtain ⟨cur0, hcur0⟩ := hinv.queueLP n0 (List.mem_cons_self n0 rest)
          have hqn := hinv.queueNode n0 (List.mem_cons_self n0 rest)
          obtain ⟨nn0, hnn0, hnn0id⟩ := List.mem_map.mp hqn
          have hnotproc : n0 ∉ processed := fun hm =>
            hpr (contains_iff_mem.mpr hm)
          have hdeps0 : ∀ d ∈ nn0.dependsOn, d ∈ processed :=
            hinv.queueDeps n0 (List.mem_cons_self n0 rest) nn0 hnn0 hnn0id
          have hsound0 := hinv.sound n0 cur0 hcur0
          have hstep : Planner.goCP defn
              (Planner.buildNodeMap meta defn.nodes)
              (f + 1) lp processed (n0 :: rest) =
              Planner.goCP defn (Planner.buildNodeMap meta defn.nodes) f
                (Planner.relaxAll (Planner.buildNodeMap meta defn.nodes)
                  (n0 :: processed) n0 cur0 defn.nodes (lp, rest)).1
                (n0 :: processed)
                (Planner.relaxAll (Planner.buildNodeMap meta defn.nodes)
                  (n0 :: processed) n0 cur0 defn.nodes (lp, rest)).2 := by
            simp only [Planner.goCP]
            rw [if_neg hpr, hnm, hcur0, Option.getD_some]
          rw [hstep]
          have hfrozen : ∀ v, (v = n0 ∨ v ∈ processed) →
              Reg.lookupA (Planner.relaxAll
                (Planner.buildNodeMap meta defn.nodes)
                (n0 :: processed) n0 cur0 defn.nodes (lp, rest)).1 v =
              Reg.lookupA lp v := by
            intro v hv
            refine relaxAll_untouched2 _ _ _ _ defn.nodes (lp, rest) v ?_
            intro dep hdep hdid
            cases hb : dep.dependsOn.contains n0
            · rfl
            · exfalso
              have hn0dep : n0 ∈ dep.dependsOn := contains_iff_mem.mp hb
              rcases hv with heq | hmem
              · have hdeq : dep = nn0 := node_id_inj defn hnd hdep hnn0
                  (by rw [hdid, heq, hnn0id])
                rw [hdeq] at hn0dep
                exact no_self_dep defn.nodes hacy nn0 hnn0
                  (hnn0id.symm ▸ hn0dep)
              · exact hnotproc (hinv.procClosed dep.id
                  (hdid.symm ▸ hmem) dep hdep rfl n0 hn0dep)
          have hidt0 : Planner.idTiming defn meta n0 =
              Planner.nodeTiming meta nn0 := by
            rw [← hnn0id]
            exact idTiming_eq defn meta hnd nn0 hnn0
          have hub0 : ∀ p, Planner.IsRootPath defn p →
              p.getLast? = some n0 →
              Planner.pessSum defn meta p ≤ cur0.timing.pessimisticMs := by
            intro p hp hl
            rcases rootPath_split defn p n0 hp hl with ⟨heq, hent⟩ |
              ⟨p', u, heq, hp', hl', hedge⟩
            · obtain ⟨ne, hne, hneid, hnedeps⟩ := hent
              have hne_eq : ne = nn0 := node_id_inj defn hnd hne hnn0
                (by rw [hneid, hnn0id])
              obtain ⟨ent, hentlk, hentpess⟩ := hinv.entrySeed nn0 hnn0
                (by rw [← hne_eq]; exact hnedeps)
              rw [hnn0id, hcur0] at hentlk
              injection hentlk with hentlk
              subst heq
              rw [Planner.pessSum]
              simp only [List.map_cons, List.map_nil, List.sum_cons,
                List.sum_nil, add_zero]
              rw [show (Planner.idTiming defn meta n0).pessimisticMs =
                (Planner.nodeTiming meta nn0).pessimisticMs from
                by rw [hidt0]]
              rw [hentlk]
              exact le_of_eq hentpess.symm
            · obtain ⟨m, hm, hmid, hudep⟩ := hedge
              have hmeq : m = nn0 := node_id_inj defn hnd hm hnn0
                (by rw [hmid, hnn0id])
              have hudep2 : u ∈ nn0.dependsOn := hmeq ▸ hudep
              have hu_proc : u ∈ processed := hdeps0 u hudep2
              obtain ⟨nu, hnu, hnuid⟩ := List.mem_map.mp
                (hdeps nn0 hnn0 u hudep2)
              obtain ⟨entu, hentu, hubu⟩ := hinv.procUB u hu_proc nu hnu hnuid
              obtain ⟨entu2, entn, hentu2, hentn, hble⟩ :=
                hinv.relaxed u hu_proc nn0 hnn0 hudep2
              rw [hentu] at hentu2
              injection hentu2 with hentu2
              rw [← hentu2] at hble
              rw [hnn0id, hcur0] at hentn
              injection hentn with hentn
              rw [← hentn] at hble
              rw [heq, pessSum_append, hidt0]
              exact le_trans (add_le_add_right (hubu p' hp' hl') _) hble
          refine ih _ (n0 :: processed) _ ?_ ?_
          · refine
              { sound := fun v ent hent => ?_
                procUB := fun v hv m hm hmv => ?_
                relaxed := fun u hu m hm hudep => ?_
                procClosed := fun v hv m hm hmv => ?_
                queueDeps := fun x hx m hm hmx d hd => ?_
                progress := fun m hm hd => ?_
                queueNode := fun x hx => ?_
                queueLP := fun x hx => ?_
                entrySeed := fun m hm hdm => ?_ }
            · rcases relaxAll_new _ _ _ _ defn.nodes (lp, rest) v ent hent
                with hold | ⟨dep, hdepmem, hkeq, hcont, nd, hndeq, hval⟩
              · exact hinv.sound v ent hold
              · have hndval : nd =
                    (dep.dependsOn, Planner.nodeTiming meta dep) := by
                  rw [nmap_lookup meta defn.nodes hnd dep hdepmem] at hndeq
                  injection hndeq with h
                  exact h.symm
                subst hndval
                subst hkeq
                subst hval
                obtain ⟨hrp0, hlast0, hopt0, hpess0⟩ := hsound0
                have hedge : Planner.HasNEdge defn n0 dep.id :=
                  ⟨dep, hdepmem, rfl, contains_iff_mem.mp hcont⟩
                obtain ⟨hrp2, hlast2⟩ := rootPath_append defn cur0.path n0
                  dep.id hrp0 hlast0 hedge
                  (List.mem_map_of_mem (·.id) hdepmem)
                have hidt : Planner.idTiming defn meta dep.id =
                    Planner.nodeTiming meta dep :=
                  idTiming_eq defn meta hnd dep hdepmem
                refine ⟨hrp2, hlast2, ?_, ?_⟩
                · rw [optSum_append, hopt0, hidt]
                · rw [pessSum_append, hpess0, hidt]
            · rcases List.mem_cons.mp hv with heq | hmem
              · rw [heq]
                exact ⟨cur0, by rw [hfrozen n0 (Or.inl rfl)]; exact hcur0,
                  hub0⟩
              · obtain ⟨ent, hlk, hub⟩ := hinv.procUB v hmem m hm hmv
                exact ⟨ent, by rw [hfrozen v (Or.inr hmem)]; exact hlk, hub⟩
            · rcases List.mem_cons.mp hu with heq | hmem
              · rw [heq]
                obtain ⟨e2, he2, hble⟩ := relaxAll_target _ _ _ _
                  defn.nodes (lp, rest) m hm
                  (contains_iff_mem.mpr (heq ▸ hudep))
                  (m.dependsOn, Planner.nodeTiming meta m)
                  (nmap_lookup meta defn.nodes hnd m hm)
                exact ⟨cur0, e2,
                  by rw [hfrozen n0 (Or.inl rfl)]; exact hcur0, he2, hble⟩
              · obtain ⟨entu, entm, h1, h2, h3⟩ :=
                  hinv.relaxed u hmem m hm hudep
                obtain ⟨entm2, he2, hmole⟩ := relaxAll_mono _ _ _ _
                  defn.nodes (lp, rest) m.id entm h2
                exact ⟨entu, entm2,
                  by rw [hfrozen u (Or.inr hmem)]; exact h1, he2,
                  le_trans h3 hmole⟩
            · rcases List.mem_cons.mp hv with heq | hmem
              · have hmeq : m = nn0 := node_id_inj defn hnd hm hnn0
                  (by rw [hmv, heq, hnn0id])
                exact fun d hd => List.mem_cons_of_mem n0
                  (hdeps0 d (hmeq ▸ hd))
              · exact fun d hd => List.mem_cons_of_mem n0
                  (hinv.procClosed v hmem m hm hmv d hd)
            · obtain ⟨suf, hsufq, -, hjust⟩ := relaxAll_q _ _ _ _
                defn.nodes (lp, rest)
              rw [hsufq] at hx
              rcases List.mem_append.mp hx with hxr | hxs
              · exact List.mem_cons_of_mem n0
                  (hinv.queueDeps x (List.mem_cons_of_mem n0 hxr)
                    m hm hmx d hd)
              · obtain ⟨dep, hdepmem, hxid, -, -, hall, -⟩ := hjust x hxs
                have hmdep : m = dep := node_id_inj defn hnd hm hdepmem
                  (by rw [hmx, hxid])
                rw [hmdep] at hd
                exact contains_iff_mem.mp (List.all_eq_true.mp hall d hd)
            · by_cases hn0dep : n0 ∈ m.dependsOn
              · exact Or.inr (relaxAll_enqueue _ _ _ _ defn.nodes (lp, rest)
                  m hm (contains_iff_mem.mpr hn0dep)
                  (List.all_eq_true.mpr fun d hdm =>
                    contains_iff_mem.mpr (hd d hdm))
                  (m.dependsOn, Planner.nodeTiming meta m)
                  (nmap_lookup meta defn.nodes hnd m hm))
              · have hd2 : ∀ d ∈ m.dependsOn, d ∈ processed := by
                  intro d hdm
                  rcases List.mem_cons.mp (hd d hdm) with heq | hmem
                  · exact absurd (heq ▸ hdm) hn0dep
                  · exact hmem
                obtain ⟨suf, hsufq, -, -⟩ := relaxAll_q _ _ _ _
                  defn.nodes (lp, rest)
                rcases hinv.progress m hm hd2 with h | h
                · exact Or.inl (List.mem_cons_of_mem n0 h)
                · rcases List.mem_cons.mp h with heq | hmem
                  · refine Or.inl ?_
                    rw [heq]
                    exact List.mem_cons_self n0 processed
                  · refine Or.inr ?_
                    rw [hsufq]
                    exact List.mem_append_left suf hmem
            · obtain ⟨suf, hsufq, -, hjust⟩ := relaxAll_q _ _ _ _
                defn.nodes (lp, rest)
              rw [hsufq] at hx
              rcases List.mem_append.mp hx with hxr | hxs
              · exact hinv.queueNode x (List.mem_cons_of_mem n0 hxr)
              · obtain ⟨dep, hdepmem, hxid, -, -, -, -⟩ := hjust x hxs
                rw [hxid]
                exact List.mem_map_of_mem (·.id) hdepmem
            · obtain ⟨suf, hsufq, -, hjust⟩ := relaxAll_q _ _ _ _
                defn.nodes (lp, rest)
              rw [hsufq] at hx
              rcases List.mem_append.mp hx with hxr | hxs
              · obtain ⟨e, he⟩ := hinv.queueLP x (List.mem_cons_of_mem n0 hxr)
                obtain ⟨e2, he2, -⟩ := relaxAll_mono _ _ _ _ defn.nodes
                  (lp, rest) x e he
                exact ⟨e2, he2⟩
              · obtain ⟨dep, -, -, -, -, -, e, he⟩ := hjust x hxs
                exact ⟨e, he⟩
            · obtain ⟨ent, hlk, hpe⟩ := hinv.entrySeed m hm hdm
              refine ⟨ent, ?_, hpe⟩
              rw [relaxAll_untouched2 _ _ _ _ defn.nodes (lp, rest) m.id ?_]
              · exact hlk
              · intro dep hdep hdid
                have hdeq : dep = m := node_id_inj defn hnd hdep hm hdid
                rw [hdeq, hdm]
                rfl
          · obtain ⟨suf, hsufq, hsuflen, -⟩ := relaxAll_q
              (Planner.buildNodeMap meta defn.nodes) (n0 :: processed) n0
              cur0 defn.nodes (lp, rest)
            rw [hsufq, List.length_append]
            show rest.length + suf.length + ((defn.nodes.map (·.id)).filter
              (fun i => !((n0 :: processed).contains i))).length *
              (defn.nodes.length + 1) ≤ f
            have hprf : processed.contains n0 = false := by
              cases hb : processed.contains n0
              · rfl
              · exact absurd hb hpr
            have hUlt : ((defn.nodes.map (·.id)).filter
                (fun i => !((n0 :: processed).contains i))).length <
                ((defn.nodes.map (·.id)).filter
                  (fun i => !(processed.contains i))).length := by
              refine length_filter_lt2 _ _ _ ?_ n0 hqn ?_ ?_
              · intro x hx hq2
                rw [Bool.not_eq_true'] at hq2 ⊢
                cases hb : processed.contains x
                · rfl
                · rw [List.contains_cons, hb, Bool.or_true] at hq2
                  cases hq2
              · show (!(processed.contains n0)) = true
                rw [hprf]
                rfl
              · show (!((n0 :: processed).contains n0)) = false
                rw [List.contains_cons]
                simp
            have hm2 := Nat.mul_le_mul_right (defn.nodes.length + 1)
              (Nat.succ_le_of_lt hUlt)
            rw [Nat.succ_mul] at hm2
            rw [List.length_cons] at hfuel
            omega

/-- The entry-seeding fold of `computeCriticalPath` as a plain fold of
upserts, when every entry id is known to the node map. -/
theorem lp0_fold_eq
    (nodeMap : List (String × (List String × Planner.PathTiming))) :
    ∀ (es : List String) (acc : List (String × Planner.LPEntry)),
    (∀ e ∈ es, (Reg.lookupA nodeMap e).isSome = true) →
    es.foldl (fun acc eid => match Reg.lookupA nodeMap eid with
      | some nd => Reg.upsert acc eid ⟨[eid], nd.2⟩
      | none => acc) acc =
    es.foldl (fun acc eid => Reg.upsert acc eid
      ⟨[eid], ((Reg.lookupA nodeMap eid).getD ([], ⟨0, 0⟩)).2⟩) acc := by
  intro es
  induction es with
  | nil => intro acc _; rfl
  | cons e rest ih =>
    intro acc h
    cases hc : Reg.lookupA nodeMap e with
    | none =>
      have := h e (List.mem_cons_self e rest)
      rw [hc] at this
      cases this
    | some nd =>
      rw [List.foldl_cons, List.foldl_cons, hc, Option.getD_some]
      exact ih _ (fun x hx => h x (List.mem_cons_of_mem e hx))

/-- The initial state of the longest-path loop satisfies the loop
invariant: the table holds exactly the seeded entry singletons and the
queue holds the dependency-free node ids. -/
theorem cpinv_init (defn : Reg.PipelineDefinition)
    (meta : Planner.MetadataByNodeId)
    (hnd : (defn.nodes.map (·.id)).Nodup)
    (hent : defn.entryNodes = none) :
    Planner.CPInv defn meta
      ((Planner.entryIdsOf defn).foldl (fun acc eid =>
        match Reg.lookupA (Planner.buildNodeMap meta defn.nodes) eid with
        | some nd => Reg.upsert acc eid ⟨[eid], nd.2⟩
        | none => acc) [])
      [] (Planner.entryIdsOf defn) := by
  have hentries : Planner.entryIdsOf defn =
      (defn.nodes.filter (fun n => n.dependsOn.isEmpty)).map (·.id) := by
    rw [Planner.entryIdsOf, hent]
  have hmem_char : ∀ e ∈ Planner.entryIdsOf defn,
      ∃ n ∈ defn.nodes, n.dependsOn = [] ∧ n.id = e := by
    intro e he
    rw [hentries] at he
    obtain ⟨n, hn, hne⟩ := List.mem_map.mp he
    rw [List.mem_filter] at hn
    refine ⟨n, hn.1, ?_, hne⟩
    cases hv : n.dependsOn with
    | nil => rfl
    | cons a l => rw [hv] at hn; cases hn.2
  have hend : ((Planner.entryIdsOf defn).map (fun e => e)).Nodup := by
    rw [List.map_id', hentries]
    exact List.Nodup.sublist (List.Sublist.map _ (List.filter_sublist _)) hnd
  have hsome : ∀ e ∈ Planner.entryIdsOf defn,
      (Reg.lookupA (Planner.buildNodeMap meta defn.nodes) e).isSome =
        true := by
    intro e he
    obtain ⟨n, hn, -, hne⟩ := hmem_char e he
    rw [← hne, nmap_lookup meta defn.nodes hnd n hn]
    rfl
  have hfold := lp0_fold_eq (Planner.buildNodeMap meta defn.nodes)
    (Planner.entryIdsOf defn) [] hsome
  -- lookups in the seeded table
  have hlk : ∀ e ∈ Planner.entryIdsOf defn,
      Reg.lookupA ((Planner.entryIdsOf defn).foldl (fun acc eid =>
        match Reg.lookupA (Planner.buildNodeMap meta defn.nodes) eid with
        | some nd => Reg.upsert acc eid (⟨[eid], nd.2⟩ : Planner.LPEntry)
        | none => acc) []) e =
      some ⟨[e], ((Reg.lookupA (Planner.buildNodeMap meta defn.nodes)
        e).getD ([], ⟨0, 0⟩)).2⟩ := by
    intro e he
    rw [hfold]
    exact lookupA_foldl_upsert_mem (fun e => e)
      (fun e => (⟨[e], ((Reg.lookupA (Planner.buildNodeMap meta defn.nodes)
        e).getD ([], ⟨0, 0⟩)).2⟩ : Planner.LPEntry))
      (Planner.entryIdsOf defn) [] e he hend
  have hnone : ∀ v, v ∉ Planner.entryIdsOf defn →
      Reg.lookupA ((Planner.entryIdsOf defn).foldl (fun acc eid =>
        match Reg.lookupA (Planner.buildNodeMap meta defn.nodes) eid with
        | some nd => Reg.upsert acc eid (⟨[eid], nd.2⟩ : Planner.LPEntry)
        | none => acc) []) v = none := by
    intro v hv
    rw [hfold]
    rw [lookupA_foldl_upsert_not_mem (fun e => e)
      (fun e => (⟨[e], ((Reg.lookupA (Planner.buildNodeMap meta defn.nodes)
        e).getD ([], ⟨0, 0⟩)).2⟩ : Planner.LPEntry))
      (Planner.entryIdsOf defn) [] v
      (fun x hx hc => hv (hc ▸ hx))]
    rfl
  have hval_char : ∀ v ent,
      Reg.lookupA ((Planner.entryIdsOf defn).foldl (fun acc eid =>
        match Reg.lookupA (Planner.buildNodeMap meta defn.nodes) eid with
        | some nd => Reg.upsert acc eid (⟨[eid], nd.2⟩ : Planner.LPEntry)
        | none => acc) []) v = some ent →
      ∃ n ∈ defn.nodes, n.dependsOn = [] ∧ n.id = v ∧
        ent = ⟨[v], Planner.nodeTiming meta n⟩ := by
    intro v ent hv
    by_cases hin : v ∈ Planner.entryIdsOf defn
    · obtain ⟨n, hn, hdn, hne⟩ := hmem_char v hin
      refine ⟨n, hn, hdn, hne, ?_⟩
      rw [hlk v hin] at hv
      injection hv with hv
      rw [← hv]
      rw [show Reg.lookupA (Planner.buildNodeMap meta defn.nodes) v =
        some (n.dependsOn, Planner.nodeTiming meta n) from
        by rw [← hne]; exact nmap_lookup meta defn.nodes hnd n hn]
      rfl
    · rw [hnone v hin] at hv
      cases hv
  refine
    { sound := fun v ent hv => ?_
      procUB := fun v hv => by cases hv
      relaxed := fun u hu => by cases hu
      procClosed := fun v hv => by cases hv
      queueDeps := fun v hv m hm hmv d hd => ?_
      progress := fun m hm hd => ?_
      queueNode := fun v hv => ?_
      queueLP := fun v hv => ?_
      entrySeed := fun m hm hdm => ?_ }
  · obtain ⟨n, hn, hdn, hne, hval⟩ := hval_char v ent hv
    subst hval
    have hids : v ∈ defn.nodes.map (·.id) :=
      hne ▸ List.mem_map_of_mem (·.id) hn
    have hidt : Planner.idTiming defn meta v = Planner.nodeTiming meta n := by
      rw [← hne]
      exact idTiming_eq defn meta hnd n hn
    refine ⟨⟨⟨n, hn, hne, hdn⟩, hids⟩, rfl, ?_, ?_⟩
    · rw [Planner.optSum]
      simp only [List.map_cons, List.map_nil, List.sum_cons, List.sum_nil,
        add_zero]
      rw [hidt]
    · rw [Planner.pessSum]
      simp only [List.map_cons, List.map_nil, List.sum_cons, List.sum_nil,
        add_zero]
      rw [hidt]
  · obtain ⟨n, hn, hdn, hne⟩ := hmem_char v hv
    have hmn : m = n := node_id_inj defn hnd hm hn (by rw [hmv, hne])
    rw [hmn, hdn] at hd
    cases hd
  · have hdm : m.dependsOn = [] := by
      cases hv : m.dependsOn with
      | nil => rfl
      | cons a l =>
        exact absurd (hd a (by rw [hv]; exact List.mem_cons_self a l))
          (by intro h; cases h)
    refine Or.inr ?_
    rw [hentries]
    have hmf : m ∈ defn.nodes.filter (fun n => n.dependsOn.isEmpty) := by
      rw [List.mem_filter, hdm]
      exact ⟨hm, rfl⟩
    exact List.mem_map_of_mem (·.id) hmf
  · obtain ⟨n, hn, -, hne⟩ := hmem_char v hv
    exact hne ▸ List.mem_map_of_mem (·.id) hn
  · exact ⟨_, hlk v hv⟩
  · have hin : m.id ∈ Planner.entryIdsOf defn := by
      rw [hentries]
      have hmf : m ∈ defn.nodes.filter (fun n => n.dependsOn.isEmpty) := by
        rw [List.mem_filter, hdm]
        exact ⟨hm, rfl⟩
      exact List.mem_map_of_mem (·.id) hmf
    refine ⟨_, hlk m.id hin, ?_⟩
    show (((Reg.lookupA (Planner.buildNodeMap meta defn.nodes)
      m.id).getD ([], ⟨0, 0⟩)).2).pessimisticMs = _
    rw [nmap_lookup meta defn.nodes hnd m hm]
    rfl

/-- When the queue has drained under the invariant, every node id is
processed (acyclicity: an unprocessed source would have been enqueued).
-/
theorem cpinv_complete (defn : Reg.PipelineDefinition)
    (meta : Planner.MetadataByNodeId)
    (hdeps : ∀ n ∈ defn.nodes, ∀ d ∈ n.dependsOn,
      d ∈ defn.nodes.map (·.id))
    (hacy : Planner.AcyclicNodes defn.nodes)
    (lp : List (String × Planner.LPEntry)) (processed : List String)
    (hinv : Planner.CPInv defn meta lp processed []) :
    ∀ n ∈ defn.nodes, n.id ∈ processed := by
  by_contra hc
  push_neg at hc
  obtain ⟨n1, hn1, hn1p⟩ := hc
  have hts_sub : ∀ t ∈ ((defn.nodes.map (·.id)).filter
      (fun i => !(processed.contains i))).toFinset,
      t ∈ (defn.nodes.map (·.id)).toFinset := by
    intro t ht
    rw [List.mem_toFinset] at ht ⊢
    exact List.mem_of_mem_filter ht
  obtain ⟨t, ht, hsrc⟩ := hacy ((defn.nodes.map (·.id)).filter
      (fun i => !(processed.contains i))).toFinset
    (Finset.mem_powerset.mpr hts_sub)
    ⟨n1.id, List.mem_toFinset.mpr (by
      rw [List.mem_filter]
      refine ⟨List.mem_map_of_mem (·.id) hn1, ?_⟩
      rw [Bool.not_eq_true']
      cases hb : processed.contains n1.id
      · rfl
      · exact absurd (contains_iff_mem.mp hb) hn1p)⟩
  rw [List.mem_toFinset, List.mem_filter] at ht
  obtain ⟨nt, hnt, hntid⟩ := List.mem_map.mp ht.1
  have hdp : ∀ d ∈ nt.dependsOn, d ∈ processed := by
    intro d hd
    have hdnot : d ∉ ((defn.nodes.map (·.id)).filter
        (fun i => !(processed.contains i))).toFinset :=
      hsrc nt hnt hntid d hd
    rw [List.mem_toFinset, List.mem_filter] at hdnot
    have hdid : d ∈ defn.nodes.map (·.id) := hdeps nt hnt d hd
    cases hb : processed.contains d
    · exact absurd ⟨hdid, by rw [Bool.not_eq_true', hb]⟩ hdnot
    · exact contains_iff_mem.mp hb
  rcases hinv.progress nt hnt hdp with h | h
  · rw [hntid] at h
    have := ht.2
    rw [Bool.not_eq_true'] at this
    exact absurd (contains_iff_mem.mpr h) (by rw [this]; simp)
  · cases h

/-- Exit nodes are exactly the nodes on which no node depends. -/
theorem exit_mem_iff (defn : Reg.PipelineDefinition)
    (e : Reg.PipelineNodeDefinition) :
    e ∈ Planner.exitNodesOf defn ↔
      e ∈ defn.nodes ∧ ∀ m ∈ defn.nodes, e.id ∉ m.dependsOn := by
  rw [Planner.exitNodesOf, List.mem_filter]
  constructor
  · rintro ⟨h1, h2⟩
    refine ⟨h1, fun m hm hc => ?_⟩
    rw [Bool.not_eq_true'] at h2
    have : defn.nodes.any (fun o => o.dependsOn.contains e.id) = true :=
      List.any_eq_true.mpr ⟨m, hm, contains_iff_mem.mpr hc⟩
    rw [this] at h2
    cases h2
  · rintro ⟨h1, h2⟩
    refine ⟨h1, ?_⟩
    rw [Bool.not_eq_true']
    cases hb : defn.nodes.any (fun o => o.dependsOn.contains e.id)
    · rfl
    · obtain ⟨m, hm, hc⟩ := List.any_eq_true.mp hb
      exact absurd (contains_iff_mem.mp hc) (h2 m hm)

/-- An exit node's id is a sink id. -/
theorem exit_sink (defn : Reg.PipelineDefinition)
    (e : Reg.PipelineNodeDefinition) (he : e ∈ Planner.exitNodesOf defn) :
    Planner.IsSinkId defn e.id := by
  obtain ⟨h1, h2⟩ := (exit_mem_iff defn e).mp he
  exact ⟨List.mem_map_of_mem (·.id) h1, h2⟩

/-- A sink id is the id of some exit node. -/
theorem sink_exit (defn : Reg.PipelineDefinition) (z : String)
    (hz : Planner.IsSinkId defn z) :
    ∃ e ∈ Planner.exitNodesOf defn, e.id = z := by
  obtain ⟨hzid, hnodep⟩ := hz
  obtain ⟨nz, hnz, hnzid⟩ := List.mem_map.mp hzid
  refine ⟨nz, (exit_mem_iff defn nz).mpr ⟨hnz, ?_⟩, hnzid⟩
  intro m hm hc
  rw [hnzid] at hc
  exact hnodep m hm hc

/-- The exit-selection fold: its result originates from the accumulator
or from some exit's table entry, never decreases below the accumulator,
and dominates every exit's table entry. -/
theorem bestExit_spec (lp : List (String × Planner.LPEntry)) :
    ∀ (exits : List Reg.PipelineNodeDefinition)
      (b : Option Planner.LPEntry),
    (Planner.bestExit lp exits b = b ∨
      ∃ e ∈ exits, Reg.lookupA lp e.id = Planner.bestExit lp exits b) ∧
    (∀ entb, b = some entb → ∃ entr,
      Planner.bestExit lp exits b = some entr ∧
      entb.timing.pessimisticMs ≤ entr.timing.pessimisticMs) ∧
    (∀ e ∈ exits, ∀ ente, Reg.lookupA lp e.id = some ente →
      ∃ entr, Planner.bestExit lp exits b = some entr ∧
        ente.timing.pessimisticMs ≤ entr.timing.pessimisticMs) := by
  intro exits
  induction exits with
  | nil =>
    intro b
    refine ⟨Or.inl rfl, ?_, ?_⟩
    · intro entb hb
      exact ⟨entb, by rw [show Planner.bestExit lp [] b = b from rfl, hb],
        le_refl _⟩
    · intro e he
      cases he
  | cons e rest ih =>
    intro b
    cases hle : Reg.lookupA lp e.id with
    | none =>
      have hstep : Planner.bestExit lp (e :: rest) b =
          Planner.bestExit lp rest b := by
        simp only [Planner.bestExit, hle]
      obtain ⟨ho, hb, hr⟩ := ih b
      rw [hstep]
      refine ⟨?_, hb, ?_⟩
      · rcases ho with h | ⟨e2, he2, h2⟩
        · exact Or.inl h
        · exact Or.inr ⟨e2, List.mem_cons_of_mem e he2, h2⟩
      · intro e1 he1 ente hlk
        rcases List.mem_cons.mp he1 with heq | hmem
        · subst heq
          rw [hle] at hlk
          cases hlk
        · exact hr e1 hmem ente hlk
    | some p =>
      cases b with
      | none =>
        have hstep : Planner.bestExit lp (e :: rest) none =
            Planner.bestExit lp rest (some p) := by
          simp only [Planner.bestExit, hle]
        obtain ⟨ho, hb, hr⟩ := ih (some p)
        rw [hstep]
        refine ⟨?_, ?_, ?_⟩
        · rcases ho with h | ⟨e2, he2, h2⟩
          · refine Or.inr ⟨e, List.mem_cons_self e rest, ?_⟩
            rw [h]
            exact hle
          · exact Or.inr ⟨e2, List.mem_cons_of_mem e he2, h2⟩
        · intro entb hbb
          cases hbb
        · intro e1 he1 ente hlk
          rcases List.mem_cons.mp he1 with heq | hmem
          · subst heq
            rw [hle] at hlk
            injection hlk with hlk
            exact hb ente (by rw [hlk])
          · exact hr e1 hmem ente hlk
      | some bb =>
        by_cases hcmp : p.timing.pessimisticMs > bb.timing.pessimisticMs
        · have hstep : Planner.bestExit lp (e :: rest) (some bb) =
              Planner.bestExit lp rest (some p) := by
            simp only [Planner.bestExit, hle]
            rw [if_pos hcmp]
          obtain ⟨ho, hb, hr⟩ := ih (some p)
          rw [hstep]
          refine ⟨?_, ?_, ?_⟩
          · rcases ho with h | ⟨e2, he2, h2⟩
            · refine Or.inr ⟨e, List.mem_cons_self e rest, ?_⟩
              rw [h]
              exact hle
            · exact Or.inr ⟨e2, List.mem_cons_of_mem e he2, h2⟩
          · intro entb hbb2
            injection hbb2 with hbb2
            subst hbb2
            obtain ⟨entr, hres, hge⟩ := hb p rfl
            exact ⟨entr, hres, le_trans (le_of_lt hcmp) hge⟩
          · intro e1 he1 ente hlk
            rcases List.mem_cons.mp he1 with heq | hmem
            · subst heq
              rw [hle] at hlk
              injection hlk with hlk
              obtain ⟨entr, hres, hge⟩ := hb p rfl
              refine ⟨entr, hres, ?_⟩
              rw [← hlk]
              exact hge
            · exact hr e1 hmem ente hlk
        · have hstep : Planner.bestExit lp (e :: rest) (some bb) =
              Planner.bestExit lp rest (some bb) := by
            simp only [Planner.bestExit, hle]
            rw [if_neg hcmp]
          obtain ⟨ho, hb, hr⟩ := ih (some bb)
          rw [hstep]
          refine ⟨?_, ?_, ?_⟩
          · rcases ho with h | ⟨e2, he2, h2⟩
            · exact Or.inl h
            · exact Or.inr ⟨e2, List.mem_cons_of_mem e he2, h2⟩
          · exact hb
          · intro e1 he1 ente hlk
            rcases List.mem_cons.mp he1 with heq | hmem
            · subst heq
              rw [hle] at hlk
              injection hlk with hlk
              obtain ⟨entr, hres, hge⟩ := hb bb rfl
              refine ⟨entr, hres, ?_⟩
              rw [← hlk]
              exact le_trans (not_lt.mp hcmp) hge
            · exact hr e1 hmem ente hlk

/-- C5.  On a duplicate-free model whose dependencies reference existing
nodes, with an acyclic graph, default entries, at least one node and at
least one exit, the critical-path computation succeeds with a
root-to-sink path whose optimistic and pessimistic timings are the true
path sums and whose pessimistic sum is maximal over all root-to-sink
paths; and it fails with the no-entries error whenever the entry list is
empty.  (The unamended claim's tie-breaking rule — maximum optimistic
sum, then smallest id — is refuted by the counterexample: the source
keeps the first exit encountered under a strict pessimistic comparison
only.) -/
theorem c5_critical_path (defn : Reg.PipelineDefinition)
    (meta : Planner.MetadataByNodeId) :
    ((defn.nodes.map (·.id)).Nodup →
      (∀ n ∈ defn.nodes, ∀ d ∈ n.dependsOn, d ∈ defn.nodes.map (·.id)) →
      Planner.AcyclicNodes defn.nodes →
      defn.entryNodes = none →
      defn.nodes ≠ [] →
      Planner.exitNodesOf defn ≠ [] →
      ∃ cp, Planner.computeCriticalPath defn meta = .ok cp ∧
        Planner.IsRootToSinkPath defn cp.nodeIds ∧
        Planner.optSum defn meta cp.nodeIds = cp.timing.optimisticMs ∧
        Planner.pessSum defn meta cp.nodeIds = cp.timing.pessimisticMs ∧
        (∀ p, Planner.IsRootToSinkPath defn p →
          Planner.pessSum defn meta p ≤ cp.timing.pessimisticMs)) ∧
    ((Planner.entryIdsOf defn).isEmpty = true →
      Planner.computeCriticalPath defn meta =
        .error "Pipeline has no entry nodes") := by
  constructor
  · intro hnd hdeps hacy hent hne hex
    obtain ⟨n1, hn1⟩ := List.exists_mem_of_ne_nil defn.nodes hne
    obtain ⟨t, ht, hsrc⟩ := hacy ((defn.nodes.map (·.id)).toFinset)
      (Finset.mem_powerset.mpr (fun x hx => hx))
      ⟨n1.id, List.mem_toFinset.mpr (List.mem_map_of_mem (·.id) hn1)⟩
    rw [List.mem_toFinset] at ht
    obtain ⟨nt, hnt, hntid⟩ := List.mem_map.mp ht
    have hntdeps : nt.dependsOn = [] := by
      cases hv : nt.dependsOn with
      | nil => rfl
      | cons d ds =>
        refine absurd (List.mem_toFinset.mpr
          (hdeps nt hnt d (by rw [hv]; exact List.mem_cons_self d ds))) ?_
        exact hsrc nt hnt hntid d (by rw [hv]; exact List.mem_cons_self d ds)
    have hentries : Planner.entryIdsOf defn =
        (defn.nodes.filter (fun n => n.dependsOn.isEmpty)).map (·.id) := by
      rw [Planner.entryIdsOf, hent]
    have hentries_ne : (Planner.entryIdsOf defn).isEmpty = false := by
      rw [hentries]
      have hmem : nt.id ∈ (defn.nodes.filter
          (fun n => n.dependsOn.isEmpty)).map (·.id) := by
        have hmf : nt ∈ defn.nodes.filter (fun n => n.dependsOn.isEmpty) := by
          rw [List.mem_filter, hntdeps]
          exact ⟨hnt, rfl⟩
        exact List.mem_map_of_mem (·.id) hmf
      cases hv : (defn.nodes.filter
          (fun n => n.dependsOn.isEmpty)).map (·.id) with
      | nil => rw [hv] at hmem; cases hmem
      | cons a l => rfl
    have hU0 : ((defn.nodes.map (·.id)).filter
        (fun i => !(([] : List String).contains i))).length =
        defn.nodes.length := by
      rw [show ((defn.nodes.map (·.id)).filter
        (fun i => !(([] : List String).contains i))) =
        defn.nodes.map (·.id) from
        List.filter_eq_self.mpr (fun a _ => rfl), List.length_map]
    have hfuel0 : (Planner.entryIdsOf defn).length +
        ((defn.nodes.map (·.id)).filter
          (fun i => !(([] : List String).contains i))).length *
          (defn.nodes.length + 1) ≤
        Planner.cpFuel defn (Planner.entryIdsOf defn) := by
      rw [hU0, Planner.cpFuel, Nat.add_mul]
      have hEc : (Planner.entryIdsOf defn).length ≤
          (Planner.entryIdsOf defn).length * (defn.nodes.length + 1) :=
        Nat.le_mul_of_pos_right _ (Nat.succ_pos _)
      omega
    obtain ⟨processedF, hinvF⟩ := goCP_main defn meta hnd hdeps hacy
      (Planner.cpFuel defn (Planner.entryIdsOf defn))
      ((Planner.entryIdsOf defn).foldl (fun acc eid =>
        match Reg.lookupA (Planner.buildNodeMap meta defn.nodes) eid with
        | some nd => Reg.upsert acc eid (⟨[eid], nd.2⟩ : Planner.LPEntry)
        | none => acc) [])
      [] (Planner.entryIdsOf defn)
      (cpinv_init defn meta hnd hent) hfuel0
    have hall := cpinv_complete defn meta hdeps hacy _ processedF hinvF
    have hexlk : ∀ e ∈ Planner.exitNodesOf defn,
        ∃ ent, Reg.lookupA (Planner.goCP defn
          (Planner.buildNodeMap meta defn.nodes)
          (Planner.cpFuel defn (Planner.entryIdsOf defn))
          ((Planner.entryIdsOf defn).foldl (fun acc eid =>
            match Reg.lookupA (Planner.buildNodeMap meta defn.nodes) eid with
            | some nd => Reg.upsert acc eid (⟨[eid], nd.2⟩ : Planner.LPEntry)
            | none => acc) [])
          [] (Planner.entryIdsOf defn)) e.id = some ent ∧
        ∀ p, Planner.IsRootPath defn p → p.getLast? = some e.id →
          Planner.pessSum defn meta p ≤ ent.timing.pessimisticMs := by
      intro e he
      have hmem : e ∈ defn.nodes := ((exit_mem_iff defn e).mp he).1
      exact hinvF.procUB e.id (hall e hmem) e hmem rfl
    obtain ⟨e0, he0⟩ :=
      List.exists_mem_of_ne_nil (Planner.exitNodesOf defn) hex
    obtain ⟨ent0, hent0, -⟩ := hexlk e0 he0
    obtain ⟨ho, -, hr⟩ := bestExit_spec _ (Planner.exitNodesOf defn) none
    obtain ⟨best, hbe, -⟩ := hr e0 he0 ent0 hent0
    rcases ho with h | ⟨estar, hestar, hlkstar⟩
    · rw [h] at hbe
      cases hbe
    · rw [hbe] at hlkstar
      obtain ⟨hrp, hlast, hopt, hpess⟩ := hinvF.sound estar.id best hlkstar
      have hexE : (Planner.exitNodesOf defn).isEmpty = false := by
        cases hv : Planner.exitNodesOf defn with
        | nil => exact absurd hv hex
        | cons a l => rfl
      have heq : Planner.computeCriticalPath defn meta =
          .ok ⟨best.path, best.timing⟩ := by
        simp only [Planner.computeCriticalPath]
        rw [if_neg (by rw [hentries_ne]; exact Bool.false_ne_true)]
        rw [if_neg (by rw [hexE]; exact Bool.false_ne_true)]
        rw [hbe]
      refine ⟨⟨best.path, best.timing⟩, heq,
        ⟨hrp, estar.id, hlast, exit_sink defn estar hestar⟩,
        hopt, hpess, ?_⟩
      intro p hp
      obtain ⟨hproot, z, hzlast, hzsink⟩ := hp
      obtain ⟨ez, hez, hezid⟩ := sink_exit defn z hzsink
      obtain ⟨entz, hentz, hubz⟩ := hexlk ez hez
      have h1 : Planner.pessSum defn meta p ≤ entz.timing.pessimisticMs :=
        hubz p hproot (by rw [hezid]; exact hzlast)
      obtain ⟨entr, hres, hge⟩ := hr ez hez entz hentz
      rw [hbe] at hres
      injection hres with hres
      show Planner.pessSum defn meta p ≤ best.timing.pessimisticMs
      rw [hres]
      exact le_trans h1 hge
  · intro h
    simp only [Planner.computeCriticalPath]
    rw [if_pos h]

/-- Counterexample to the unamended C5 tie-break: both singleton paths
have the maximal pessimistic sum 10, the path through `b` has the larger
optimistic sum, yet the code returns the path through `a` (the first
exit wins under the strict pessimistic-only comparison). -/
theorem c5_counterexample :
    Planner.computeCriticalPath Ex.n5 Ex.m5 =
      .ok ⟨["a"], ⟨1, 10⟩⟩ ∧
    Planner.IsRootToSinkPath Ex.n5 ["b"] ∧
    Planner.pessSum Ex.n5 Ex.m5 ["b"] = 10 ∧
    Planner.pessSum Ex.n5 Ex.m5 ["a"] = 10 ∧
    Planner.optSum Ex.n5 Ex.m5 ["b"] = 5 ∧
    Planner.optSum Ex.n5 Ex.m5 ["a"] = 1 := by
  refine ⟨?_, ⟨⟨?_, ?_⟩, "b", rfl, ?_⟩, ?_, ?_, ?_, ?_⟩
  · simp [Planner.computeCriticalPath, Planner.buildNodeMap,
      Planner.nodeTiming, Planner.metaLookup, Reg.lookupA, Reg.upsert,
      Planner.entryIdsOf, Planner.goCP, Planner.relaxAll, Planner.relaxOne,
      Planner.exitNodesOf, Planner.bestExit, Planner.cpFuel, Ex.n5, Ex.m5]
  · exact ⟨⟨"b", Reg.NodeType.task, [], none, none⟩,
      by simp [Ex.n5], rfl, rfl⟩
  · show "b" ∈ Ex.n5.nodes.map (·.id)
    simp [Ex.n5]
  · refine ⟨by simp [Ex.n5], ?_⟩
    intro n hn
    simp [Ex.n5] at hn
    rcases hn with h | h <;> rw [h] <;> simp
  · simp [Planner.pessSum, Planner.idTiming, Planner.nodeById,
      Planner.nodeTiming, Planner.metaLookup, Reg.lookupA, Ex.n5, Ex.m5]
  · simp [Planner.pessSum, Planner.idTiming, Planner.nodeById,
      Planner.nodeTiming, Planner.metaLookup, Reg.lookupA, Ex.n5, Ex.m5]
  · simp [Planner.optSum, Planner.idTiming, Planner.nodeById,
      Planner.nodeTiming, Planner.metaLookup, Reg.lookupA, Ex.n5, Ex.m5]
  · simp [Planner.optSum, Planner.idTiming, Planner.nodeById,
      Planner.nodeTiming, Planner.metaLookup, Reg.lookupA, Ex.n5, Ex.m5]

/-- Witness for C5: the two-node model satisfies every hypothesis of the
amended theorem, whose success conjunct then produces the maximal
root-to-sink path; the nodeless model triggers the no-entries error. -/
theorem c5_witness :
    ((Ex.n5.nodes.map (·.id)).Nodup ∧
      Ex.n5.entryNodes = none ∧ Ex.n5.nodes ≠ [] ∧
      Planner.exitNodesOf Ex.n5 ≠ []) ∧
    (∃ cp, Planner.computeCriticalPath Ex.n5 Ex.m5 = .ok cp ∧
      Planner.IsRootToSinkPath Ex.n5 cp.nodeIds ∧
      Planner.optSum Ex.n5 Ex.m5 cp.nodeIds = cp.timing.optimisticMs ∧
      Planner.pessSum Ex.n5 Ex.m5 cp.nodeIds = cp.timing.pessimisticMs ∧
      (∀ p, Planner.IsRootToSinkPath Ex.n5 p →
        Planner.pessSum Ex.n5 Ex.m5 p ≤ cp.timing.pessimisticMs)) ∧
    Planner.computeCriticalPath ⟨[], none⟩ Ex.m5 =
      .error "Pipeline has no entry nodes" := by
  have hacy : Planner.AcyclicNodes Ex.n5.nodes := by
    show ∀ ts ∈ ((Ex.n5.nodes.map (·.id)).toFinset).powerset,
      ts.Nonempty →
      ∃ t ∈ ts, ∀ n ∈ Ex.n5.nodes, n.id = t → ∀ d ∈ n.dependsOn, d ∉ ts
    decide
  have hne : Ex.n5.nodes ≠ [] := by simp [Ex.n5]
  have hex : Planner.exitNodesOf Ex.n5 ≠ [] := by
    simp [Planner.exitNodesOf, Ex.n5]
  refine ⟨⟨by decide, rfl, hne, hex⟩, ?_, ?_⟩
  · exact (c5_critical_path Ex.n5 Ex.m5).1 (by decide) (by decide)
      hacy rfl hne hex
  · exact (c5_critical_path ⟨[], none⟩ Ex.m5).2 (by decide)
